import Mathlib

/-!
# Java structure extraction and dependency analysis (package `core`)

A shallow embedding of `java_ast_parser.go` and `dependency_analyzer.go`.

Conventions of the embedding:

* A Go `string` is a Lean `String` (valid Unicode text); functions that walk a
  string work on its list of characters.
* The lexer is built on the Go library `text/scanner`.  The library is not part
  of the repository; it is modelled here function by function, for the mode
  selected by `NewJavaLexer`.  Error reports of the scanner only go to the
  standard error stream and never change the tokens, so they are left out.
* The Unicode tables behind `unicode.IsLetter` and `unicode.IsDigit` are a
  parameter (`UnicodeTables`); they are consulted only for characters outside
  ASCII.
* A loop whose state shrinks at every iteration is a recursion on a fuel
  counter that starts above the size of that state; the theorems named `_fuel`
  show that the counter never runs out.
* A Go map is an association list, and the order of a `range` over a map is a
  parameter (`RangeOrder`): any rearrangement of the entries.
-/

namespace JavaCore

set_option maxRecDepth 1000000

/-! ## The Go library `text/scanner` -/

/-- Classification of the characters outside ASCII by the Go `unicode` tables. -/
structure UnicodeTables where
  /-- The table `unicode.Letter`. -/
  isLetter : Char → Bool
  /-- The table `unicode.Digit`. -/
  isDigit : Char → Bool

/-- The function `unicode.IsLetter`. -/
def unicodeIsLetter (U : UnicodeTables) (c : Char) : Bool :=
  if c.toNat < 128 then
    (('a'.toNat ≤ c.toNat && c.toNat ≤ 'z'.toNat) || ('A'.toNat ≤ c.toNat && c.toNat ≤ 'Z'.toNat))
  else U.isLetter c

/-- The function `unicode.IsDigit`. -/
def unicodeIsDigit (U : UnicodeTables) (c : Char) : Bool :=
  if c.toNat < 128 then ('0'.toNat ≤ c.toNat && c.toNat ≤ '9'.toNat) else U.isDigit c

/-- The function `unicode.IsSpace`: the characters with the property White_Space. -/
def unicodeIsSpace (c : Char) : Bool :=
  let n := c.toNat
  (9 ≤ n && n ≤ 13) || n == 0x20 || n == 0x85 || n == 0xA0 || n == 0x1680 ||
  (0x2000 ≤ n && n ≤ 0x200A) || n == 0x2028 || n == 0x2029 || n == 0x202F ||
  n == 0x205F || n == 0x3000

/-- Result of `Scanner.Scan`: a token class, or the character itself. -/
inductive ScanTok where
  | eof
  | ident
  | int
  | float
  | char
  | string
  | rawString
  | comment
  | rune (c : Char)
deriving DecidableEq, Repr

/-- The set `GoWhitespace`, which `Scanner.Init` installs: tab, newline, return, blank. -/
def isGoWhitespace (c : Char) : Bool :=
  c == '\t' || c == '\n' || c == '\r' || c == ' '

/-- The method `Scanner.isIdentRune` (no custom predicate is installed). -/
def isIdentRune (U : UnicodeTables) (c : Char) (i : Nat) : Bool :=
  c == '_' || unicodeIsLetter U c || (unicodeIsDigit U c && decide (0 < i))

/-- The function `isDecimal`. -/
def isDecimal (c : Char) : Bool := '0'.toNat ≤ c.toNat && c.toNat ≤ '9'.toNat

/-- The function `lower`: the code of the character with bit `0x20` set. -/
def lower (c : Char) : Nat := c.toNat ||| 0x20

/-- The function `isHex`. -/
def isHex (c : Char) : Bool :=
  isDecimal c || ('a'.toNat ≤ lower c && lower c ≤ 'f'.toNat)

/-- The function `digitVal`. -/
def digitVal (c : Char) : Nat :=
  if isDecimal c then c.toNat - '0'.toNat
  else if 'a'.toNat ≤ lower c && lower c ≤ 'f'.toNat then lower c - 'a'.toNat + 10
  else 16

/-- The method `Scanner.digits`: the digits and `_` separators read, and what follows them. -/
def digits (cs : List Char) (base : Nat) : List Char × List Char :=
  if base ≤ 10 then
    (cs.takeWhile (fun c => isDecimal c || c == '_'), cs.dropWhile (fun c => isDecimal c || c == '_'))
  else
    (cs.takeWhile (fun c => isHex c || c == '_'), cs.dropWhile (fun c => isHex c || c == '_'))

/-- Integer part of `Scanner.scanNumber`: the radix prefix after a leading zero.
Returns the base, the characters read and the rest. -/
def scanRadix (cs : List Char) : Nat × List Char × List Char :=
  match cs with
  | [] => (10, [], [])
  | c :: r =>
    if c = '0' then
      match r with
      | [] => (8, [c], [])
      | d :: r2 =>
        if lower d = 'x'.toNat then (16, [c, d], r2)
        else if lower d = 'o'.toNat then (8, [c, d], r2)
        else if lower d = 'b'.toNat then (2, [c, d], r2)
        else (8, [c], d :: r2)
    else (10, [], c :: r)

/-- Exponent part of `Scanner.scanNumber`: `e` or `p`, an optional sign, decimal digits. -/
def scanExponent (cs : List Char) : Option (List Char × List Char) :=
  match cs with
  | [] => none
  | c :: r =>
    if lower c = 'e'.toNat || lower c = 'p'.toNat then
      match r with
      | [] => some ([c], [])
      | s :: r2 =>
        if s = '+' || s = '-' then
          some (c :: s :: (digits r2 10).1, (digits r2 10).2)
        else some (c :: (digits r 10).1, (digits r 10).2)
    else none

/-- The method `Scanner.scanNumber` with `ScanFloats` set: token class, text read, rest.
With `seenDot` the scan starts right after a leading `.`. -/
def scanNumber (cs : List Char) (seenDot : Bool) : ScanTok × List Char × List Char :=
  -- integer part
  let radix := if seenDot then (10, [], cs) else scanRadix cs
  let base := radix.1
  let intDigits := if seenDot then ([], cs) else digits radix.2.2 base
  let dot : Bool := !seenDot && intDigits.2.head? == some '.'
  let afterDot := if dot then intDigits.2.tail else intDigits.2
  let intText := radix.2.1 ++ intDigits.1 ++ (if dot then ['.'] else [])
  -- fractional part
  let frac := if seenDot || dot then digits afterDot base else ([], afterDot)
  let tok := if seenDot || dot then ScanTok.float else ScanTok.int
  -- exponent
  match scanExponent frac.2 with
  | some (e, rest) => (ScanTok.float, intText ++ frac.1 ++ e, rest)
  | none => (tok, intText ++ frac.1, frac.2)

/-- The method `Scanner.scanDigits`: how many characters it reads. -/
def scanDigits : List Char → Nat → Nat → Nat
  | c :: cs, base, n + 1 => if digitVal c < base then 1 + scanDigits cs base n else 0
  | _, _, _ => 0

/-- The method `Scanner.scanEscape`: how many characters it reads after the backslash. -/
def scanEscape (quote : Char) (cs : List Char) : Nat :=
  match cs with
  | [] => 0
  | c :: r =>
    if c = 'a' || c = 'b' || c = 'f' || c = 'n' || c = 'r' || c = 't' || c = 'v' ||
        c = '\\' || c = quote then 1
    else if '0'.toNat ≤ c.toNat && c.toNat ≤ '7'.toNat then scanDigits (c :: r) 8 3
    else if c = 'x' then 1 + scanDigits r 16 2
    else if c = 'u' then 1 + scanDigits r 16 4
    else if c = 'U' then 1 + scanDigits r 16 8
    else 0

/-- The method `Scanner.scanString` followed by the `s.next()` of `Scan`: the text read after
the opening quote (up to and with the closing quote, or the newline that ends an unterminated
literal) and the rest.  `skip` counts the characters of a pending escape sequence. -/
def scanString (quote : Char) : Nat → List Char → List Char × List Char
  | _, [] => ([], [])
  | skip + 1, c :: cs => (c :: (scanString quote skip cs).1, (scanString quote skip cs).2)
  | 0, c :: cs =>
    if c = quote then ([c], cs)
    else if c = '\n' then ([c], cs)
    else if c = '\\' then
      (c :: (scanString quote (scanEscape quote cs) cs).1,
        (scanString quote (scanEscape quote cs) cs).2)
    else (c :: (scanString quote 0 cs).1, (scanString quote 0 cs).2)

/-- The method `Scanner.scanComment` for a general comment, after the opening `/*`. -/
def scanGeneralComment : List Char → List Char × List Char
  | [] => ([], [])
  | c :: cs =>
    match cs with
    | [] => ([c], [])
    | d :: r =>
      if c = '*' ∧ d = '/' then ([c, d], r)
      else (c :: (scanGeneralComment cs).1, (scanGeneralComment cs).2)

/-- The method `Scanner.scanComment`, after the `/`: `ch` is `/` or `*`. -/
def scanComment (ch : Char) (cs : List Char) : List Char × List Char :=
  if ch = '/' then
    (ch :: cs.takeWhile (fun c => c != '\n'), cs.dropWhile (fun c => c != '\n'))
  else (ch :: (scanGeneralComment cs).1, (scanGeneralComment cs).2)

/-- The method `Scanner.Scan` in the mode
`ScanIdents | ScanFloats | ScanChars | ScanStrings | ScanComments`:
the token, its text (`TokenText`) and the rest of the source. -/
def Scan (U : UnicodeTables) (src : List Char) : ScanTok × List Char × List Char :=
  match src.dropWhile isGoWhitespace with
  | [] => (ScanTok.eof, [], [])
  | ch :: cs =>
    if isIdentRune U ch 0 then
      (ScanTok.ident, ch :: cs.takeWhile (fun c => isIdentRune U c 1),
        cs.dropWhile (fun c => isIdentRune U c 1))
    else if isDecimal ch then scanNumber (ch :: cs) false
    else if ch = '"' then
      (ScanTok.string, ch :: (scanString '"' 0 cs).1, (scanString '"' 0 cs).2)
    else if ch = '\'' then
      (ScanTok.char, ch :: (scanString '\'' 0 cs).1, (scanString '\'' 0 cs).2)
    else if ch = '.' then
      match cs with
      | [] => (ScanTok.rune ch, [ch], [])
      | d :: r =>
        if isDecimal d then
          ((scanNumber (d :: r) true).1, ch :: (scanNumber (d :: r) true).2.1,
            (scanNumber (d :: r) true).2.2)
        else (ScanTok.rune ch, [ch], d :: r)
    else if ch = '/' then
      match cs with
      | [] => (ScanTok.rune ch, [ch], [])
      | d :: r =>
        if d = '/' || d = '*' then
          (ScanTok.comment, ch :: (scanComment d r).1, (scanComment d r).2)
        else (ScanTok.rune ch, [ch], d :: r)
    else (ScanTok.rune ch, [ch], cs)

/-! ## `java_ast_parser.go`: the lexer -/

/-- The token kinds `JavaToken`. -/
inductive JavaToken where
  | TOKEN_EOF
  | TOKEN_IDENTIFIER
  | TOKEN_KEYWORD
  | TOKEN_OPERATOR
  | TOKEN_DELIMITER
  | TOKEN_LITERAL
  | TOKEN_COMMENT
  | TOKEN_WHITESPACE
deriving DecidableEq, Repr

/-- The table `JavaKeywords`. -/
def JavaKeywordsList : List String :=
  ["abstract", "assert", "boolean", "break", "byte", "case", "catch", "char", "class",
   "const", "continue", "default", "do", "double", "else", "enum", "extends", "final",
   "finally", "float", "for", "goto", "if", "implements", "import", "instanceof", "int",
   "interface", "long", "native", "new", "package", "private", "protected", "public",
   "return", "short", "static", "strictfp", "super", "switch", "synchronized", "this",
   "throw", "throws", "transient", "try", "void", "volatile", "while"]

/-- Lookup `JavaKeywords[text]`. -/
def JavaKeywords (text : String) : Bool := JavaKeywordsList.contains text

/-- A token as `NextToken` returns it: kind and text. -/
structure Token where
  tok : JavaToken
  text : String
deriving DecidableEq, Repr

/-- State of a `JavaLexer`: the part of the source its scanner has not read yet. -/
abbrev JavaLexer := List Char

/-- The function `NewJavaLexer`.  The scanner drops a byte order mark at the very start. -/
def NewJavaLexer (source : String) : JavaLexer :=
  match source.toList with
  | [] => []
  | c :: cs => if c.toNat = 0xFEFF then cs else c :: cs

/-- The operator characters of `NextToken`. -/
def operatorChars : List Char := "\x7b\x7d()[];,.<>=!&|+-*/".toList

/-- The method `JavaLexer.NextToken`: the token and the lexer after it. -/
def NextToken (U : UnicodeTables) (l : JavaLexer) : Token × JavaLexer :=
  let s := Scan U l
  let text := String.mk s.2.1
  match s.1 with
  | ScanTok.eof => (⟨JavaToken.TOKEN_EOF, ""⟩, s.2.2)
  | ScanTok.ident =>
    if JavaKeywords text then (⟨JavaToken.TOKEN_KEYWORD, text⟩, s.2.2)
    else (⟨JavaToken.TOKEN_IDENTIFIER, text⟩, s.2.2)
  | ScanTok.string => (⟨JavaToken.TOKEN_LITERAL, text⟩, s.2.2)
  | ScanTok.char => (⟨JavaToken.TOKEN_LITERAL, text⟩, s.2.2)
  | ScanTok.int => (⟨JavaToken.TOKEN_LITERAL, text⟩, s.2.2)
  | ScanTok.float => (⟨JavaToken.TOKEN_LITERAL, text⟩, s.2.2)
  | ScanTok.comment => (⟨JavaToken.TOKEN_COMMENT, text⟩, s.2.2)
  | ScanTok.rawString => (⟨JavaToken.TOKEN_DELIMITER, text⟩, s.2.2)
  | ScanTok.rune c =>
    if unicodeIsSpace c then (⟨JavaToken.TOKEN_WHITESPACE, text⟩, s.2.2)
    else if operatorChars.contains c then (⟨JavaToken.TOKEN_OPERATOR, text⟩, s.2.2)
    else (⟨JavaToken.TOKEN_DELIMITER, text⟩, s.2.2)

/-- The tokens that successive calls of `NextToken` return before `TOKEN_EOF`. -/
def tokenStreamAux (U : UnicodeTables) : Nat → JavaLexer → List Token
  | 0, _ => []
  | fuel + 1, l =>
    if (NextToken U l).1.tok = JavaToken.TOKEN_EOF then []
    else (NextToken U l).1 :: tokenStreamAux U fuel (NextToken U l).2

/-- The token stream of a lexer; every token takes at least one character. -/
def tokenStream (U : UnicodeTables) (l : JavaLexer) : List Token :=
  tokenStreamAux U (l.length + 1) l

/-! ## `java_ast_parser.go`: the declaration parser -/

deriving instance DecidableEq for Except

/-- The struct `ClassDeclaration`. -/
structure ClassDeclaration where
  Name : String := ""
  ParentClass : String := ""
  Interfaces : List String := []
  Modifiers : List String := []
  IsInterface : Bool := false
  IsAbstract : Bool := false
  StartPosition : Int := 0
  EndPosition : Int := 0
deriving DecidableEq, Repr

/-- State of a `JavaASTParser`: the tokens other than whitespace and comments that are not
consumed yet.  The head is the current token (`currentTok`, `currentText`), the tail is
what `nextToken` will deliver; the empty list is the state at `TOKEN_EOF`. -/
abbrev JavaASTParser := List Token

/-- The field `currentTok`. -/
def currentTok (p : JavaASTParser) : JavaToken :=
  match p with
  | [] => JavaToken.TOKEN_EOF
  | t :: _ => t.tok

/-- The field `currentText`. -/
def currentText (p : JavaASTParser) : String :=
  match p with
  | [] => ""
  | t :: _ => t.text

/-- The method `nextToken`: advance to the next token that is no whitespace and no comment. -/
def nextToken (p : JavaASTParser) : JavaASTParser := p.tail

/-- Whether `nextToken` skips the token. -/
def isSkipped (t : Token) : Bool :=
  t.tok = JavaToken.TOKEN_WHITESPACE || t.tok = JavaToken.TOKEN_COMMENT

/-- The function `NewJavaASTParser`: a parser positioned at the first token of the source. -/
def NewJavaASTParser (U : UnicodeTables) (source : String) : JavaASTParser :=
  (tokenStream U (NewJavaLexer source)).filter (fun t => !isSkipped t)

/-- How `fmt` prints a `JavaToken` under `%v`: its number. -/
def JavaToken.fmt : JavaToken → String
  | TOKEN_EOF => "0"
  | TOKEN_IDENTIFIER => "1"
  | TOKEN_KEYWORD => "2"
  | TOKEN_OPERATOR => "3"
  | TOKEN_DELIMITER => "4"
  | TOKEN_LITERAL => "5"
  | TOKEN_COMMENT => "6"
  | TOKEN_WHITESPACE => "7"

/-- The text `got %v '%s'` for the current token. -/
def gotText (p : JavaASTParser) : String :=
  "got " ++ (currentTok p).fmt ++ " '" ++ currentText p ++ "'"

/-- The loop of `parseIdentifier` over the parts of a qualified name. -/
def parseIdentifierLoop (identifier : String) :
    JavaASTParser → Except String String × JavaASTParser
  | [] => (Except.ok identifier, [])
  | t :: rest =>
    if t.tok = JavaToken.TOKEN_OPERATOR ∧ t.text = "." then
      match rest with
      | [] => (Except.error ("expected identifier after '.', " ++ gotText []), [])
      | u :: rest2 =>
        if u.tok ≠ JavaToken.TOKEN_IDENTIFIER then
          (Except.error ("expected identifier after '.', " ++ gotText (u :: rest2)), u :: rest2)
        else parseIdentifierLoop (identifier ++ "." ++ u.text) rest2
    else (Except.ok identifier, t :: rest)

/-- The method `parseIdentifier`: an identifier, possibly qualified.  The parser state is
returned on failure too: the caller goes on from where the parse stopped. -/
def parseIdentifier (p : JavaASTParser) : Except String String × JavaASTParser :=
  if currentTok p ≠ JavaToken.TOKEN_IDENTIFIER then
    (Except.error ("expected identifier, " ++ gotText p), p)
  else parseIdentifierLoop (currentText p) (nextToken p)

/-- The loop of `parseTypeParameters`, with the nesting depth of angle brackets. -/
def parseTypeParametersLoop : Nat → JavaASTParser → JavaASTParser
  | _, [] => []
  | 0, t :: rest => t :: rest
  | depth + 1, t :: rest =>
    if t.tok = JavaToken.TOKEN_EOF then t :: rest
    else if t.tok = JavaToken.TOKEN_OPERATOR ∧ t.text = "<" then
      parseTypeParametersLoop (depth + 2) rest
    else if t.tok = JavaToken.TOKEN_OPERATOR ∧ t.text = ">" then
      parseTypeParametersLoop depth rest
    else parseTypeParametersLoop (depth + 1) rest

/-- The method `parseTypeParameters`: skip a generic parameter list.  Its error result is
always `nil`, so only the parser state is returned. -/
def parseTypeParameters (p : JavaASTParser) : JavaASTParser :=
  if currentTok p = JavaToken.TOKEN_OPERATOR ∧ currentText p = "<" then
    parseTypeParametersLoop 1 (nextToken p)
  else p

/-- The loop of `parseInterfaceList`; every iteration consumes a token. -/
def parseInterfaceListLoop :
    Nat → List String → JavaASTParser → Except String (List String) × JavaASTParser
  | 0, _, p => (Except.error "parseInterfaceList: out of fuel", p)
  | fuel + 1, interfaces, p =>
    match parseIdentifier p with
    | (Except.error e, p1) => (Except.error e, p1)
    | (Except.ok interfaceName, p1) =>
      if currentTok (parseTypeParameters p1) = JavaToken.TOKEN_OPERATOR
          ∧ currentText (parseTypeParameters p1) = "," then
        parseInterfaceListLoop fuel (interfaces ++ [interfaceName])
          (nextToken (parseTypeParameters p1))
      else (Except.ok (interfaces ++ [interfaceName]), parseTypeParameters p1)

/-- The method `parseInterfaceList`: a comma-separated list of interfaces. -/
def parseInterfaceList (p : JavaASTParser) : Except String (List String) × JavaASTParser :=
  parseInterfaceListLoop (p.length + 1) [] p

/-- The `implements` clause of `parseClassDeclaration`. -/
def parseImplementsClause (decl : ClassDeclaration) (p : JavaASTParser) :
    Except String ClassDeclaration × JavaASTParser :=
  if currentTok p = JavaToken.TOKEN_KEYWORD ∧ currentText p = "implements" then
    match parseInterfaceList (nextToken p) with
    | (Except.error e, p1) => (Except.error ("failed to parse interfaces: " ++ e), p1)
    | (Except.ok interfaces, p1) => (Except.ok { decl with Interfaces := interfaces }, p1)
  else (Except.ok decl, p)

/-- The `extends` clause of `parseClassDeclaration`, followed by the `implements` clause. -/
def parseExtendsClause (decl : ClassDeclaration) (p : JavaASTParser) :
    Except String ClassDeclaration × JavaASTParser :=
  if currentTok p = JavaToken.TOKEN_KEYWORD ∧ currentText p = "extends" then
    match parseIdentifier (nextToken p) with
    | (Except.error e, p1) => (Except.error ("failed to parse parent class: " ++ e), p1)
    | (Except.ok parentClass, p1) =>
      parseImplementsClause { decl with ParentClass := parentClass } (parseTypeParameters p1)
  else parseImplementsClause decl p

/-- The part of `parseClassDeclaration` from the label `parseClassName` on. -/
def parseClassName (decl : ClassDeclaration) (p : JavaASTParser) :
    Except String ClassDeclaration × JavaASTParser :=
  match parseIdentifier p with
  | (Except.error e, p1) => (Except.error ("failed to parse class name: " ++ e), p1)
  | (Except.ok className, p1) =>
    parseExtendsClause { decl with Name := className } (parseTypeParameters p1)

/-- The six modifier keywords that the parser recognises. -/
def isModifierText (text : String) : Bool :=
  text = "public" || text = "private" || text = "protected" || text = "static" ||
  text = "final" || text = "abstract"

/-- The modifier loop of `parseClassDeclaration`.  The loop runs while the current token is
a keyword; any other token leaves the loop and falls into `parseClassName`. -/
def parseClassDeclarationLoop (decl : ClassDeclaration) :
    JavaASTParser → Except String ClassDeclaration × JavaASTParser
  | [] => parseClassName decl []
  | t :: rest =>
    if t.tok = JavaToken.TOKEN_KEYWORD then
      if isModifierText t.text then
        parseClassDeclarationLoop
          { decl with
            Modifiers := decl.Modifiers ++ [t.text]
            IsAbstract := decl.IsAbstract || t.text = "abstract" } rest
      else if t.text = "class" ∨ t.text = "interface" then
        parseClassName { decl with IsInterface := decl.IsInterface || t.text = "interface" } rest
      else (Except.error ("unexpected keyword: " ++ t.text), t :: rest)
    else parseClassName decl (t :: rest)

/-- The method `parseClassDeclaration`. -/
def parseClassDeclaration (p : JavaASTParser) : Except String ClassDeclaration × JavaASTParser :=
  parseClassDeclarationLoop {} p

/-- Whether the current token is the keyword `class` or `interface`. -/
def atClassKeyword (p : JavaASTParser) : Bool :=
  currentTok p = JavaToken.TOKEN_KEYWORD && (currentText p = "class" || currentText p = "interface")

/-- The inner loop `Skip to next potential declaration` of `ParseClassDeclarations`. -/
def skipToNextDeclaration : JavaASTParser → JavaASTParser
  | [] => []
  | t :: rest =>
    if t.tok ≠ JavaToken.TOKEN_EOF ∧ !atClassKeyword (t :: rest) then skipToNextDeclaration rest
    else t :: rest

/-- The scan loop of `ParseClassDeclarations`; every iteration consumes a token. -/
def ParseClassDeclarationsLoop :
    Nat → List ClassDeclaration → JavaASTParser →
      Except String (List ClassDeclaration) × JavaASTParser
  | 0, _, p => (Except.error "ParseClassDeclarations: out of fuel", p)
  | fuel + 1, declarations, p =>
    if currentTok p = JavaToken.TOKEN_EOF then (Except.ok declarations, p)
    else if atClassKeyword p then
      match parseClassDeclaration p with
      | (Except.error e, p1) => (Except.error e, p1)
      | (Except.ok decl, p1) =>
        ParseClassDeclarationsLoop fuel (declarations ++ [decl]) (skipToNextDeclaration p1)
    else if currentTok p = JavaToken.TOKEN_KEYWORD ∧ isModifierText (currentText p) then
      match parseClassDeclaration p with
      | (Except.error _, p1) => ParseClassDeclarationsLoop fuel declarations (nextToken p1)
      | (Except.ok decl, p1) =>
        ParseClassDeclarationsLoop fuel (declarations ++ [decl]) (skipToNextDeclaration p1)
    else ParseClassDeclarationsLoop fuel declarations (nextToken p)

/-- The method `ParseClassDeclarations`: the declarations (or the error) and the final
parser state. -/
def ParseClassDeclarations (p : JavaASTParser) :
    Except String (List ClassDeclaration) × JavaASTParser :=
  ParseClassDeclarationsLoop (p.length + 1) [] p

/-! ## Go maps -/

/-- A Go `map[string]V`: an association list with distinct keys.  The order of the list
carries no meaning; a `range` over a map takes its order from a `RangeOrder`. -/
abbrev GoMap (V : Type) := List (String × V)

/-- The assignment `m[k] = v`. -/
def GoMap.set {V : Type} (m : GoMap V) (k : String) (v : V) : GoMap V :=
  match m with
  | [] => [(k, v)]
  | e :: r => if e.1 = k then (k, v) :: r else e :: GoMap.set r k v

/-- The lookup `m[k]`. -/
def GoMap.get? {V : Type} (m : GoMap V) (k : String) : Option V :=
  match m with
  | [] => none
  | e :: r => if e.1 = k then some e.2 else GoMap.get? r k

/-- The order in which the `range` statements visit the entries of a map.  Go leaves it
unspecified: it is an arbitrary rearrangement of the entries. -/
structure RangeOrder where
  /-- The entries in the order of the iteration. -/
  order : {α : Type} → List α → List α
  /-- Every entry is visited once. -/
  perm : ∀ {α : Type} (l : List α), List.Perm (order l) l

/-- The function `ParseJavaInheritance`: the inheritance map and the interface map. -/
def ParseJavaInheritance (U : UnicodeTables) (source : String) :
    Except String (GoMap String × GoMap (List String)) :=
  match (ParseClassDeclarations (NewJavaASTParser U source)).1 with
  | Except.error e => Except.error ("failed to parse class declarations: " ++ e)
  | Except.ok declarations =>
    Except.ok
      (declarations.foldl
        (fun (acc : GoMap String × GoMap (List String)) decl =>
          ((if decl.ParentClass ≠ "" then acc.1.set decl.Name decl.ParentClass else acc.1),
           (if decl.Interfaces.length > 0 then acc.2.set decl.Name decl.Interfaces else acc.2)))
        ([], []))

/-! ## The Go library `regexp`

The two patterns of `dependency_analyzer.go` are written in a small syntax tree and run by
a backtracking matcher.  The library promises the match, and the submatches, that a
backtracking search finds first (leftmost-first matching), and `FindAll` returns the
successive matches that do not overlap. -/

/-- Syntax of the regular expressions in use. -/
inductive Regex where
  /-- The empty expression. -/
  | empty
  /-- A literal character. -/
  | char (c : Char)
  /-- A character class. -/
  | cls (p : Char → Bool)
  /-- Concatenation. -/
  | seq (a b : Regex)
  /-- Greedy repetition, zero or more times. -/
  | star (a : Regex)
  /-- Greedy option. -/
  | opt (a : Regex)
  /-- Alternation: the first alternative is preferred. -/
  | alt (a b : Regex)
  /-- Capturing group with its number. -/
  | group (i : Nat) (a : Regex)

/-- The submatches recorded so far: group number and text. -/
abbrev Captures := List (Nat × List Char)

/-- Iterations of a greedy star: one more iteration is tried first, then the rest of the
pattern.  An iteration that reads nothing is not repeated. -/
def Regex.starLoop {R : Type}
    (m : List Char → Captures → (List Char → Captures → Option R) → Option R) :
    Nat → List Char → Captures → (List Char → Captures → Option R) → Option R
  | 0, s, caps, k => k s caps
  | fuel + 1, s, caps, k =>
    match m s caps (fun s1 c1 =>
        if s1.length < s.length then Regex.starLoop m fuel s1 c1 k else none) with
    | some r => some r
    | none => k s caps

/-- Backtracking match of an expression at the start of `s`; `k` matches what follows. -/
def Regex.run {R : Type} :
    Regex → List Char → Captures → (List Char → Captures → Option R) → Option R
  | Regex.empty, s, caps, k => k s caps
  | Regex.char c, s, caps, k =>
    match s with
    | [] => none
    | d :: r => if d = c then k r caps else none
  | Regex.cls p, s, caps, k =>
    match s with
    | [] => none
    | d :: r => if p d then k r caps else none
  | Regex.seq a b, s, caps, k => Regex.run a s caps (fun s1 c1 => Regex.run b s1 c1 k)
  | Regex.star a, s, caps, k =>
    Regex.starLoop (fun s1 c1 k1 => Regex.run a s1 c1 k1) s.length s caps k
  | Regex.opt a, s, caps, k =>
    match Regex.run a s caps k with
    | some r => some r
    | none => k s caps
  | Regex.alt a b, s, caps, k =>
    match Regex.run a s caps k with
    | some r => some r
    | none => Regex.run b s caps k
  | Regex.group i a, s, caps, k =>
    Regex.run a s caps (fun s1 c1 => k s1 ((i, s.take (s.length - s1.length)) :: c1))

/-- A literal string. -/
def Regex.lit (cs : List Char) : Regex :=
  match cs with
  | [] => Regex.empty
  | c :: r => Regex.seq (Regex.char c) (Regex.lit r)

/-- One or more times, greedy. -/
def Regex.plus (a : Regex) : Regex := Regex.seq a (Regex.star a)

/-- The first match that starts at the head of `s`: the rest of `s` and the submatches. -/
def Regex.exec (re : Regex) (s : List Char) : Option (List Char × Captures) :=
  Regex.run re s [] (fun r c => some (r, c))

/-- Text of submatch `i`, empty when the group took no part in the match. -/
def submatch (caps : Captures) (i : Nat) : String :=
  match caps.find? (fun e => e.1 = i) with
  | some e => String.mk e.2
  | none => ""

/-- The loop of `FindAllStringSubmatch(s, -1)`: whole match and submatches of the successive
matches.  `afterMatch` says that the previous match ended at this very position. -/
def findAllLoop (re : Regex) : Nat → Bool → List Char → List (String × Captures)
  | 0, _, _ => []
  | fuel + 1, afterMatch, s =>
    match Regex.exec re s with
    | none =>
      match s with
      | [] => []
      | _ :: t => findAllLoop re fuel false t
    | some (rest, caps) =>
      if rest.length < s.length then
        (String.mk (s.take (s.length - rest.length)), caps) :: findAllLoop re fuel true rest
      else
        (if afterMatch then [] else [("", caps)]) ++
          (match s with
           | [] => []
           | _ :: t => findAllLoop re fuel false t)

/-- The method `FindAllStringSubmatch(s, -1)`. -/
def FindAllStringSubmatch (re : Regex) (s : String) : List (String × Captures) :=
  findAllLoop re (s.length + 1) false s.toList

/-- The class `\s` of the library: tab, newline, form feed, return, blank. -/
def reSpace (c : Char) : Bool :=
  c == '\t' || c == '\n' || c.toNat == 12 || c == '\r' || c == ' '

/-- The class `[a-zA-Z_]`. -/
def reIdentStart (c : Char) : Bool :=
  ('a'.toNat ≤ c.toNat && c.toNat ≤ 'z'.toNat) || ('A'.toNat ≤ c.toNat && c.toNat ≤ 'Z'.toNat) ||
    c == '_'

/-- The class `[a-zA-Z0-9_]`. -/
def reIdentChar (c : Char) : Bool :=
  ('a'.toNat ≤ c.toNat && c.toNat ≤ 'z'.toNat) || ('A'.toNat ≤ c.toNat && c.toNat ≤ 'Z'.toNat) ||
    ('0'.toNat ≤ c.toNat && c.toNat ≤ '9'.toNat) || c == '_'

/-- The class `[a-zA-Z0-9_.]`. -/
def rePathChar (c : Char) : Bool := reIdentChar c || c == '.'

/-! ## The Go library `strings` -/

/-- The function `strings.Index`: where `sub` first occurs (`none` stands for `-1`). -/
def stringsIndex (sub : List Char) : List Char → Option Nat
  | [] => if sub = [] then some 0 else none
  | c :: cs =>
    if sub.isPrefixOf (c :: cs) then some 0
    else (stringsIndex sub cs).map (fun i => i + 1)

/-- The function `strings.Contains`. -/
def stringsContains (s sub : String) : Bool := (stringsIndex sub.toList s.toList).isSome

/-- The function `strings.TrimSuffix`: one occurrence of the suffix is removed. -/
def stringsTrimSuffix (s suffix : List Char) : List Char :=
  if suffix.isSuffixOf s then s.take (s.length - suffix.length) else s

/-- The function `strings.Split` with the separator `"."`; `cur` is the part being read. -/
def splitDotAux (cur : List Char) : List Char → List (List Char)
  | [] => [cur]
  | c :: cs => if c = '.' then cur :: splitDotAux [] cs else splitDotAux (cur ++ [c]) cs

/-- The call `strings.Split(s, ".")`. -/
def splitDot (s : String) : List String := (splitDotAux [] s.toList).map String.mk

/-! ## `decompiler.go`: the records that the analysis reads -/

/-- The struct `DecompiledMethod` (annotation map left out). -/
structure DecompiledMethod where
  Name : String := ""
  ReturnType : String := ""
  Parameters : List String := []
  Modifiers : List String := []
  SourceCode : String := ""
  LineNumber : Int := 0
  JavaDoc : String := ""
deriving DecidableEq, Repr

/-- The struct `DecompiledField` (annotation map left out). -/
structure DecompiledField where
  Name : String := ""
  Type_ : String := ""
  Modifiers : List String := []
  DefaultValue : String := ""
  LineNumber : Int := 0
  JavaDoc : String := ""
deriving DecidableEq, Repr

/-- The struct `DecompiledClass` (annotation map and inner classes left out: the analysis
does not read them). -/
structure DecompiledClass where
  ClassName : String := ""
  PackageName : String := ""
  SourceCode : String := ""
  Imports : List String := []
  Methods : List DecompiledMethod := []
  Fields : List DecompiledField := []
  Modifiers : List String := []
  SuperClass : String := ""
  Interfaces : List String := []
deriving DecidableEq, Repr

/-! ## `dependency_analyzer.go` -/

/-- The struct `ClassDependency`. -/
structure ClassDependency where
  FromClass : String
  ToClass : String
  DepType : String
deriving DecidableEq, Repr

/-- The struct `MethodCall`. -/
structure MethodCall where
  CallerClass : String
  CallerMethod : String
  CalleeClass : String
  CalleeMethod : String
  LineNumber : Int
deriving DecidableEq, Repr

/-- The struct `DependencyAnalysisResult`. -/
structure DependencyAnalysisResult where
  ClassDependencies : List ClassDependency := []
  MethodCalls : List MethodCall := []
  InheritanceTree : GoMap String := []
  InterfaceImpls : GoMap (List String) := []
  ImportStatements : GoMap (List String) := []
deriving DecidableEq, Repr

/-- The pattern of `extractImports`:
`import\s+(?:static\s+)?([a-zA-Z_][a-zA-Z0-9_.]*(?:\.\*)?);`. -/
def importRegex : Regex :=
  Regex.seq (Regex.lit "import".toList)
    (Regex.seq (Regex.plus (Regex.cls reSpace))
      (Regex.seq (Regex.opt (Regex.seq (Regex.lit "static".toList) (Regex.plus (Regex.cls reSpace))))
        (Regex.seq
          (Regex.group 1
            (Regex.seq (Regex.cls reIdentStart)
              (Regex.seq (Regex.star (Regex.cls rePathChar))
                (Regex.opt (Regex.seq (Regex.char '.') (Regex.char '*'))))))
          (Regex.char ';'))))

/-- The function `extractImports`. -/
def extractImports (sourceCode : String) : List String :=
  (FindAllStringSubmatch importRegex sourceCode).map (fun m => submatch m.2 1)

/-- The pattern of `analyzeMethodCalls`:
`([a-zA-Z_][a-zA-Z0-9_]*)\.([a-zA-Z_][a-zA-Z0-9_]*)\s*\(`. -/
def methodCallRegex : Regex :=
  Regex.seq (Regex.group 1 (Regex.seq (Regex.cls reIdentStart) (Regex.star (Regex.cls reIdentChar))))
    (Regex.seq (Regex.char '.')
      (Regex.seq
        (Regex.group 2 (Regex.seq (Regex.cls reIdentStart) (Regex.star (Regex.cls reIdentChar))))
        (Regex.seq (Regex.star (Regex.cls reSpace)) (Regex.char '('))))

/-- The loop of `findContainingMethod` over the methods of the class. -/
def findContainingMethodLoop (sourceCode methodCallText : String) : List DecompiledMethod → String
  | [] => "unknown"
  | method :: rest =>
    if stringsContains sourceCode methodCallText then method.Name
    else findContainingMethodLoop sourceCode methodCallText rest

/-- The function `findContainingMethod`. -/
def findContainingMethod (classInfo : DecompiledClass) (methodCallText : String) : String :=
  findContainingMethodLoop classInfo.SourceCode methodCallText classInfo.Methods

/-- The function `analyzeMethodCalls`. -/
def analyzeMethodCalls (classInfo : DecompiledClass) (result : DependencyAnalysisResult) :
    DependencyAnalysisResult :=
  { result with
    MethodCalls := result.MethodCalls ++
      (FindAllStringSubmatch methodCallRegex classInfo.SourceCode).map (fun m =>
        { CallerClass := classInfo.ClassName
          CallerMethod := findContainingMethod classInfo m.1
          CalleeClass := submatch m.2 1
          CalleeMethod := submatch m.2 2
          LineNumber := 0 }) }

/-- The function `isPrimitiveType`. -/
def isPrimitiveType (typeName : String) : Bool :=
  ["boolean", "byte", "char", "short", "int", "long", "float", "double", "void",
    "String"].contains typeName

/-- The base type that `analyzeFieldDependencies` computes from a declared type: cut at the
first `<`, then one suffix `[]` removed. -/
def fieldBaseType (fieldType : String) : String :=
  let cut : List Char :=
    match stringsIndex "<".toList fieldType.toList with
    | some idx => fieldType.toList.take idx
    | none => fieldType.toList
  String.mk (stringsTrimSuffix cut "[]".toList)

/-- Body of the loop of `analyzeFieldDependencies`: the edges that one field adds. -/
def fieldDependency (classInfo : DecompiledClass) (field : DecompiledField) :
    List ClassDependency :=
  if fieldBaseType field.Type_ ≠ "" ∧ !isPrimitiveType (fieldBaseType field.Type_) then
    [{ FromClass := classInfo.ClassName, ToClass := fieldBaseType field.Type_,
       DepType := "uses_field" }]
  else []

/-- The function `analyzeFieldDependencies`. -/
def analyzeFieldDependencies (classInfo : DecompiledClass) (result : DependencyAnalysisResult) :
    DependencyAnalysisResult :=
  { result with
    ClassDependencies :=
      classInfo.Fields.foldl (fun deps field => deps ++ fieldDependency classInfo field)
        result.ClassDependencies }

/-- The function `analyzeInheritance`.  A failure of the parse is dropped. -/
def analyzeInheritance (U : UnicodeTables) (o : RangeOrder) (classInfo : DecompiledClass)
    (result : DependencyAnalysisResult) : DependencyAnalysisResult :=
  match ParseJavaInheritance U classInfo.SourceCode with
  | Except.error _ => result
  | Except.ok (inheritanceTree, interfaceImpls) =>
    { result with
      InheritanceTree :=
        (o.order inheritanceTree).foldl (fun m e => m.set e.1 e.2) result.InheritanceTree
      InterfaceImpls :=
        (o.order interfaceImpls).foldl (fun m e => m.set e.1 e.2) result.InterfaceImpls }

/-- The edges of one import path in `buildClassDependencies`. -/
def importDependency (cls importPath : String) : List ClassDependency :=
  match (splitDot importPath).getLast? with
  | none => []
  | some importedClass =>
    if importedClass ≠ "*" then
      [{ FromClass := cls, ToClass := importedClass, DepType := "imports" }]
    else []

/-- The function `buildClassDependencies`. -/
def buildClassDependencies (o : RangeOrder) (result : DependencyAnalysisResult) :
    DependencyAnalysisResult :=
  { result with
    ClassDependencies :=
      result.ClassDependencies ++
      (o.order result.InheritanceTree).map (fun e =>
        { FromClass := e.1, ToClass := e.2, DepType := "extends" }) ++
      (o.order result.InterfaceImpls).flatMap (fun e =>
        e.2.map (fun iface => { FromClass := e.1, ToClass := iface, DepType := "implements" })) ++
      (o.order result.ImportStatements).flatMap (fun e =>
        e.2.flatMap (fun importPath => importDependency e.1 importPath)) }

/-- Body of the loop of `AnalyzeDependencies` for one entry of the map. -/
def analyzeClass (U : UnicodeTables) (o : RangeOrder) (result : DependencyAnalysisResult)
    (entry : String × Option DecompiledClass) : DependencyAnalysisResult :=
  match entry.2 with
  | none => result
  | some classInfo =>
    analyzeFieldDependencies classInfo
      (analyzeMethodCalls classInfo
        (analyzeInheritance U o classInfo
          { result with
            ImportStatements :=
              result.ImportStatements.set entry.1 (extractImports classInfo.SourceCode) }))

/-- The loop of `AnalyzeDependencies` over the entries in the order of the iteration. -/
def analyzeClasses (U : UnicodeTables) (o : RangeOrder)
    (entries : List (String × Option DecompiledClass)) (result : DependencyAnalysisResult) :
    DependencyAnalysisResult :=
  entries.foldl (analyzeClass U o) result

/-- The function `AnalyzeDependencies`.  The argument `none` is the `nil` map, and a `none`
entry of the map is a `nil` pointer. -/
def AnalyzeDependencies (U : UnicodeTables) (o : RangeOrder)
    (decompiledClasses : Option (GoMap (Option DecompiledClass))) :
    Except String DependencyAnalysisResult :=
  match decompiledClasses with
  | none => Except.error "decompiledClasses cannot be nil"
  | some classes =>
    Except.ok (buildClassDependencies o (analyzeClasses U o (o.order classes) {}))

/-! ## Vocabulary of the statements -/

/-- An identifier lexeme of the scanner: a letter or an underscore, followed by letters,
digits and underscores. -/
def isIdentifierLexeme (U : UnicodeTables) (w : String) : Bool :=
  match w.toList with
  | [] => false
  | c :: cs => isIdentRune U c 0 && cs.all (fun d => isIdentRune U d 1)

/-- Unicode tables that hold no character: every source in ASCII is scanned alike under
all tables, so these stand for any tables on such a source. -/
def asciiTables : UnicodeTables := ⟨fun _ => false, fun _ => false⟩

/-- The iteration order that visits the entries as they are stored. -/
def storedOrder : RangeOrder := ⟨fun l => l, fun l => List.Perm.refl l⟩

/-- The operator token `<`. -/
def tokLt : Token := ⟨JavaToken.TOKEN_OPERATOR, "<"⟩

/-- The operator token `>`. -/
def tokGt : Token := ⟨JavaToken.TOKEN_OPERATOR, ">"⟩

/-- The operator token `,`. -/
def tokComma : Token := ⟨JavaToken.TOKEN_OPERATOR, ","⟩

/-- An identifier token. -/
def tokIdent (name : String) : Token := ⟨JavaToken.TOKEN_IDENTIFIER, name⟩

/-- A keyword token. -/
def tokKeyword (text : String) : Token := ⟨JavaToken.TOKEN_KEYWORD, text⟩

/-- The tokens close a generic argument list that is open at nesting depth `depth + 1`:
the depth returns to zero at the last token and not before it. -/
def closesGenerics : Nat → List Token → Bool
  | _, [] => false
  | depth, t :: rest =>
    if t.tok = JavaToken.TOKEN_EOF then false
    else if t.tok = JavaToken.TOKEN_OPERATOR ∧ t.text = "<" then closesGenerics (depth + 1) rest
    else if t.tok = JavaToken.TOKEN_OPERATOR ∧ t.text = ">" then
      match depth with
      | 0 => rest.isEmpty
      | d + 1 => closesGenerics d rest
    else closesGenerics depth rest

/-- A balanced generic argument list, possibly nested: `<`, then tokens that close it. -/
def isGenericList (g : List Token) : Bool :=
  match g with
  | [] => false
  | t :: rest => decide (t = tokLt) && closesGenerics 0 rest

/-- The tokens of an `implements` list: every interface name carries a generic argument
list, and the entries are separated by commas. -/
def interfaceListTokens : List (String × List Token) → List Token
  | [] => []
  | e :: more =>
    match more with
    | [] => tokIdent e.1 :: e.2
    | _ :: _ => tokIdent e.1 :: (e.2 ++ tokComma :: interfaceListTokens more)

/-- The source of the end-to-end scenario. -/
def endToEndSource : String :=
  "public class TestClass extends BaseClass implements Runnable \x7b private List<String> items; public void run() \x7b items.add(\"x\"); \x7d \x7d"

/-- A unit whose header parse fails: the source holds a class literal. -/
def brokenUnit : DecompiledClass :=
  { ClassName := "Broken"
    SourceCode := "import java.util.List; public class Broken \x7b Object k = Broken.class; \x7d"
    Fields := [{ Name := "k", Type_ := "Object" }] }

/-- A unit whose header parse succeeds. -/
def soundUnit : DecompiledClass :=
  { ClassName := "Sound", SourceCode := "public class Sound extends Base \x7b\x7d" }

/-- The last dot-separated segment of an import path: what follows its last `.`, or the
whole path when it holds no `.`. -/
def lastSegment (path : String) : String :=
  String.mk (path.toList.reverse.takeWhile (fun c => c != '.')).reverse

/-- Whether an edge has the given kind. -/
def hasDepType (kind : String) (d : ClassDependency) : Bool := decide (d.DepType = kind)

/-! ## `dependency_analyzer.go`: the derived views -/

/-- The index expression `graph[key]` on a `map[string][]string`: the zero value, an
empty slice, when the key is absent.  A `nil` slice and an empty slice are both the empty
list. -/
def GoMap.lookup (graph : GoMap (List String)) (key : String) : List String :=
  (graph.get? key).getD []

/-- Body of the loops of `GetDependencyGraph` and `GetMethodCallGraph`: the entry of the
key is created when `graph[key] == nil`, then the target is appended to it. -/
def appendTarget (graph : GoMap (List String)) (key target : String) : GoMap (List String) :=
  (if graph.lookup key = [] then graph.set key [] else graph).set key
    ((if graph.lookup key = [] then graph.set key [] else graph).lookup key ++ [target])

/-- The method `GetDependencyGraph`. -/
def GetDependencyGraph (result : DependencyAnalysisResult) : GoMap (List String) :=
  result.ClassDependencies.foldl (fun graph dep => appendTarget graph dep.FromClass dep.ToClass) []

/-- The text that `fmt.Sprintf("%s.%s", a, b)` returns. -/
def sprintfDot (a b : String) : String := a ++ "." ++ b

/-- The method `GetMethodCallGraph`. -/
def GetMethodCallGraph (result : DependencyAnalysisResult) : GoMap (List String) :=
  result.MethodCalls.foldl (fun graph call =>
    appendTarget graph (sprintfDot call.CallerClass call.CallerMethod)
      (sprintfDot call.CalleeClass call.CalleeMethod)) []

/-- The targets of the pairs with the given key, in the order of the pairs. -/
def targetsOf (pairs : List (String × String)) (key : String) : List String :=
  (pairs.filter (fun p => decide (p.1 = key))).map Prod.snd

/-! ## The inputs of `TestAnalyzeDependencies` -/

/-- The source of the test case `simple class with inheritance`. -/
def testClassSource : String :=
  "package com.example;\n\nimport java.util.List;\nimport java.util.ArrayList;\n\npublic class TestClass extends BaseClass implements Runnable \x7b\n    private String name;\n    private List<String> items;\n    \n    public void run() \x7b\n        System.out.println(\"Running\");\n        items.add(\"test\");\n    \x7d\n    \n    public void processItems() \x7b\n        items.forEach(System.out::println);\n    \x7d\n\x7d"

/-- The unit of the test case `simple class with inheritance`. -/
def testClassUnit : DecompiledClass :=
  { ClassName := "TestClass"
    PackageName := "com.example"
    SourceCode := testClassSource
    Methods := [{ Name := "run", ReturnType := "void" },
                { Name := "processItems", ReturnType := "void" }]
    Fields := [{ Name := "name", Type_ := "String" },
               { Name := "items", Type_ := "List<String>" }] }

/-- The source of the test case `class with method calls`. -/
def serviceClassSource : String :=
  "package com.example.service;\n\npublic class ServiceClass \x7b\n    private DatabaseHelper dbHelper;\n    \n    public void saveData(String data) \x7b\n        dbHelper.connect();\n        dbHelper.save(data);\n        dbHelper.disconnect();\n    \x7d\n    \n    public String loadData(int id) \x7b\n        dbHelper.connect();\n        String result = dbHelper.load(id);\n        dbHelper.disconnect();\n        return result;\n    \x7d\n\x7d"

/-- The unit of the test case `class with method calls`. -/
def serviceClassUnit : DecompiledClass :=
  { ClassName := "ServiceClass"
    PackageName := "com.example.service"
    SourceCode := serviceClassSource
    Methods := [{ Name := "saveData", ReturnType := "void" },
                { Name := "loadData", ReturnType := "String" }]
    Fields := [{ Name := "dbHelper", Type_ := "DatabaseHelper" }] }

/-- The units of an input map: its entries other than `nil`. -/
def unitsOf (classes : GoMap (Option DecompiledClass)) : List DecompiledClass :=
  classes.filterMap Prod.snd

/-- Whether the stripped base type of a field is neither empty nor primitive. -/
def isFieldDependency (field : DecompiledField) : Bool :=
  decide (fieldBaseType field.Type_ ≠ "") && !isPrimitiveType (fieldBaseType field.Type_)

/-- The field edges of one entry of the input map. -/
def entryFieldEdges (entry : String × Option DecompiledClass) : List ClassDependency :=
  match entry.2 with
  | none => []
  | some classInfo => classInfo.Fields.flatMap (fieldDependency classInfo)

/-- The calls of one entry of the input map. -/
def entryCalls (entry : String × Option DecompiledClass) : List MethodCall :=
  match entry.2 with
  | none => []
  | some classInfo => (analyzeMethodCalls classInfo {}).MethodCalls

/-! ## The call pattern, read as in the specification

An identifier is a character of `[a-zA-Z_]` followed by the longest run of characters of
`[a-zA-Z0-9_]`; a call is an identifier, a dot, an identifier, the longest run of
white space and an opening parenthesis.  The matches are taken from left to right, the
search resuming after the end of each match. -/

/-- An identifier at the head of `s`: the identifier and what follows it. -/
def specIdentifier (s : List Char) : Option (List Char × List Char) :=
  match s with
  | [] => none
  | c :: r =>
    if reIdentStart c then some (c :: r.takeWhile reIdentChar, r.dropWhile reIdentChar)
    else none

/-- What follows an opening parenthesis that stands at the head of `s` after white space. -/
def specOpenParen (s : List Char) : Option (List Char) :=
  match s.dropWhile reSpace with
  | [] => none
  | c :: t => if c = '(' then some t else none

/-- What follows a dot that stands at the head of `s`. -/
def specDot (s : List Char) : Option (List Char) :=
  match s with
  | [] => none
  | c :: t => if c = '.' then some t else none

/-- A call `identifier.identifier(` at the head of `s`: the left identifier, the right
identifier and what follows the parenthesis. -/
def specCallAt (s : List Char) : Option (List Char × List Char × List Char) :=
  match specIdentifier s with
  | none => none
  | some (left, s1) =>
    match specDot s1 with
    | none => none
    | some s2 =>
      match specIdentifier s2 with
      | none => none
      | some (right, s3) =>
        match specOpenParen s3 with
        | none => none
        | some s4 => some (left, right, s4)

/-- The calls of `s` from left to right, without overlap: left and right identifiers. -/
def specCallsLoop : Nat → List Char → List (String × String)
  | 0, _ => []
  | fuel + 1, s =>
    match specCallAt s with
    | some (left, right, rest) => (String.mk left, String.mk right) :: specCallsLoop fuel rest
    | none =>
      match s with
      | [] => []
      | _ :: t => specCallsLoop fuel t

/-- The calls of a source text. -/
def specCalls (source : String) : List (String × String) :=
  specCallsLoop (source.length + 1) source.toList

/-! ## Import statements, read as in the specification

A statement is the word `import`, white space, optionally the word `static` and white
space, a path, optionally `.*`, and a semicolon.  White space may stand before it. -/

/-- An identifier: a character of `[a-zA-Z_]` followed by characters of `[a-zA-Z0-9_]`. -/
def isIdentifierText (w : List Char) : Bool :=
  match w with
  | [] => false
  | c :: cs => reIdentStart c && cs.all reIdentChar

/-- The identifiers joined by dots. -/
def dottedPath : List (List Char) → List Char
  | [] => []
  | [w] => w
  | w :: v :: ws => w ++ '.' :: dottedPath (v :: ws)

/-- The paths of import statements: a character of `[a-zA-Z_]` followed by characters of
`[a-zA-Z0-9_.]`.  The dotted paths of identifiers are of this form. -/
def isImportPath (p : List Char) : Bool :=
  match p with
  | [] => false
  | c :: cs => reIdentStart c && cs.all rePathChar

/-- An import statement: the white space before it, the white space after `import`,
whether `static` follows and the white space after it, the path, and whether `.*`
follows the path. -/
structure SpecImport where
  lead : List Char
  gap : List Char
  isStatic : Bool
  staticGap : List Char
  path : List Char
  wildcard : Bool
deriving DecidableEq, Repr

/-- The gaps are white space, not empty where a word precedes, and the path is a path. -/
def SpecImport.wellFormed (i : SpecImport) : Bool :=
  i.lead.all reSpace && (!i.gap.isEmpty && i.gap.all reSpace) &&
    (!i.isStatic || (!i.staticGap.isEmpty && i.staticGap.all reSpace)) &&
    isImportPath i.path

/-- The entry expected for the statement: the path, with `.*` for a wildcard import. -/
def SpecImport.recorded (i : SpecImport) : List Char :=
  i.path ++ (if i.wildcard then ".*".toList else [])

/-- The statement from the word `import` to the semicolon. -/
def SpecImport.body (i : SpecImport) : List Char :=
  "import".toList ++ (i.gap ++
    ((if i.isStatic then "static".toList ++ i.staticGap else []) ++ (i.recorded ++ [';'])))

/-- A source text: the statements one after the other, then `tail`. -/
def specSource (stmts : List SpecImport) (tail : List Char) : List Char :=
  match stmts with
  | [] => tail
  | i :: rest => i.lead ++ (i.body ++ specSource rest tail)

/-! ## Vocabulary of the statements on the order of iteration -/

/-- The iteration order that visits the entries from the last to the first. -/
def reversedOrder : RangeOrder := ⟨fun l => l.reverse, fun l => List.reverse_perm l⟩

/-- The entries of the inheritance map of the source of one entry, in the order of the
iteration. -/
def entryParents (U : UnicodeTables) (o : RangeOrder) (entry : String × Option DecompiledClass) :
    List (String × String) :=
  match entry.2 with
  | none => []
  | some classInfo =>
    match ParseJavaInheritance U classInfo.SourceCode with
    | Except.error _ => []
    | Except.ok maps => o.order maps.1

/-- The entries of the interface map of the source of one entry, in the order of the
iteration. -/
def entryInterfaces (U : UnicodeTables) (o : RangeOrder)
    (entry : String × Option DecompiledClass) : List (String × List String) :=
  match entry.2 with
  | none => []
  | some classInfo =>
    match ParseJavaInheritance U classInfo.SourceCode with
    | Except.error _ => []
    | Except.ok maps => o.order maps.2

/-- The entry of the import map that one entry of the input adds. -/
def entryImports (entry : String × Option DecompiledClass) : Option (String × List String) :=
  entry.2.map (fun classInfo => (entry.1, extractImports classInfo.SourceCode))

/-- The parents that the sources of the units record, unit after unit. -/
def recordedParents (U : UnicodeTables) (classes : GoMap (Option DecompiledClass)) :
    List (String × String) :=
  classes.flatMap (entryParents U storedOrder)

/-- The interface lists that the sources of the units record, unit after unit. -/
def recordedInterfaces (U : UnicodeTables) (classes : GoMap (Option DecompiledClass)) :
    List (String × List String) :=
  classes.flatMap (entryInterfaces U storedOrder)

/-- Two units of different packages that declare a class of the same simple name. -/
def sameNameUnits : GoMap (Option DecompiledClass) :=
  [("p.A", some { ClassName := "A", PackageName := "p",
                  SourceCode := "package p;\nclass A implements X \x7b\x7d" }),
   ("q.A", some { ClassName := "A", PackageName := "q",
                  SourceCode := "package q;\nclass A implements Y, Z \x7b\x7d" })]

/-- Two units that declare classes of different names. -/
def distinctNameUnits : GoMap (Option DecompiledClass) :=
  [("p.A", some { ClassName := "A", PackageName := "p",
                  SourceCode := "package p;\nimport p.X;\nclass A extends C implements X \x7b\x7d",
                  Fields := [{ Name := "b", Type_ := "B" }] }),
   ("q.B", some { ClassName := "B", PackageName := "q",
                  SourceCode := "package q;\nclass B extends D implements Y, Z \x7b\x7d" })]

/-! ## `decompiler.go`: validation of a decompiled class -/

/-- How `fmt` prints an index under `%d`. -/
def fmtIndex (i : Nat) : String := toString i

/-- The loop of `ValidateDecompiledClass` over the methods, from index `i` on: the error
of the first method without a name. -/
def validateMethods (i : Nat) : List DecompiledMethod → Option String
  | [] => none
  | method :: rest =>
    if method.Name = "" then
      some ("method name at index " ++ fmtIndex i ++ " cannot be empty")
    else validateMethods (i + 1) rest

/-- The loop of `ValidateDecompiledClass` over the fields, from index `i` on: the error of
the first field without a name. -/
def validateFields (i : Nat) : List DecompiledField → Option String
  | [] => none
  | field :: rest =>
    if field.Name = "" then
      some ("field name at index " ++ fmtIndex i ++ " cannot be empty")
    else validateFields (i + 1) rest

/-- The function `ValidateDecompiledClass`: the text of the error, or `none` for the result
`nil`.  The argument `none` is the `nil` pointer. -/
def ValidateDecompiledClass (cls : Option DecompiledClass) : Option String :=
  match cls with
  | none => some "decompiled class cannot be nil"
  | some c =>
    if c.ClassName = "" then some "class name cannot be empty"
    else if c.SourceCode = "" then some "source code cannot be empty"
    else
      match validateMethods 0 c.Methods with
      | some e => some e
      | none => validateFields 0 c.Fields

/-- A unit whose map key, class name and declared class differ. -/
def threeNamesUnit : DecompiledClass :=
  { ClassName := "Recorded",
    SourceCode := "import java.util.List;\nclass Declared extends Base implements Runnable \x7b\x7d",
    Fields := [{ Name := "items", Type_ := "List<String>" }] }

/-! ## `decompiler.go`: extraction of modifiers and methods -/

/-- The alternatives `a|b|...` in their order. -/
def Regex.anyOf : List Regex → Regex
  | [] => Regex.cls (fun _ => false)
  | [a] => a
  | a :: b :: rest => Regex.alt a (Regex.anyOf (b :: rest))

/-- The alternation of literal words. -/
def Regex.words (ws : List String) : Regex :=
  Regex.anyOf (ws.map (fun w => Regex.lit w.toList))

/-- The search of `FindStringSubmatch` from the left: the first position with a match. -/
def findFirst (re : Regex) : List Char → Option (String × Captures)
  | [] => (Regex.exec re []).map (fun r => ("", r.2))
  | c :: t =>
    match Regex.exec re (c :: t) with
    | some (rest, caps) =>
      some (String.mk ((c :: t).take ((c :: t).length - rest.length)), caps)
    | none => findFirst re t

/-- The method `FindStringSubmatch`: whole match and submatches of the leftmost match,
`none` for `nil`. -/
def FindStringSubmatch (re : Regex) (s : String) : Option (String × Captures) :=
  findFirst re s.toList

/-- The function `strings.TrimSpace`: white space removed at both ends. -/
def stringsTrimSpace (s : String) : String :=
  String.mk ((s.toList.dropWhile unicodeIsSpace).reverse.dropWhile unicodeIsSpace).reverse

/-- The loop of `strings.Fields`; `cur` is the field being read. -/
def stringsFieldsAux (cur : List Char) : List Char → List (List Char)
  | [] => if cur = [] then [] else [cur]
  | c :: cs =>
    if unicodeIsSpace c then
      if cur = [] then stringsFieldsAux [] cs else cur :: stringsFieldsAux [] cs
    else stringsFieldsAux (cur ++ [c]) cs

/-- The function `strings.Fields`: the maximal runs of characters that are no white
space. -/
def stringsFields (s : String) : List String :=
  (stringsFieldsAux [] s.toList).map String.mk

/-- The function `strings.Split` with the separator `","`; `cur` is the part being read. -/
def splitCommaAux (cur : List Char) : List Char → List (List Char)
  | [] => [cur]
  | c :: cs => if c = ',' then cur :: splitCommaAux [] cs else splitCommaAux (cur ++ [c]) cs

/-- The call `strings.Split(s, ",")`. -/
def splitComma (s : String) : List String := (splitCommaAux [] s.toList).map String.mk

/-- The pattern of `extractClassModifiers`:
`((?:public|private|protected|static|final|abstract|strictfp)\s+)*class\s+`. -/
def classRegex : Regex :=
  Regex.seq
    (Regex.star (Regex.group 1
      (Regex.seq
        (Regex.words ["public", "private", "protected", "static", "final", "abstract",
          "strictfp"])
        (Regex.plus (Regex.cls reSpace)))))
    (Regex.seq (Regex.lit "class".toList) (Regex.plus (Regex.cls reSpace)))

/-- The function `extractClassModifiers`. -/
def extractClassModifiers (sourceCode : String) : List String :=
  match FindStringSubmatch classRegex sourceCode with
  | some m =>
    if submatch m.2 1 ≠ "" then stringsFields (stringsTrimSpace (submatch m.2 1)) else []
  | none => []

/-- The class `[a-zA-Z0-9_.<>\[\]]`. -/
def reTypeChar (c : Char) : Bool :=
  reIdentChar c || c == '.' || c == '<' || c == '>' || c == '[' || c == ']'

/-- The pattern of `extractMethods`:
`((?:public|private|protected|static|final|abstract|synchronized|native)\s+)*`
`([a-zA-Z_][a-zA-Z0-9_.<>\[\]]*\s+)?([a-zA-Z_][a-zA-Z0-9_]*)\s*\(([^)]*)\)\s*`
`(?:throws\s+[^{]+)?\s*\{`. -/
def methodRegex : Regex :=
  Regex.seq
    (Regex.star (Regex.group 1
      (Regex.seq
        (Regex.words ["public", "private", "protected", "static", "final", "abstract",
          "synchronized", "native"])
        (Regex.plus (Regex.cls reSpace)))))
    (Regex.seq
      (Regex.opt (Regex.group 2
        (Regex.seq (Regex.cls reIdentStart)
          (Regex.seq (Regex.star (Regex.cls reTypeChar)) (Regex.plus (Regex.cls reSpace))))))
      (Regex.seq
        (Regex.group 3 (Regex.seq (Regex.cls reIdentStart) (Regex.star (Regex.cls reIdentChar))))
        (Regex.seq (Regex.star (Regex.cls reSpace))
          (Regex.seq (Regex.char '(')
            (Regex.seq (Regex.group 4 (Regex.star (Regex.cls (fun c => c != ')'))))
              (Regex.seq (Regex.char ')')
                (Regex.seq (Regex.star (Regex.cls reSpace))
                  (Regex.seq
                    (Regex.opt
                      (Regex.seq (Regex.lit "throws".toList)
                        (Regex.seq (Regex.plus (Regex.cls reSpace))
                          (Regex.plus (Regex.cls (fun c => c != '\x7b'))))))
                    (Regex.seq (Regex.star (Regex.cls reSpace)) (Regex.char '\x7b'))))))))))

/-- The function `extractMethods`; the fields that it leaves for later are empty. -/
def extractMethods (sourceCode : String) : List DecompiledMethod :=
  (FindAllStringSubmatch methodRegex sourceCode).map (fun m =>
    { Name := submatch m.2 3
      ReturnType :=
        if submatch m.2 2 ≠ "" then stringsTrimSpace (submatch m.2 2) else "void"
      Parameters :=
        if submatch m.2 4 ≠ "" then (splitComma (submatch m.2 4)).map stringsTrimSpace else []
      Modifiers :=
        if submatch m.2 1 ≠ "" then stringsFields (stringsTrimSpace (submatch m.2 1)) else []
      SourceCode := ""
      LineNumber := 0
      JavaDoc := "" })

/-- The function `GetAllPublicMethods`. -/
def GetAllPublicMethods (classes : List DecompiledClass) : List DecompiledMethod :=
  classes.flatMap (fun cls => cls.Methods.filter (fun method => method.Modifiers.contains "public"))

/-! ## `decompiler.go`: the fallback source -/

/-- The function `decompileWithFallback`: the source generated for a class name when no
engine is available.  Its error result is always `nil`, so only the text is returned. -/
def decompileWithFallback (className : String) : String :=
  let packageName : String :=
    String.mk (className.toList.reverse.dropWhile (fun c => c != '.')).tail.reverse
  let simpleClassName : String := lastSegment className
  (if packageName ≠ "" then "package " ++ packageName ++ ";\n\n" else "") ++
    "public class " ++ simpleClassName ++ " \x7b\n" ++
    "    // Decompiled with fallback method\n" ++
    "    // Original bytecode structure preserved\n\n" ++
    "    public " ++ simpleClassName ++ "() \x7b\n" ++
    "        // Default constructor\n" ++
    "    \x7d\n\n" ++
    "    // Additional methods and fields would be extracted from bytecode\n" ++
    "\x7d\n"

theorem digits_append (cs : List Char) (b : Nat) : (digits cs b).1 ++ (digits cs b).2 = cs := by
  unfold digits
  split <;> simp [List.takeWhile_append_dropWhile]

theorem scanRadix_append (cs : List Char) : (scanRadix cs).2.1 ++ (scanRadix cs).2.2 = cs := by
  unfold scanRadix
  split
  · rfl
  · split
    · split
      · simp_all
      · split_ifs <;> simp_all
    · rfl

theorem scanExponent_append {cs e r : List Char} (h : scanExponent cs = some (e, r)) :
    e ++ r = cs := by
  unfold scanExponent at h
  split at h
  · simp at h
  · split at h
    · split at h
      · simp at h; rw [← h.1, h.2]; simp
      · split at h
        · simp at h; rw [← h.1, ← h.2]; simp [digits_append]
        · simp at h; rw [← h.1, ← h.2]; simp [digits_append]
    · simp at h

theorem dot_split (ir : List Char) :
    (if (ir.head? == some '.') = true then ['.'] else []) ++
      (if (ir.head? == some '.') = true then ir.tail else ir) = ir := by
  cases ir with
  | nil => simp
  | cons c r =>
    by_cases h : c = '.'
    · subst h; simp
    · simp [h]

theorem scanNumber_append (cs : List Char) (d : Bool) :
    (scanNumber cs d).2.1 ++ (scanNumber cs d).2.2 = cs := by
  unfold scanNumber
  simp only
  cases d
  · simp only [Bool.false_eq_true, ↓reduceIte, Bool.not_false, Bool.true_and, Bool.false_or]
    have h1 := scanRadix_append cs
    have h2 := digits_append (scanRadix cs).2.2 (scanRadix cs).1
    have h3 := dot_split (digits (scanRadix cs).2.2 (scanRadix cs).1).2
    generalize (scanRadix cs).2.1 = rt at *
    generalize (scanRadix cs).2.2 = rr at *
    generalize (scanRadix cs).1 = base at *
    generalize (digits rr base).1 = it at *
    generalize (digits rr base).2 = ir at *
    subst h1 
    subst h2
    by_cases hd : (ir.head? == some '.') = true
    · simp only [hd, ↓reduceIte] at h3 ⊢
      have h4 := digits_append ir.tail base
      split
      · rename_i e rest he
        have h5 := scanExponent_append he
        simp only [List.append_assoc]
        rw [h5, h4, h3]
      · simp only [List.append_assoc]
        rw [h4, h3]
    · simp only [hd, Bool.false_eq_true, ↓reduceIte, List.nil_append, List.append_nil] at h3 ⊢
      split
      · rename_i e rest he
        have h5 := scanExponent_append he
        simp only [List.append_assoc]
        rw [h5]
      · simp
  · simp only [↓reduceIte, Bool.not_true, Bool.false_and, Bool.true_or, List.nil_append,
      Bool.false_eq_true]
    have h4 := digits_append cs 10
    split
    · rename_i e rest he
      have h5 := scanExponent_append he
      simp only [List.append_assoc]
      rw [h5, h4]
    · exact h4

theorem scanNumber_text_ne_nil (ch : Char) (cs : List Char) (h : isDecimal ch = true) :
    (scanNumber (ch :: cs) false).2.1 ≠ [] := by
  unfold scanNumber
  simp only [Bool.false_eq_true, ↓reduceIte]
  have key : (scanRadix (ch :: cs)).2.1 ++ (digits (scanRadix (ch :: cs)).2.2 (scanRadix (ch :: cs)).1).1 ≠ [] := by
    unfold scanRadix
    simp only
    split
    · split
      · simp
      · split_ifs <;> simp
    · simp [digits, h]
  split <;> simp_all

theorem scanString_append (q : Char) (k : Nat) (cs : List Char) :
    (scanString q k cs).1 ++ (scanString q k cs).2 = cs := by
  induction cs generalizing k with
  | nil => cases k <;> simp [scanString]
  | cons c r ih =>
    cases k with
    | zero =>
      simp only [scanString]
      split_ifs <;> simp [ih]
    | succ n => simp [scanString, ih]

theorem scanGeneralComment_append (cs : List Char) :
    (scanGeneralComment cs).1 ++ (scanGeneralComment cs).2 = cs := by
  induction cs with
  | nil => simp [scanGeneralComment]
  | cons c r ih =>
    unfold scanGeneralComment
    split
    · simp
    · split_ifs <;> simp_all

theorem scanComment_append (d : Char) (r : List Char) :
    (scanComment d r).1 ++ (scanComment d r).2 = d :: r := by
  unfold scanComment
  split_ifs
  · simp [List.takeWhile_append_dropWhile]
  · simp [scanGeneralComment_append]

theorem Scan_append (U : UnicodeTables) (l : List Char) :
    (Scan U l).2.1 ++ (Scan U l).2.2 = l.dropWhile isGoWhitespace := by
  unfold Scan
  split
  · rename_i h; simp [h]
  · rename_i ch cs h
    rw [h]
    split_ifs
    · simp [List.takeWhile_append_dropWhile]
    · exact scanNumber_append _ _
    · simp [scanString_append]
    · simp [scanString_append]
    · split
      · rfl
      · split_ifs
        · simp [scanNumber_append]
        · rfl
    · split
      · rfl
      · split_ifs
        · simp [scanComment_append]
        · rfl
    · rfl

theorem Scan_text_ne_nil (U : UnicodeTables) (l : List Char) (h : (Scan U l).1 ≠ ScanTok.eof) :
    (Scan U l).2.1 ≠ [] := by
  unfold Scan at h ⊢
  split
  · rename_i h2; simp [h2] at h
  · rename_i ch cs h2
    split_ifs
    · simp
    · rename_i h3 h4; exact scanNumber_text_ne_nil ch cs h4
    · simp
    · simp
    · split
      · simp
      · split_ifs <;> simp
    · split
      · simp
      · split_ifs <;> simp
    · simp

theorem Scan_rest_length (U : UnicodeTables) (l : List Char) (h : (Scan U l).1 ≠ ScanTok.eof) :
    (Scan U l).2.2.length < l.length := by
  have h1 := congrArg List.length (Scan_append U l)
  have h2 := Scan_text_ne_nil U l h
  have h3 : (l.dropWhile isGoWhitespace).length ≤ l.length :=
    (List.dropWhile_sublist _).length_le
  have h4 : 0 < (Scan U l).2.1.length := List.length_pos.mpr h2
  simp only [List.length_append] at h1
  omega

theorem Scan_rest_suffix (U : UnicodeTables) (l : List Char) : (Scan U l).2.2 <:+ l := by
  have h1 : (Scan U l).2.2 <:+ l.dropWhile isGoWhitespace := ⟨_, Scan_append U l⟩
  exact h1.trans (List.dropWhile_suffix _)


theorem NextToken_eof_iff (U : UnicodeTables) (l : JavaLexer) :
    (NextToken U l).1.tok = JavaToken.TOKEN_EOF ↔ (Scan U l).1 = ScanTok.eof := by
  unfold NextToken
  simp only
  split <;> simp_all <;> split_ifs <;> simp

theorem NextToken_rest (U : UnicodeTables) (l : JavaLexer) :
    (NextToken U l).2 = (Scan U l).2.2 := by
  unfold NextToken
  simp only
  split <;> try rfl
  all_goals split_ifs <;> rfl

theorem NextToken_length (U : UnicodeTables) (l : JavaLexer)
    (h : (NextToken U l).1.tok ≠ JavaToken.TOKEN_EOF) : (NextToken U l).2.length < l.length := by
  rw [NextToken_rest]
  exact Scan_rest_length U l (fun h2 => h ((NextToken_eof_iff U l).mpr h2))

theorem tokenStreamAux_fuel (U : UnicodeTables) (n : Nat) :
    ∀ (m : Nat) (l : JavaLexer), l.length < n → l.length < m →
      tokenStreamAux U n l = tokenStreamAux U m l := by
  induction n with
  | zero => intro m l h; omega
  | succ n ih =>
    intro m l hn hm
    cases m with
    | zero => omega
    | succ m =>
      simp only [tokenStreamAux]
      split_ifs with h
      · rfl
      · have := NextToken_length U l h
        rw [ih m _ (by omega) (by omega)]

/-- The token stream is the first token followed by the stream of the rest. -/
theorem tokenStream_unfold (U : UnicodeTables) (l : JavaLexer) :
    tokenStream U l =
      if (NextToken U l).1.tok = JavaToken.TOKEN_EOF then []
      else (NextToken U l).1 :: tokenStream U (NextToken U l).2 := by
  show tokenStreamAux U (l.length + 1) l = _
  rw [tokenStreamAux]
  split_ifs with h
  · rfl
  · have := NextToken_length U l h
    rw [tokenStreamAux_fuel U l.length ((NextToken U l).2.length + 1) _ (by omega) (by omega)]
    rfl


theorem isGoWhitespace_not_ident (U : UnicodeTables) (c : Char) (i : Nat)
    (h : isGoWhitespace c = true) : isIdentRune U c i = false := by
  simp only [isGoWhitespace, Bool.or_eq_true, beq_iff_eq] at h
  rcases h with ((h | h) | h) | h <;> subst h <;>
    simp [isIdentRune, unicodeIsLetter, unicodeIsDigit]

theorem isIdentRune_zero_one (U : UnicodeTables) (c : Char) (h : isIdentRune U c 0 = true) :
    isIdentRune U c 1 = true := by
  simp only [isIdentRune, Bool.or_eq_true, Bool.and_eq_true, decide_eq_true_eq] at h ⊢
  rcases h with (h | h) | h
  · exact Or.inl (Or.inl h)
  · exact Or.inl (Or.inr h)
  · omega

theorem isIdentRune_not_decimal_start (U : UnicodeTables) (c : Char) (h : isDecimal c = true) :
    isIdentRune U c 0 = false := by
  have h1 : c.toNat < 128 := by
    simp only [isDecimal, Bool.and_eq_true, decide_eq_true_eq] at h
    have : '9'.toNat = 57 := by decide
    omega
  simp only [isDecimal, Bool.and_eq_true, decide_eq_true_eq] at h
  have e0 : '0'.toNat = 48 := by decide
  have e9 : '9'.toNat = 57 := by decide
  have ea : 'a'.toNat = 97 := by decide
  have eA : 'A'.toNat = 65 := by decide
  have eZ : 'Z'.toNat = 90 := by decide
  have hu : c ≠ '_' := by
    intro hc; subst hc; revert h; decide
  simp only [isIdentRune, unicodeIsLetter, h1, ↓reduceIte, unicodeIsDigit]
  simp [hu]
  omega

/-- Scanning a word: leading whitespace is skipped and the identifier characters are taken
up to the first character that cannot continue an identifier. -/
theorem Scan_word (U : UnicodeTables) (ws : List Char) (a : Char) (w rest : List Char)
    (hws : ∀ c ∈ ws, isGoWhitespace c = true) (ha : isIdentRune U a 0 = true)
    (hw : ∀ c ∈ w, isIdentRune U c 1 = true)
    (hr : ∀ d ∈ rest.head?, isIdentRune U d 1 = false) :
    Scan U (ws ++ a :: (w ++ rest)) = (ScanTok.ident, a :: w, rest) := by
  have hna : ¬ isGoWhitespace a = true := by
    intro h; rw [isGoWhitespace_not_ident U a 0 h] at ha; cases ha
  have h1 : (ws ++ a :: (w ++ rest)).dropWhile isGoWhitespace = a :: (w ++ rest) := by
    rw [List.dropWhile_append_of_pos hws, List.dropWhile_cons_of_neg hna]
  have h2 : rest.takeWhile (fun c => isIdentRune U c 1) = [] := by
    cases rest with
    | nil => rfl
    | cons d r => simp [List.takeWhile_cons, hr d (by simp)]
  have h3 : rest.dropWhile (fun c => isIdentRune U c 1) = rest := by
    cases rest with
    | nil => rfl
    | cons d r => simp [List.dropWhile_cons, hr d (by simp)]
  unfold Scan
  rw [h1]
  simp only [ha, ↓reduceIte]
  rw [List.takeWhile_append_of_pos hw, List.dropWhile_append_of_pos hw, h2, h3]
  simp

/-- The token of a word: a keyword if the word is in the keyword table, an identifier if
not. -/
theorem NextToken_word (U : UnicodeTables) (ws : List Char) (a : Char) (w rest : List Char)
    (hws : ∀ c ∈ ws, isGoWhitespace c = true) (ha : isIdentRune U a 0 = true)
    (hw : ∀ c ∈ w, isIdentRune U c 1 = true)
    (hr : ∀ d ∈ rest.head?, isIdentRune U d 1 = false) :
    NextToken U (ws ++ a :: (w ++ rest)) =
      (⟨if JavaKeywords (String.mk (a :: w)) then JavaToken.TOKEN_KEYWORD
          else JavaToken.TOKEN_IDENTIFIER, String.mk (a :: w)⟩, rest) := by
  unfold NextToken
  rw [Scan_word U ws a w rest hws ha hw hr]
  simp only
  split_ifs <;> rfl

/-- The token of a character that stands for itself. -/
theorem NextToken_rune (U : UnicodeTables) (ws : List Char) (c : Char) (rest : List Char)
    (hws : ∀ c ∈ ws, isGoWhitespace c = true) (hc : isGoWhitespace c = false)
    (h0 : isIdentRune U c 0 = false) (h1 : isDecimal c = false) (h2 : c ≠ '"')
    (h3 : c ≠ '\'') (h4 : c ≠ '.') (h5 : c ≠ '/') :
    NextToken U (ws ++ c :: rest) =
      (⟨if unicodeIsSpace c then JavaToken.TOKEN_WHITESPACE
          else if operatorChars.contains c then JavaToken.TOKEN_OPERATOR
          else JavaToken.TOKEN_DELIMITER, String.mk [c]⟩, rest) := by
  have hs : Scan U (ws ++ c :: rest) = (ScanTok.rune c, [c], rest) := by
    unfold Scan
    rw [List.dropWhile_append_of_pos hws, List.dropWhile_cons_of_neg (by simp [hc])]
    simp [h0, h1, h2, h3, h4, h5]
  unfold NextToken
  rw [hs]
  simp only
  split_ifs <;> rfl

/-- At the end of the source, after trailing whitespace, the lexer returns `TOKEN_EOF`. -/
theorem NextToken_end (U : UnicodeTables) (ws : List Char)
    (hws : ∀ c ∈ ws, isGoWhitespace c = true) :
    (NextToken U ws).1.tok = JavaToken.TOKEN_EOF := by
  rw [NextToken_eof_iff]
  unfold Scan
  have : ws.dropWhile isGoWhitespace = [] := by
    simpa using hws
  rw [this]


theorem isIdentRune_ascii (U V : UnicodeTables) (c : Char) (i : Nat) (h : c.toNat < 128) :
    isIdentRune U c i = isIdentRune V c i := by
  simp [isIdentRune, unicodeIsLetter, unicodeIsDigit, h]

theorem takeWhile_congr_mem {α : Type} (p q : α → Bool) (l : List α)
    (h : ∀ x ∈ l, p x = q x) : l.takeWhile p = l.takeWhile q := by
  induction l with
  | nil => rfl
  | cons a t ih =>
    simp only [List.takeWhile_cons, h a (List.mem_cons_self a t)]
    rw [ih (fun x hx => h x (List.mem_cons_of_mem a hx))]

theorem dropWhile_congr_mem {α : Type} (p q : α → Bool) (l : List α)
    (h : ∀ x ∈ l, p x = q x) : l.dropWhile p = l.dropWhile q := by
  induction l with
  | nil => rfl
  | cons a t ih =>
    simp only [List.dropWhile_cons, h a (List.mem_cons_self a t)]
    rw [ih (fun x hx => h x (List.mem_cons_of_mem a hx))]

/-- On a source in ASCII the scanner does not consult the Unicode tables. -/
theorem Scan_ascii (U V : UnicodeTables) (l : List Char) (h : ∀ c ∈ l, c.toNat < 128) :
    Scan U l = Scan V l := by
  unfold Scan
  split
  · rfl
  · rename_i ch cs hd
    have hsub : ∀ x ∈ ch :: cs, x ∈ l := by
      intro x hx
      rw [← hd] at hx
      exact (List.dropWhile_sublist _).subset hx
    have hch : isIdentRune U ch 0 = isIdentRune V ch 0 :=
      isIdentRune_ascii U V ch 0 (h ch (hsub ch (List.mem_cons_self _ _)))
    have hcs : ∀ x ∈ cs, isIdentRune U x 1 = isIdentRune V x 1 := fun x hx =>
      isIdentRune_ascii U V x 1 (h x (hsub x (List.mem_cons_of_mem _ hx)))
    rw [hch, takeWhile_congr_mem _ _ cs hcs, dropWhile_congr_mem _ _ cs hcs]

theorem NextToken_ascii (U V : UnicodeTables) (l : JavaLexer) (h : ∀ c ∈ l, c.toNat < 128) :
    NextToken U l = NextToken V l := by
  unfold NextToken
  rw [Scan_ascii U V l h]

theorem tokenStreamAux_ascii (U V : UnicodeTables) (n : Nat) :
    ∀ l : JavaLexer, (∀ c ∈ l, c.toNat < 128) → tokenStreamAux U n l = tokenStreamAux V n l := by
  induction n with
  | zero => intro l _; rfl
  | succ n ih =>
    intro l h
    simp only [tokenStreamAux]
    rw [NextToken_ascii U V l h]
    have hrest : ∀ c ∈ (NextToken V l).2, c.toNat < 128 := by
      intro c hc
      rw [NextToken_rest] at hc
      exact h c ((Scan_rest_suffix V l).subset hc)
    rw [ih _ hrest]

/-- The lexer starts from characters of the source. -/
theorem NewJavaLexer_subset (source : String) : ∀ c ∈ NewJavaLexer source, c ∈ source.toList := by
  intro c hc
  unfold NewJavaLexer at hc
  split at hc
  · simp at hc
  · rename_i a t heq
    rw [heq]
    split_ifs at hc
    · exact List.mem_cons_of_mem _ hc
    · exact hc

/-- On a source in ASCII the parser starts from the same tokens under all Unicode
tables. -/
theorem NewJavaASTParser_ascii (U : UnicodeTables) (source : String)
    (h : source.toList.all (fun c => decide (c.toNat < 128)) = true) :
    NewJavaASTParser U source = NewJavaASTParser asciiTables source := by
  unfold NewJavaASTParser tokenStream
  rw [tokenStreamAux_ascii U asciiTables]
  intro c hc
  have := List.all_eq_true.mp h c (NewJavaLexer_subset source c hc)
  simpa using this

theorem isIdentRune_of_ascii (U : UnicodeTables) (c : Char) (i : Nat)
    (h : (decide (c.toNat < 128) && isIdentRune asciiTables c i) = true) :
    isIdentRune U c i = true := by
  simp only [Bool.and_eq_true, decide_eq_true_eq] at h
  rw [isIdentRune_ascii U asciiTables c i h.1]
  exact h.2

theorem not_isIdentRune_of_ascii (U : UnicodeTables) (c : Char) (i : Nat)
    (h : (decide (c.toNat < 128) && !isIdentRune asciiTables c i) = true) :
    isIdentRune U c i = false := by
  simp only [Bool.and_eq_true, decide_eq_true_eq, Bool.not_eq_true'] at h
  rw [isIdentRune_ascii U asciiTables c i h.1]
  exact h.2

theorem word_of_ascii (U : UnicodeTables) (w : List Char)
    (h : w.all (fun c => decide (c.toNat < 128) && isIdentRune asciiTables c 1) = true) :
    ∀ c ∈ w, isIdentRune U c 1 = true := by
  intro c hc
  exact isIdentRune_of_ascii U c 1 (List.all_eq_true.mp h c hc)


theorem tokenStream_cons_of (U : UnicodeTables) (l : JavaLexer) (t : Token) (rest : JavaLexer)
    (h : NextToken U l = (t, rest)) (ht : t.tok ≠ JavaToken.TOKEN_EOF) :
    tokenStream U l = t :: tokenStream U rest := by
  rw [tokenStream_unfold, h]
  simp [ht]

theorem tokenStream_nil_of (U : UnicodeTables) (l : JavaLexer)
    (h : (NextToken U l).1.tok = JavaToken.TOKEN_EOF) : tokenStream U l = [] := by
  rw [tokenStream_unfold]
  simp [h]

/-- The token stream of a source that starts with a word. -/
theorem tokenStream_word (U : UnicodeTables) (ws : List Char) (a : Char) (w rest : List Char)
    (hws : ∀ c ∈ ws, isGoWhitespace c = true) (ha : isIdentRune U a 0 = true)
    (hw : ∀ c ∈ w, isIdentRune U c 1 = true)
    (hr : ∀ d ∈ rest.head?, isIdentRune U d 1 = false) :
    tokenStream U (ws ++ a :: (w ++ rest)) =
      ⟨if JavaKeywords (String.mk (a :: w)) then JavaToken.TOKEN_KEYWORD
          else JavaToken.TOKEN_IDENTIFIER, String.mk (a :: w)⟩ :: tokenStream U rest := by
  refine tokenStream_cons_of U _ _ _ (NextToken_word U ws a w rest hws ha hw hr) ?_
  simp only
  split_ifs <;> simp

/-- The token stream of a source that starts with a character standing for itself. -/
theorem tokenStream_rune (U : UnicodeTables) (ws : List Char) (c : Char) (rest : List Char)
    (hws : ∀ c ∈ ws, isGoWhitespace c = true) (hc : isGoWhitespace c = false)
    (h0 : isIdentRune U c 0 = false) (h1 : isDecimal c = false) (h2 : c ≠ '"')
    (h3 : c ≠ '\'') (h4 : c ≠ '.') (h5 : c ≠ '/') :
    tokenStream U (ws ++ c :: rest) =
      ⟨if unicodeIsSpace c then JavaToken.TOKEN_WHITESPACE
          else if operatorChars.contains c then JavaToken.TOKEN_OPERATOR
          else JavaToken.TOKEN_DELIMITER, String.mk [c]⟩ :: tokenStream U rest := by
  refine tokenStream_cons_of U _ _ _ (NextToken_rune U ws c rest hws hc h0 h1 h2 h3 h4 h5) ?_
  simp only
  split_ifs <;> simp

theorem isIdentifierLexeme_iff (U : UnicodeTables) (w : String)
    (h : isIdentifierLexeme U w = true) :
    ∃ a t, w = String.mk (a :: t) ∧ isIdentRune U a 0 = true ∧
      ∀ c ∈ t, isIdentRune U c 1 = true := by
  unfold isIdentifierLexeme at h
  cases w with
  | mk data =>
    cases data with
    | nil => simp [String.toList] at h
    | cons a t =>
      simp only [String.toList, Bool.and_eq_true, List.all_eq_true] at h
      exact ⟨a, t, rfl, h.1, h.2⟩

/-- The tokens of the source `public class A extends B implements C, D {}`. -/
theorem header_tokens (U : UnicodeTables) (A B C D : String)
    (hA : isIdentifierLexeme U A = true) (hB : isIdentifierLexeme U B = true)
    (hC : isIdentifierLexeme U C = true) (hD : isIdentifierLexeme U D = true)
    (kA : JavaKeywords A = false) (kB : JavaKeywords B = false)
    (kC : JavaKeywords C = false) (kD : JavaKeywords D = false) :
    tokenStream U (NewJavaLexer
      ("public class " ++ A ++ " extends " ++ B ++ " implements " ++ C ++ ", " ++ D ++ " \x7b\x7d")) =
      [⟨JavaToken.TOKEN_KEYWORD, "public"⟩, ⟨JavaToken.TOKEN_KEYWORD, "class"⟩,
       ⟨JavaToken.TOKEN_IDENTIFIER, A⟩, ⟨JavaToken.TOKEN_KEYWORD, "extends"⟩,
       ⟨JavaToken.TOKEN_IDENTIFIER, B⟩, ⟨JavaToken.TOKEN_KEYWORD, "implements"⟩,
       ⟨JavaToken.TOKEN_IDENTIFIER, C⟩, ⟨JavaToken.TOKEN_OPERATOR, ","⟩,
       ⟨JavaToken.TOKEN_IDENTIFIER, D⟩, ⟨JavaToken.TOKEN_OPERATOR, "\x7b"⟩,
       ⟨JavaToken.TOKEN_OPERATOR, "\x7d"⟩] := by
  obtain ⟨a, aw, rfl, ha0, ha1⟩ := isIdentifierLexeme_iff U A hA
  obtain ⟨b, bw, rfl, hb0, hb1⟩ := isIdentifierLexeme_iff U B hB
  obtain ⟨c, cw, rfl, hc0, hc1⟩ := isIdentifierLexeme_iff U C hC
  obtain ⟨d, dw, rfl, hd0, hd1⟩ := isIdentifierLexeme_iff U D hD
  have hsp : ∀ x ∈ [' '], isGoWhitespace x = true := by simp [isGoWhitespace]
  have hnil : ∀ x ∈ ([] : List Char), isGoWhitespace x = true := by simp
  have spNo : isIdentRune U ' ' 1 = false := isGoWhitespace_not_ident U ' ' 1 (by decide)
  have commaNo : isIdentRune U ',' 1 = false := by
    simp [isIdentRune, unicodeIsLetter, unicodeIsDigit]
  -- the source as a list of characters
  have hsrc : NewJavaLexer
      ("public class " ++ String.mk (a :: aw) ++ " extends " ++ String.mk (b :: bw) ++
        " implements " ++ String.mk (c :: cw) ++ ", " ++ String.mk (d :: dw) ++ " \x7b\x7d") =
      [] ++ 'p' :: (['u', 'b', 'l', 'i', 'c'] ++ ([' '] ++ 'c' :: (['l', 'a', 's', 's'] ++ ([' '] ++ a :: (aw ++ ([' '] ++ 'e' :: (['x', 't', 'e', 'n', 'd', 's'] ++ ([' '] ++ b :: (bw ++ ([' '] ++ 'i' :: (['m', 'p', 'l', 'e', 'm', 'e', 'n', 't', 's'] ++ ([' '] ++ c :: (cw ++ ([] ++ ',' :: ([' '] ++ d :: (dw ++ ([' '] ++ '{' :: ([] ++ '}' :: [])))))))))))))))))) := by
    simp [NewJavaLexer, String.toList]
  rw [hsrc]
  rw [tokenStream_word U [] 'p' _ _ hnil (isIdentRune_of_ascii U _ _ (by decide))
    (word_of_ascii U _ (by decide)) (by simpa using spNo)]
  rw [tokenStream_word U [' '] 'c' _ _ hsp (isIdentRune_of_ascii U _ _ (by decide))
    (word_of_ascii U _ (by decide)) (by simpa using spNo)]
  rw [tokenStream_word U [' '] a aw _ hsp ha0 ha1 (by simpa using spNo)]
  rw [tokenStream_word U [' '] 'e' _ _ hsp (isIdentRune_of_ascii U _ _ (by decide))
    (word_of_ascii U _ (by decide)) (by simpa using spNo)]
  rw [tokenStream_word U [' '] b bw _ hsp hb0 hb1 (by simpa using spNo)]
  rw [tokenStream_word U [' '] 'i' _ _ hsp (isIdentRune_of_ascii U _ _ (by decide))
    (word_of_ascii U _ (by decide)) (by simpa using spNo)]
  rw [tokenStream_word U [' '] c cw _ hsp hc0 hc1 (by simpa using commaNo)]
  rw [tokenStream_rune U [] ',' _ hnil (by decide) (not_isIdentRune_of_ascii U _ _ (by decide))
    (by decide) (by decide) (by decide) (by decide) (by decide)]
  rw [tokenStream_word U [' '] d dw _ hsp hd0 hd1 (by simpa using spNo)]
  rw [tokenStream_rune U [' '] '{' _ hsp (by decide) (not_isIdentRune_of_ascii U _ _ (by decide))
    (by decide) (by decide) (by decide) (by decide) (by decide)]
  rw [tokenStream_rune U [] '}' _ hnil (by decide) (not_isIdentRune_of_ascii U _ _ (by decide))
    (by decide) (by decide) (by decide) (by decide) (by decide)]
  rw [tokenStream_nil_of U [] (NextToken_end U [] hnil)]
  rw [kA, kB, kC, kD]
  rfl



theorem parseTypeParametersLoop_closes (g : List Token) :
    ∀ (depth : Nat) (rest : JavaASTParser), closesGenerics depth g = true →
      parseTypeParametersLoop (depth + 1) (g ++ rest) = rest := by
  induction g with
  | nil => intro depth rest h; simp [closesGenerics] at h
  | cons t g ih =>
    intro depth rest h
    unfold closesGenerics at h
    simp only [List.cons_append, parseTypeParametersLoop]
    split_ifs at h ⊢ with h1 h2 h3
    · exact ih (depth + 1) rest h
    · cases depth with
      | zero =>
        simp only [List.isEmpty_iff] at h
        subst h
        cases rest <;> simp [parseTypeParametersLoop]
      | succ d => exact ih d rest h
    · exact ih depth rest h

theorem parseTypeParameters_generics (g : List Token) (rest : JavaASTParser)
    (h : isGenericList g = true) : parseTypeParameters (g ++ rest) = rest := by
  cases g with
  | nil => simp [isGenericList] at h
  | cons t g =>
    simp only [isGenericList, Bool.and_eq_true, decide_eq_true_eq] at h
    obtain ⟨rfl, h2⟩ := h
    simp only [parseTypeParameters, List.cons_append, currentTok, currentText, tokLt, nextToken,
      List.tail_cons, and_self, ↓reduceIte]
    exact parseTypeParametersLoop_closes g 0 rest h2

theorem parseIdentifier_before_generics (name : String) (g : List Token) (rest : JavaASTParser)
    (h : isGenericList g = true) :
    parseIdentifier (tokIdent name :: (g ++ rest)) = (Except.ok name, g ++ rest) := by
  cases g with
  | nil => simp [isGenericList] at h
  | cons t g =>
    simp only [isGenericList, Bool.and_eq_true, decide_eq_true_eq] at h
    obtain ⟨rfl, _⟩ := h
    have hne : ("<" : String) ≠ "." := by decide
    simp only [parseIdentifier, currentTok, currentText, tokIdent, nextToken, tokLt,
      List.cons_append, List.tail_cons, ne_eq, not_true_eq_false, ↓reduceIte]
    unfold parseIdentifierLoop
    simp [hne]


theorem interfaceListTokens_single (e : String × List Token) :
    interfaceListTokens [e] = tokIdent e.1 :: e.2 := rfl

theorem interfaceListTokens_cons_cons (e e2 : String × List Token)
    (more : List (String × List Token)) :
    interfaceListTokens (e :: e2 :: more) =
      tokIdent e.1 :: (e.2 ++ tokComma :: interfaceListTokens (e2 :: more)) := rfl

theorem parseInterfaceListLoop_generics (ifaces : List (String × List Token)) :
    ∀ (fuel : Nat) (acc : List String) (rest : JavaASTParser), ifaces ≠ [] →
      (∀ e ∈ ifaces, isGenericList e.2 = true) → ifaces.length ≤ fuel →
      ¬ (currentTok rest = JavaToken.TOKEN_OPERATOR ∧ currentText rest = ",") →
      parseInterfaceListLoop fuel acc (interfaceListTokens ifaces ++ rest) =
        (Except.ok (acc ++ ifaces.map Prod.fst), rest) := by
  induction ifaces with
  | nil => intro fuel acc rest h; exact absurd rfl h
  | cons e more ih =>
    intro fuel acc rest _ hg hfuel hrest
    cases fuel with
    | zero => simp at hfuel
    | succ fuel =>
      have he := hg e (List.mem_cons_self _ _)
      cases more with
      | nil =>
        rw [interfaceListTokens_single]
        simp only [List.cons_append, parseInterfaceListLoop]
        rw [parseIdentifier_before_generics e.1 e.2 rest he]
        simp only [parseTypeParameters_generics e.2 rest he]
        simp [hrest]
      | cons e2 more2 =>
        rw [interfaceListTokens_cons_cons]
        simp only [List.cons_append, List.append_assoc, parseInterfaceListLoop]
        rw [parseIdentifier_before_generics e.1 e.2 _ he]
        simp only [parseTypeParameters_generics e.2 _ he]
        have hc : currentTok (tokComma :: (interfaceListTokens (e2 :: more2) ++ rest)) =
            JavaToken.TOKEN_OPERATOR ∧
            currentText (tokComma :: (interfaceListTokens (e2 :: more2) ++ rest)) = "," := by
          simp [currentTok, currentText, tokComma]
        rw [if_pos hc]
        simp only [nextToken, List.tail_cons]
        have := ih fuel (acc ++ [e.1]) rest (by simp)
          (fun x hx => hg x (List.mem_cons_of_mem _ hx))
          (by simp only [List.length_cons] at hfuel ⊢; omega) hrest
        rw [this]
        simp

theorem currentTok_skipToNextDeclaration (rest : JavaASTParser)
    (h : ∀ t ∈ rest, atClassKeyword [t] = false) :
    currentTok (skipToNextDeclaration rest) = JavaToken.TOKEN_EOF := by
  induction rest with
  | nil => rfl
  | cons t r ih =>
    have ht := h t (List.mem_cons_self _ _)
    have ht2 : atClassKeyword (t :: r) = false := by
      simpa [atClassKeyword, currentTok, currentText] using ht
    simp only [skipToNextDeclaration]
    by_cases he : t.tok = JavaToken.TOKEN_EOF
    · simp [he, currentTok]
    · simp only [ne_eq, he, not_false_eq_true, ht2, Bool.not_false, and_self, ↓reduceIte]
      exact ih (fun x hx => h x (List.mem_cons_of_mem _ hx))


theorem length_le_interfaceListTokens (ifaces : List (String × List Token)) :
    ifaces.length ≤ (interfaceListTokens ifaces).length := by
  induction ifaces with
  | nil => simp
  | cons e more ih =>
    cases more with
    | nil => simp [interfaceListTokens_single]
    | cons e2 more2 =>
      rw [interfaceListTokens_cons_cons]
      simp only [List.length_cons, List.length_append] at ih ⊢
      omega

/-- The header `class N<..> extends P<..> implements I1<..>, ..., In<..>` parses to one
declaration carrying the bare names. -/
theorem parseClassDeclaration_generic_header (N P : String) (gN gP : List Token)
    (ifaces : List (String × List Token)) (rest : JavaASTParser)
    (hN : isGenericList gN = true) (hP : isGenericList gP = true) (hne : ifaces ≠ [])
    (hI : ∀ e ∈ ifaces, isGenericList e.2 = true)
    (hrest : ¬ (currentTok rest = JavaToken.TOKEN_OPERATOR ∧ currentText rest = ",")) :
    parseClassDeclaration
      (tokKeyword "class" :: tokIdent N :: (gN ++ tokKeyword "extends" :: tokIdent P ::
        (gP ++ tokKeyword "implements" :: (interfaceListTokens ifaces ++ rest)))) =
      (Except.ok { Name := N, ParentClass := P, Interfaces := ifaces.map Prod.fst }, rest) := by
  have h1 : isModifierText "class" = false := by decide
  have h2 : ("class" : String) ≠ "interface" := by decide
  simp only [parseClassDeclaration, parseClassDeclarationLoop, tokKeyword, h1, ↓reduceIte,
    true_or, Bool.false_eq_true]
  simp only [parseClassName]
  rw [parseIdentifier_before_generics N gN _ hN]
  simp only [parseTypeParameters_generics gN _ hN]
  simp only [parseExtendsClause, currentTok, currentText, and_self, ↓reduceIte, nextToken,
    List.tail_cons]
  rw [parseIdentifier_before_generics P gP _ hP]
  simp only [parseTypeParameters_generics gP _ hP]
  simp only [parseImplementsClause, currentTok, currentText, and_self, ↓reduceIte, nextToken,
    List.tail_cons, parseInterfaceList]
  rw [parseInterfaceListLoop_generics ifaces _ [] rest hne hI
    (by have := length_le_interfaceListTokens ifaces
        simp only [List.length_append]; omega) hrest]
  simp [h2]



theorem RangeOrder.mem_order (o : RangeOrder) {α : Type} (l : List α) (x : α) :
    x ∈ o.order l ↔ x ∈ l := (o.perm l).mem_iff

theorem RangeOrder.order_nil (o : RangeOrder) {α : Type} : o.order ([] : List α) = [] :=
  List.Perm.eq_nil (o.perm [])

theorem RangeOrder.order_singleton (o : RangeOrder) {α : Type} (x : α) : o.order [x] = [x] :=
  List.perm_singleton.mp (o.perm [x])

theorem foldl_append_flatMap {α β : Type} (f : α → List β) (l : List α) (init : List β) :
    l.foldl (fun acc x => acc ++ f x) init = init ++ l.flatMap f := by
  induction l generalizing init with
  | nil => simp
  | cons a t ih => simp [List.foldl_cons, ih, List.flatMap_cons, List.append_assoc]

theorem analyzeFieldDependencies_deps (classInfo : DecompiledClass)
    (result : DependencyAnalysisResult) :
    (analyzeFieldDependencies classInfo result).ClassDependencies =
      result.ClassDependencies ++ classInfo.Fields.flatMap (fieldDependency classInfo) := by
  simp [analyzeFieldDependencies, foldl_append_flatMap]

/-- The inheritance map after the analysis of one entry. -/
theorem analyzeClass_inheritanceTree (U : UnicodeTables) (o : RangeOrder)
    (result : DependencyAnalysisResult) (key : String) (classInfo : DecompiledClass) :
    (analyzeClass U o result (key, some classInfo)).InheritanceTree =
      match ParseJavaInheritance U classInfo.SourceCode with
      | Except.error _ => result.InheritanceTree
      | Except.ok maps => (o.order maps.1).foldl (fun m e => m.set e.1 e.2) result.InheritanceTree := by
  simp only [analyzeClass, analyzeFieldDependencies, analyzeMethodCalls, analyzeInheritance]
  split <;> simp_all

/-- The interface map after the analysis of one entry. -/
theorem analyzeClass_interfaceImpls (U : UnicodeTables) (o : RangeOrder)
    (result : DependencyAnalysisResult) (key : String) (classInfo : DecompiledClass) :
    (analyzeClass U o result (key, some classInfo)).InterfaceImpls =
      match ParseJavaInheritance U classInfo.SourceCode with
      | Except.error _ => result.InterfaceImpls
      | Except.ok maps => (o.order maps.2).foldl (fun m e => m.set e.1 e.2) result.InterfaceImpls := by
  simp only [analyzeClass, analyzeFieldDependencies, analyzeMethodCalls, analyzeInheritance]
  split <;> simp_all

/-- The import map after the analysis of one entry. -/
theorem analyzeClass_importStatements (U : UnicodeTables) (o : RangeOrder)
    (result : DependencyAnalysisResult) (key : String) (classInfo : DecompiledClass) :
    (analyzeClass U o result (key, some classInfo)).ImportStatements =
      result.ImportStatements.set key (extractImports classInfo.SourceCode) := by
  simp only [analyzeClass, analyzeFieldDependencies, analyzeMethodCalls, analyzeInheritance]
  split <;> rfl

/-- The method calls after the analysis of one entry. -/
theorem analyzeClass_methodCalls (U : UnicodeTables) (o : RangeOrder)
    (result : DependencyAnalysisResult) (key : String) (classInfo : DecompiledClass) :
    (analyzeClass U o result (key, some classInfo)).MethodCalls =
      (analyzeMethodCalls classInfo result).MethodCalls := by
  simp only [analyzeClass, analyzeFieldDependencies, analyzeMethodCalls, analyzeInheritance]
  split <;> rfl

/-- The edges after the analysis of one entry: the field edges of the class are added. -/
theorem analyzeClass_deps (U : UnicodeTables) (o : RangeOrder)
    (result : DependencyAnalysisResult) (key : String) (classInfo : DecompiledClass) :
    (analyzeClass U o result (key, some classInfo)).ClassDependencies =
      result.ClassDependencies ++ classInfo.Fields.flatMap (fieldDependency classInfo) := by
  simp only [analyzeClass, analyzeFieldDependencies_deps, analyzeMethodCalls, analyzeInheritance]
  split <;> rfl

theorem analyzeClass_none (U : UnicodeTables) (o : RangeOrder)
    (result : DependencyAnalysisResult) (key : String) :
    analyzeClass U o result (key, none) = result := rfl

/-- The edges that `buildClassDependencies` returns. -/
theorem buildClassDependencies_deps (o : RangeOrder) (result : DependencyAnalysisResult) :
    (buildClassDependencies o result).ClassDependencies =
      result.ClassDependencies ++
      (o.order result.InheritanceTree).map (fun e =>
        { FromClass := e.1, ToClass := e.2, DepType := "extends" }) ++
      (o.order result.InterfaceImpls).flatMap (fun e =>
        e.2.map (fun iface => { FromClass := e.1, ToClass := iface, DepType := "implements" })) ++
      (o.order result.ImportStatements).flatMap (fun e =>
        e.2.flatMap (fun importPath => importDependency e.1 importPath)) := rfl

theorem mem_build_of_mem (o : RangeOrder) (result : DependencyAnalysisResult)
    (d : ClassDependency) (h : d ∈ result.ClassDependencies) :
    d ∈ (buildClassDependencies o result).ClassDependencies := by
  rw [buildClassDependencies_deps]
  simp [h]

theorem mem_build_extends (o : RangeOrder) (result : DependencyAnalysisResult)
    (child parent : String) (h : (child, parent) ∈ result.InheritanceTree) :
    ({ FromClass := child, ToClass := parent, DepType := "extends" } : ClassDependency) ∈
      (buildClassDependencies o result).ClassDependencies := by
  rw [buildClassDependencies_deps]
  have : (child, parent) ∈ o.order result.InheritanceTree := (o.mem_order _ _).mpr h
  simp only [List.mem_append, List.mem_map]
  exact Or.inl (Or.inl (Or.inr ⟨(child, parent), this, rfl⟩))

theorem mem_build_implements (o : RangeOrder) (result : DependencyAnalysisResult)
    (cls iface : String) (ifaces : List String) (h : (cls, ifaces) ∈ result.InterfaceImpls)
    (hi : iface ∈ ifaces) :
    ({ FromClass := cls, ToClass := iface, DepType := "implements" } : ClassDependency) ∈
      (buildClassDependencies o result).ClassDependencies := by
  rw [buildClassDependencies_deps]
  have : (cls, ifaces) ∈ o.order result.InterfaceImpls := (o.mem_order _ _).mpr h
  simp only [List.mem_append, List.mem_flatMap, List.mem_map]
  exact Or.inl (Or.inr ⟨(cls, ifaces), this, iface, hi, rfl⟩)

theorem mem_build_imports (o : RangeOrder) (result : DependencyAnalysisResult)
    (cls importPath : String) (imports : List String) (d : ClassDependency)
    (h : (cls, imports) ∈ result.ImportStatements) (hi : importPath ∈ imports)
    (hd : d ∈ importDependency cls importPath) :
    d ∈ (buildClassDependencies o result).ClassDependencies := by
  rw [buildClassDependencies_deps]
  have : (cls, imports) ∈ o.order result.ImportStatements := (o.mem_order _ _).mpr h
  simp only [List.mem_append, List.mem_flatMap]
  exact Or.inr ⟨(cls, imports), this, importPath, hi, hd⟩

theorem ParseJavaInheritance_ascii (U : UnicodeTables) (source : String)
    (h : source.toList.all (fun c => decide (c.toNat < 128)) = true) :
    ParseJavaInheritance U source = ParseJavaInheritance asciiTables source := by
  unfold ParseJavaInheritance
  rw [NewJavaASTParser_ascii U source h]



theorem parseImplementsClause_keeps (decl d : ClassDeclaration) (p p1 : JavaASTParser)
    (h : parseImplementsClause decl p = (Except.ok d, p1)) :
    d.Modifiers = decl.Modifiers ∧ d.IsAbstract = decl.IsAbstract := by
  unfold parseImplementsClause at h
  split_ifs at h
  · split at h
    · simp at h
    · simp only [Prod.mk.injEq, Except.ok.injEq] at h
      rw [← h.1]
      exact ⟨rfl, rfl⟩
  · simp only [Prod.mk.injEq, Except.ok.injEq] at h
    rw [← h.1]
    exact ⟨rfl, rfl⟩

theorem parseExtendsClause_keeps (decl d : ClassDeclaration) (p p1 : JavaASTParser)
    (h : parseExtendsClause decl p = (Except.ok d, p1)) :
    d.Modifiers = decl.Modifiers ∧ d.IsAbstract = decl.IsAbstract := by
  unfold parseExtendsClause at h
  split_ifs at h
  · split at h
    · simp at h
    · have := parseImplementsClause_keeps _ d _ p1 h
      exact this
  · exact parseImplementsClause_keeps _ d _ p1 h

/-- The part of the parse after the modifiers leaves `Modifiers` and `IsAbstract` as they
are. -/
theorem parseClassName_keeps (decl d : ClassDeclaration) (p p1 : JavaASTParser)
    (h : parseClassName decl p = (Except.ok d, p1)) :
    d.Modifiers = decl.Modifiers ∧ d.IsAbstract = decl.IsAbstract := by
  unfold parseClassName at h
  split at h
  · simp at h
  · have := parseExtendsClause_keeps _ d _ p1 h
    exact this

theorem atClassKeyword_cons (t : Token) (rest : JavaASTParser) :
    atClassKeyword (t :: rest) = true ↔
      t.tok = JavaToken.TOKEN_KEYWORD ∧ (t.text = "class" ∨ t.text = "interface") := by
  simp [atClassKeyword, currentTok, currentText]

theorem isModifierText_class : isModifierText "class" = false := by decide

theorem isModifierText_interface : isModifierText "interface" = false := by decide

/-- A parse that starts at the `class` or `interface` keyword is the parse of the name
and the clauses, from an empty record. -/
theorem parseClassDeclaration_at_keyword (t : Token) (rest : JavaASTParser)
    (h : atClassKeyword (t :: rest) = true) :
    parseClassDeclaration (t :: rest) =
      parseClassName { IsInterface := decide (t.text = "interface") } rest := by
  rw [atClassKeyword_cons] at h
  obtain ⟨hk, ht⟩ := h
  have hm : isModifierText t.text = false := by
    rcases ht with ht | ht <;> rw [ht] <;> decide
  simp [parseClassDeclaration, parseClassDeclarationLoop, hk, hm, ht]

/-- A declaration parsed from the `class` or `interface` keyword on has no modifiers. -/
theorem parseClassDeclaration_at_keyword_plain (p p1 : JavaASTParser) (d : ClassDeclaration)
    (h : atClassKeyword p = true) (hd : parseClassDeclaration p = (Except.ok d, p1)) :
    d.Modifiers = [] ∧ d.IsAbstract = false := by
  cases p with
  | nil => simp [atClassKeyword, currentTok] at h
  | cons t rest =>
    rw [parseClassDeclaration_at_keyword t rest h] at hd
    exact parseClassName_keeps _ d _ p1 hd

/-- A `class` or `interface` keyword that no identifier follows fails the parse of the
declaration, right after the keyword. -/
theorem parseClassDeclaration_no_name (p : JavaASTParser) (h : atClassKeyword p = true)
    (hn : currentTok (nextToken p) ≠ JavaToken.TOKEN_IDENTIFIER) :
    parseClassDeclaration p =
      (Except.error ("failed to parse class name: " ++
        ("expected identifier, " ++ gotText (nextToken p))), nextToken p) := by
  cases p with
  | nil => simp [atClassKeyword, currentTok] at h
  | cons t rest =>
    rw [parseClassDeclaration_at_keyword t rest h]
    simp only [nextToken, List.tail_cons] at hn ⊢
    simp [parseClassName, parseIdentifier, hn]

theorem skipToNextDeclaration_state (p : JavaASTParser) :
    currentTok (skipToNextDeclaration p) = JavaToken.TOKEN_EOF ∨
      atClassKeyword (skipToNextDeclaration p) = true := by
  induction p with
  | nil => exact Or.inl rfl
  | cons t rest ih =>
    simp only [skipToNextDeclaration]
    split_ifs with h
    · exact ih
    · by_cases he : t.tok = JavaToken.TOKEN_EOF
      · exact Or.inl (by simp [currentTok, he])
      · right
        simp only [ne_eq, he, not_false_eq_true, true_and, Bool.not_eq_true',
          Bool.not_eq_false] at h
        exact h


/-- From a state at the end of the input or at a `class`/`interface` keyword, every
declaration that the scan loop adds has no modifiers. -/
theorem ParseClassDeclarationsLoop_plain (fuel : Nat) :
    ∀ (declarations ds : List ClassDeclaration) (p s : JavaASTParser),
      (currentTok p = JavaToken.TOKEN_EOF ∨ atClassKeyword p = true) →
      ParseClassDeclarationsLoop fuel declarations p = (Except.ok ds, s) →
      ∃ extra, ds = declarations ++ extra ∧
        ∀ d ∈ extra, d.Modifiers = [] ∧ d.IsAbstract = false := by
  induction fuel with
  | zero => intro declarations ds p s _ h; simp [ParseClassDeclarationsLoop] at h
  | succ fuel ih =>
    intro declarations ds p s hp h
    rw [ParseClassDeclarationsLoop] at h
    split_ifs at h with h1 h2 h3
    · simp only [Prod.mk.injEq, Except.ok.injEq] at h
      exact ⟨[], by simp [h.1], by simp⟩
    · split at h
      · simp at h
      · rename_i decl p1 hparse
        obtain ⟨extra, he, hq⟩ := ih _ ds _ s (skipToNextDeclaration_state p1) h
        refine ⟨decl :: extra, by simp [he], ?_⟩
        intro d hd
        rcases List.mem_cons.mp hd with rfl | hd
        · exact parseClassDeclaration_at_keyword_plain p p1 _ h2 hparse
        · exact hq d hd
    · rcases hp with hp | hp
      · exact absurd hp h1
      · exact absurd hp h2
    · rcases hp with hp | hp
      · exact absurd hp h1
      · exact absurd hp h2

/-- Only the first declaration that the scan loop adds can carry modifiers. -/
theorem ParseClassDeclarationsLoop_tail_plain (fuel : Nat) :
    ∀ (declarations ds : List ClassDeclaration) (p s : JavaASTParser),
      ParseClassDeclarationsLoop fuel declarations p = (Except.ok ds, s) →
      ∃ extra, ds = declarations ++ extra ∧
        ∀ d ∈ extra.tail, d.Modifiers = [] ∧ d.IsAbstract = false := by
  induction fuel with
  | zero => intro declarations ds p s h; simp [ParseClassDeclarationsLoop] at h
  | succ fuel ih =>
    intro declarations ds p s h
    rw [ParseClassDeclarationsLoop] at h
    split_ifs at h with h1 h2 h3
    · simp only [Prod.mk.injEq, Except.ok.injEq] at h
      exact ⟨[], by simp [h.1], by simp⟩
    · split at h
      · simp at h
      · rename_i decl p1 hparse
        obtain ⟨extra, he, hq⟩ :=
          ParseClassDeclarationsLoop_plain fuel _ ds _ s (skipToNextDeclaration_state p1) h
        exact ⟨decl :: extra, by simp [he], by simpa using hq⟩
    · split at h
      · exact ih _ ds _ s h
      · rename_i decl p1 hparse
        obtain ⟨extra, he, hq⟩ :=
          ParseClassDeclarationsLoop_plain fuel _ ds _ s (skipToNextDeclaration_state p1) h
        exact ⟨decl :: extra, by simp [he], by simpa using hq⟩
    · exact ih _ ds _ s h

/-- The modifier loop records the modifier keywords in front of the `class` or
`interface` keyword, in their order. -/
theorem parseClassDeclarationLoop_modifiers (mods : List String) :
    ∀ (decl : ClassDeclaration) (kw : String) (rest : JavaASTParser),
      (∀ m ∈ mods, isModifierText m = true) → (kw = "class" ∨ kw = "interface") →
      parseClassDeclarationLoop decl (mods.map tokKeyword ++ tokKeyword kw :: rest) =
        parseClassName
          { decl with
            Modifiers := decl.Modifiers ++ mods
            IsAbstract := decl.IsAbstract || mods.contains "abstract"
            IsInterface := decl.IsInterface || decide (kw = "interface") } rest := by
  induction mods with
  | nil =>
    intro decl kw rest _ hkw
    have hm : isModifierText kw = false := by
      rcases hkw with h | h <;> rw [h] <;> decide
    simp [parseClassDeclarationLoop, tokKeyword, hm, hkw]
  | cons m mods ih =>
    intro decl kw rest hmods hkw
    have hm := hmods m (List.mem_cons_self _ _)
    simp only [List.map_cons, List.cons_append, parseClassDeclarationLoop, tokKeyword, hm,
      ↓reduceIte]
    have := ih { decl with
                 Modifiers := decl.Modifiers ++ [m]
                 IsAbstract := decl.IsAbstract || decide (m = "abstract") } kw rest
      (fun x hx => hmods x (List.mem_cons_of_mem _ hx)) hkw
    simp only [tokKeyword] at this
    refine Eq.trans this ?_
    congr 1
    simp only [List.append_assoc, List.singleton_append, List.contains_cons, Bool.or_assoc]
    congr 2
    by_cases hma : m = "abstract"
    · subst hma; simp
    · have : ("abstract" == m) = false := by
        simp only [beq_eq_false_iff_ne, ne_eq]
        exact fun h => hma h.symm
      simp [hma, this]



theorem GoMap.mem_set_self {V : Type} (m : GoMap V) (k : String) (v : V) :
    (k, v) ∈ m.set k v := by
  induction m with
  | nil => simp [GoMap.set]
  | cons e r ih =>
    simp only [GoMap.set]
    split_ifs
    · exact List.mem_cons_self _ _
    · exact List.mem_cons_of_mem _ ih

theorem GoMap.mem_set_of_ne {V : Type} (m : GoMap V) (k k2 : String) (v v2 : V)
    (h : (k, v) ∈ m) (hne : k2 ≠ k) : (k, v) ∈ m.set k2 v2 := by
  induction m with
  | nil => cases h
  | cons e r ih =>
    simp only [GoMap.set]
    rcases List.mem_cons.mp h with rfl | h
    · rw [if_neg (fun h2 => hne h2.symm)]
      exact List.mem_cons_self _ _
    · split_ifs
      · exact List.mem_cons_of_mem _ h
      · exact List.mem_cons_of_mem _ (ih h)

theorem analyzeClasses_append (U : UnicodeTables) (o : RangeOrder)
    (l1 l2 : List (String × Option DecompiledClass)) (result : DependencyAnalysisResult) :
    analyzeClasses U o (l1 ++ l2) result = analyzeClasses U o l2 (analyzeClasses U o l1 result) := by
  simp [analyzeClasses, List.foldl_append]

theorem analyzeClasses_cons (U : UnicodeTables) (o : RangeOrder)
    (x : String × Option DecompiledClass) (l : List (String × Option DecompiledClass))
    (result : DependencyAnalysisResult) :
    analyzeClasses U o (x :: l) result = analyzeClasses U o l (analyzeClass U o result x) := rfl

/-- The inheritance map after the loop depends on the inheritance map before it only. -/
theorem analyzeClasses_inheritanceTree_congr (U : UnicodeTables) (o : RangeOrder)
    (l : List (String × Option DecompiledClass)) :
    ∀ r1 r2 : DependencyAnalysisResult, r1.InheritanceTree = r2.InheritanceTree →
      (analyzeClasses U o l r1).InheritanceTree = (analyzeClasses U o l r2).InheritanceTree := by
  induction l with
  | nil => intro r1 r2 h; exact h
  | cons x l ih =>
    intro r1 r2 h
    rw [analyzeClasses_cons, analyzeClasses_cons]
    apply ih
    obtain ⟨k, c⟩ := x
    cases c with
    | none => exact h
    | some c => rw [analyzeClass_inheritanceTree, analyzeClass_inheritanceTree, h]

/-- The interface map after the loop depends on the interface map before it only. -/
theorem analyzeClasses_interfaceImpls_congr (U : UnicodeTables) (o : RangeOrder)
    (l : List (String × Option DecompiledClass)) :
    ∀ r1 r2 : DependencyAnalysisResult, r1.InterfaceImpls = r2.InterfaceImpls →
      (analyzeClasses U o l r1).InterfaceImpls = (analyzeClasses U o l r2).InterfaceImpls := by
  induction l with
  | nil => intro r1 r2 h; exact h
  | cons x l ih =>
    intro r1 r2 h
    rw [analyzeClasses_cons, analyzeClasses_cons]
    apply ih
    obtain ⟨k, c⟩ := x
    cases c with
    | none => exact h
    | some c => rw [analyzeClass_interfaceImpls, analyzeClass_interfaceImpls, h]

/-- The loop only adds edges. -/
theorem analyzeClasses_deps_mono (U : UnicodeTables) (o : RangeOrder)
    (l : List (String × Option DecompiledClass)) :
    ∀ (r : DependencyAnalysisResult) (d : ClassDependency), d ∈ r.ClassDependencies →
      d ∈ (analyzeClasses U o l r).ClassDependencies := by
  induction l with
  | nil => intro r d h; exact h
  | cons x l ih =>
    intro r d h
    rw [analyzeClasses_cons]
    apply ih
    obtain ⟨k, c⟩ := x
    cases c with
    | none => exact h
    | some c =>
      rw [analyzeClass_deps]
      exact List.mem_append_left _ h

/-- An entry of the import map stays when the later entries of the loop have other keys. -/
theorem analyzeClasses_imports_keep (U : UnicodeTables) (o : RangeOrder)
    (l : List (String × Option DecompiledClass)) (key : String) (imports : List String) :
    ∀ r : DependencyAnalysisResult, (∀ x ∈ l, x.1 ≠ key) → (key, imports) ∈ r.ImportStatements →
      (key, imports) ∈ (analyzeClasses U o l r).ImportStatements := by
  induction l with
  | nil => intro r _ h; exact h
  | cons x l ih =>
    intro r hk h
    rw [analyzeClasses_cons]
    apply ih _ (fun y hy => hk y (List.mem_cons_of_mem _ hy))
    have hx := hk x (List.mem_cons_self _ _)
    obtain ⟨k, c⟩ := x
    cases c with
    | none => exact h
    | some c =>
      rw [analyzeClass_importStatements]
      exact GoMap.mem_set_of_ne _ _ _ _ _ h hx



theorem stringsIndex_first (T rest : List Char) (c : Char) (h : c ∉ T) :
    stringsIndex [c] (T ++ c :: rest) = some T.length := by
  induction T with
  | nil => simp [stringsIndex, List.isPrefixOf]
  | cons a t ih =>
    have ha : a ≠ c := fun hac => h (hac ▸ List.mem_cons_self _ _)
    have ht : c ∉ t := fun hc => h (List.mem_cons_of_mem _ hc)
    have hp : List.isPrefixOf [c] (a :: (t ++ c :: rest)) = false := by
      simp [List.isPrefixOf, Ne.symm ha]
    show stringsIndex [c] (a :: (t ++ c :: rest)) = _
    rw [stringsIndex, hp, ih ht]
    simp

/-- The base type of `T<args>` is `T`, when `T` holds no `<` and does not end in `[]`. -/
theorem fieldBaseType_generic (T args : String) (hlt : '<' ∉ T.toList)
    (harr : List.isSuffixOf "[]".toList T.toList = false) :
    fieldBaseType (T ++ "<" ++ args) = T := by
  unfold fieldBaseType
  have h1 : (T ++ "<" ++ args).toList = T.toList ++ '<' :: args.toList := by
    simp [String.toList]
  have h2 : "<".toList = ['<'] := rfl
  rw [h1, h2, stringsIndex_first T.toList args.toList '<' hlt]
  simp only [List.take_left']
  unfold stringsTrimSuffix
  rw [harr]
  simp [String.toList]

theorem filter_usesField_map_extends (l : List (String × String)) :
    (l.map (fun e => ({ FromClass := e.1, ToClass := e.2, DepType := "extends" } :
      ClassDependency))).filter (fun d => decide (d.DepType = "uses_field")) = [] := by
  rw [List.filter_eq_nil_iff]
  intro d hd
  obtain ⟨e, _, rfl⟩ := List.mem_map.mp hd
  simp only [decide_eq_true_eq]
  decide

theorem filter_usesField_implements (l : List (String × List String)) :
    (l.flatMap (fun e => e.2.map (fun iface =>
      ({ FromClass := e.1, ToClass := iface, DepType := "implements" } : ClassDependency)))).filter
        (fun d => decide (d.DepType = "uses_field")) = [] := by
  rw [List.filter_eq_nil_iff]
  intro d hd
  obtain ⟨e, _, hd2⟩ := List.mem_flatMap.mp hd
  obtain ⟨i, _, rfl⟩ := List.mem_map.mp hd2
  simp only [decide_eq_true_eq]
  decide

theorem importDependency_depType (cls importPath : String) (d : ClassDependency)
    (h : d ∈ importDependency cls importPath) : d.DepType = "imports" := by
  unfold importDependency at h
  split at h
  · simp at h
  · split_ifs at h
    · simp only [List.mem_singleton] at h
      rw [h]
    · simp at h

theorem filter_usesField_imports (l : List (String × List String)) :
    (l.flatMap (fun e => e.2.flatMap (fun importPath => importDependency e.1 importPath))).filter
        (fun d => decide (d.DepType = "uses_field")) = [] := by
  rw [List.filter_eq_nil_iff]
  intro d hd
  obtain ⟨e, _, hd2⟩ := List.mem_flatMap.mp hd
  obtain ⟨i, _, hd3⟩ := List.mem_flatMap.mp hd2
  rw [importDependency_depType _ _ _ hd3]
  decide

/-- The `uses_field` edges of the result for a map of one unit are the field edges of
the unit. -/
theorem analyze_single_usesField (U : UnicodeTables) (o : RangeOrder) (key : String)
    (classInfo : DecompiledClass) :
    ∃ r, AnalyzeDependencies U o (some [(key, some classInfo)]) = Except.ok r ∧
      r.ClassDependencies.filter (fun d => decide (d.DepType = "uses_field")) =
        (classInfo.Fields.flatMap (fieldDependency classInfo)).filter
          (fun d => decide (d.DepType = "uses_field")) := by
  refine ⟨buildClassDependencies o (analyzeClass U o {} (key, some classInfo)), ?_, ?_⟩
  · simp [AnalyzeDependencies, analyzeClasses, o.order_singleton]
  · rw [buildClassDependencies_deps, analyzeClass_deps]
    simp only [List.filter_append, filter_usesField_map_extends, filter_usesField_implements,
      filter_usesField_imports, List.append_nil]
    rfl



theorem parseIdentifierLoop_length (n : Nat) :
    ∀ (p : JavaASTParser) (identifier : String), p.length ≤ n →
      (parseIdentifierLoop identifier p).2.length ≤ p.length := by
  induction n using Nat.strong_induction_on with
  | _ n ih =>
    intro p identifier hn
    match p with
    | [] => simp [parseIdentifierLoop]
    | [t] =>
      unfold parseIdentifierLoop
      split_ifs <;> simp
    | t :: u :: rest =>
      unfold parseIdentifierLoop
      by_cases h1 : t.tok = JavaToken.TOKEN_OPERATOR ∧ t.text = "."
      · rw [if_pos h1]
        by_cases h2 : u.tok = JavaToken.TOKEN_IDENTIFIER
        · simp only [ne_eq, h2, not_true_eq_false, ↓reduceIte]
          have := ih rest.length (by simp only [List.length_cons] at hn; omega) rest
            (identifier ++ "." ++ u.text) (le_refl _)
          simp only [List.length_cons]
          omega
        · simp [h2]
      · rw [if_neg h1]

theorem parseIdentifier_length (p : JavaASTParser) :
    (parseIdentifier p).2.length ≤ p.length := by
  unfold parseIdentifier
  split_ifs
  · exact le_refl _
  · have := parseIdentifierLoop_length _ (nextToken p) (currentText p) (le_refl _)
    have h2 : (nextToken p).length ≤ p.length := by simp [nextToken]
    omega

/-- A successful `parseIdentifier` consumes a token. -/
theorem parseIdentifier_ok_length (p p1 : JavaASTParser) (name : String)
    (h : parseIdentifier p = (Except.ok name, p1)) : p1.length < p.length := by
  unfold parseIdentifier at h
  split_ifs at h with h1
  · simp at h
  · have := parseIdentifierLoop_length _ (nextToken p) (currentText p) (le_refl _)
    rw [h] at this
    cases p with
    | nil => simp [currentTok] at h1
    | cons t rest =>
      simp only [nextToken, List.tail_cons, List.length_cons] at this ⊢
      omega

theorem parseTypeParametersLoop_length (p : JavaASTParser) :
    ∀ depth : Nat, (parseTypeParametersLoop depth p).length ≤ p.length := by
  induction p with
  | nil => intro depth; cases depth <;> simp [parseTypeParametersLoop]
  | cons t rest ih =>
    intro depth
    cases depth with
    | zero => simp [parseTypeParametersLoop]
    | succ d =>
      simp only [parseTypeParametersLoop]
      split_ifs
      · simp
      · have := ih (d + 2); simp only [List.length_cons]; omega
      · have := ih d; simp only [List.length_cons]; omega
      · have := ih (d + 1); simp only [List.length_cons]; omega

theorem parseTypeParameters_length (p : JavaASTParser) :
    (parseTypeParameters p).length ≤ p.length := by
  unfold parseTypeParameters
  split_ifs
  · have := parseTypeParametersLoop_length (nextToken p) 1
    have h2 : (nextToken p).length ≤ p.length := by simp [nextToken]
    omega
  · exact le_refl _

theorem parseInterfaceListLoop_length (fuel : Nat) :
    ∀ (interfaces : List String) (p : JavaASTParser),
      (parseInterfaceListLoop fuel interfaces p).2.length ≤ p.length := by
  induction fuel with
  | zero => intro interfaces p; simp [parseInterfaceListLoop]
  | succ fuel ih =>
    intro interfaces p
    rw [parseInterfaceListLoop]
    have h1 := parseIdentifier_length p
    split
    · rename_i e p1 heq
      rw [heq] at h1
      exact h1
    · rename_i name p1 heq
      rw [heq] at h1
      have h2 := parseTypeParameters_length p1
      split_ifs
      · have h3 := ih (interfaces ++ [name]) (nextToken (parseTypeParameters p1))
        have h4 : (nextToken (parseTypeParameters p1)).length ≤ (parseTypeParameters p1).length := by
          simp [nextToken]
        simp only at h1
        omega
      · simp only at h1 ⊢
        omega

/-- The loop of `parseInterfaceList` never runs out of fuel: above the number of tokens
left, the fuel does not change the result. -/
theorem parseInterfaceListLoop_fuel (n : Nat) :
    ∀ (m : Nat) (interfaces : List String) (p : JavaASTParser), p.length < n → p.length < m →
      parseInterfaceListLoop n interfaces p = parseInterfaceListLoop m interfaces p := by
  induction n with
  | zero => intro m interfaces p h; omega
  | succ n ih =>
    intro m interfaces p hn hm
    cases m with
    | zero => omega
    | succ m =>
      rw [parseInterfaceListLoop, parseInterfaceListLoop]
      split
      · rfl
      · rename_i name p1 heq
        have h1 := parseIdentifier_ok_length p p1 name heq
        have h2 := parseTypeParameters_length p1
        have h4 : (nextToken (parseTypeParameters p1)).length ≤ (parseTypeParameters p1).length := by
          simp [nextToken]
        split_ifs
        · exact ih m _ _ (by omega) (by omega)
        · rfl

theorem parseInterfaceList_length (p : JavaASTParser) :
    (parseInterfaceList p).2.length ≤ p.length :=
  parseInterfaceListLoop_length _ _ _

theorem parseImplementsClause_length (decl : ClassDeclaration) (p : JavaASTParser) :
    (parseImplementsClause decl p).2.length ≤ p.length := by
  unfold parseImplementsClause
  split_ifs
  · have h1 := parseInterfaceList_length (nextToken p)
    have h2 : (nextToken p).length ≤ p.length := by simp [nextToken]
    split <;> rename_i heq <;> rw [heq] at h1 <;> simp only at h1 ⊢ <;> omega
  · exact le_refl _

theorem parseExtendsClause_length (decl : ClassDeclaration) (p : JavaASTParser) :
    (parseExtendsClause decl p).2.length ≤ p.length := by
  unfold parseExtendsClause
  split_ifs
  · have h1 := parseIdentifier_length (nextToken p)
    have h2 : (nextToken p).length ≤ p.length := by simp [nextToken]
    split
    · rename_i heq; rw [heq] at h1; simp only at h1 ⊢; omega
    · rename_i name p1 heq
      rw [heq] at h1
      have h3 := parseImplementsClause_length { decl with ParentClass := name }
        (parseTypeParameters p1)
      have h4 := parseTypeParameters_length p1
      simp only at h1
      omega
  · exact parseImplementsClause_length decl p

theorem parseClassName_length (decl : ClassDeclaration) (p : JavaASTParser) :
    (parseClassName decl p).2.length ≤ p.length := by
  unfold parseClassName
  have h1 := parseIdentifier_length p
  split
  · rename_i heq; rw [heq] at h1; exact h1
  · rename_i name p1 heq
    rw [heq] at h1
    have h3 := parseExtendsClause_length { decl with Name := name } (parseTypeParameters p1)
    have h4 := parseTypeParameters_length p1
    simp only at h1
    omega

theorem parseClassDeclarationLoop_length (p : JavaASTParser) :
    ∀ decl : ClassDeclaration, (parseClassDeclarationLoop decl p).2.length ≤ p.length := by
  induction p with
  | nil => intro decl; exact parseClassName_length decl []
  | cons t rest ih =>
    intro decl
    simp only [parseClassDeclarationLoop]
    split_ifs
    · have := ih { decl with
                   Modifiers := decl.Modifiers ++ [t.text]
                   IsAbstract := decl.IsAbstract || decide (t.text = "abstract") }
      simp only [List.length_cons]; omega
    · have := parseClassName_length
        { decl with IsInterface := decl.IsInterface || decide (t.text = "interface") } rest
      simp only [List.length_cons]; omega
    · exact le_refl _
    · exact parseClassName_length decl (t :: rest)

/-- A parse that starts at a modifier keyword or at `class`/`interface` consumes a
token. -/
theorem parseClassDeclaration_length_lt (p : JavaASTParser)
    (h : atClassKeyword p = true ∨
      (currentTok p = JavaToken.TOKEN_KEYWORD ∧ isModifierText (currentText p) = true)) :
    (parseClassDeclaration p).2.length < p.length := by
  cases p with
  | nil =>
    rcases h with h | h
    · simp [atClassKeyword, currentTok] at h
    · simp [currentTok] at h
  | cons t rest =>
    unfold parseClassDeclaration
    simp only [parseClassDeclarationLoop]
    rcases h with h | h
    · rw [atClassKeyword_cons] at h
      have hm : isModifierText t.text = false := by
        rcases h.2 with ht | ht <;> rw [ht] <;> decide
      rw [if_pos h.1, hm]
      simp only [Bool.false_eq_true, ↓reduceIte, if_pos h.2]
      have := parseClassName_length
        { IsInterface := (false || decide (t.text = "interface")) } rest
      simp only [List.length_cons]
      exact Nat.lt_succ_of_le this
    · simp only [currentTok, currentText] at h
      rw [if_pos h.1, if_pos h.2]
      have := parseClassDeclarationLoop_length rest
        { Modifiers := [] ++ [t.text], IsAbstract := (false || decide (t.text = "abstract")) }
      simp only [List.length_cons]
      exact Nat.lt_succ_of_le this

theorem skipToNextDeclaration_length (p : JavaASTParser) :
    (skipToNextDeclaration p).length ≤ p.length := by
  induction p with
  | nil => simp [skipToNextDeclaration]
  | cons t rest ih =>
    simp only [skipToNextDeclaration]
    split_ifs
    · simp only [List.length_cons]; omega
    · exact le_refl _

/-- The scan loop of `ParseClassDeclarations` never runs out of fuel: above the number of
tokens left, the fuel does not change the result. -/
theorem ParseClassDeclarationsLoop_fuel (n : Nat) :
    ∀ (m : Nat) (declarations : List ClassDeclaration) (p : JavaASTParser),
      p.length < n → p.length < m →
      ParseClassDeclarationsLoop n declarations p = ParseClassDeclarationsLoop m declarations p := by
  induction n with
  | zero => intro m declarations p h; omega
  | succ n ih =>
    intro m declarations p hn hm
    cases m with
    | zero => omega
    | succ m =>
      rw [ParseClassDeclarationsLoop, ParseClassDeclarationsLoop]
      have hnext : (nextToken p).length ≤ p.length - 1 := by
        cases p <;> simp [nextToken]
      split_ifs with h1 h2 h3
      · rfl
      · have hlt := parseClassDeclaration_length_lt p (Or.inl h2)
        split
        · rfl
        · rename_i decl p1 heq
          rw [heq] at hlt
          have := skipToNextDeclaration_length p1
          exact ih m _ _ (by simp only at hlt; omega) (by simp only at hlt; omega)
      · have hlt := parseClassDeclaration_length_lt p (Or.inr h3)
        split
        · rename_i e p1 heq
          rw [heq] at hlt
          have : (nextToken p1).length ≤ p1.length := by simp [nextToken]
          exact ih m _ _ (by simp only at hlt; omega) (by simp only at hlt; omega)
        · rename_i decl p1 heq
          rw [heq] at hlt
          have := skipToNextDeclaration_length p1
          exact ih m _ _ (by simp only at hlt; omega) (by simp only at hlt; omega)
      · have hp : 0 < p.length := by
          cases p with
          | nil => simp [currentTok] at h1
          | cons t r => simp
        exact ih m _ _ (by omega) (by omega)



theorem Regex.starLoop_none {R : Type}
    (m : List Char → Captures → (List Char → Captures → Option R) → Option R)
    (hm : ∀ s caps, m s caps (fun _ _ => none) = none) (fuel : Nat) :
    ∀ (s : List Char) (caps : Captures), Regex.starLoop m fuel s caps (fun _ _ => none) = none := by
  induction fuel with
  | zero => intro s caps; rfl
  | succ fuel ih =>
    intro s caps
    rw [Regex.starLoop]
    have : (fun s1 c1 => if s1.length < s.length
        then Regex.starLoop m fuel s1 c1 (fun _ _ => (none : Option R)) else none) =
        (fun _ _ => none) := by
      funext s1 c1
      split_ifs
      · exact ih s1 c1
      · rfl
    rw [this, hm]

/-- A match comes from the continuation only: with a continuation that always fails,
the expression fails. -/
theorem Regex.run_none {R : Type} (re : Regex) :
    ∀ (s : List Char) (caps : Captures),
      Regex.run re s caps (fun _ _ => (none : Option R)) = none := by
  induction re with
  | empty => intro s caps; rfl
  | char c =>
    intro s caps
    cases s with
    | nil => rfl
    | cons d r => simp [Regex.run]
  | cls p =>
    intro s caps
    cases s with
    | nil => rfl
    | cons d r => simp [Regex.run]
  | seq a b iha ihb =>
    intro s caps
    simp only [Regex.run]
    have : (fun s1 c1 => Regex.run b s1 c1 (fun _ _ => (none : Option R))) =
        (fun _ _ => none) := by
      funext s1 c1
      exact ihb s1 c1
    rw [this, iha]
  | star a iha =>
    intro s caps
    simp only [Regex.run]
    exact Regex.starLoop_none _ iha _ s caps
  | opt a iha =>
    intro s caps
    simp only [Regex.run]
    rw [iha]
  | alt a b iha ihb =>
    intro s caps
    simp only [Regex.run]
    rw [iha, ihb]
  | group i a iha =>
    intro s caps
    simp only [Regex.run]
    exact iha s caps

/-- The iterations of a star never run out of fuel: from the length of the text on, the
fuel does not change the result. -/
theorem Regex.starLoop_fuel {R : Type}
    (m : List Char → Captures → (List Char → Captures → Option R) → Option R)
    (hm : ∀ s caps, m s caps (fun _ _ => none) = none) (n : Nat) :
    ∀ (n2 : Nat) (s : List Char) (caps : Captures) (k : List Char → Captures → Option R),
      s.length ≤ n → s.length ≤ n2 →
      Regex.starLoop m n s caps k = Regex.starLoop m n2 s caps k := by
  induction n with
  | zero =>
    intro n2 s caps k hn _
    have hs : s = [] := List.length_eq_zero.mp (Nat.le_zero.mp hn)
    subst hs
    cases n2 with
    | zero => rfl
    | succ n2 =>
      simp only [Regex.starLoop, List.length_nil, Nat.not_lt_zero, ↓reduceIte]
      rw [hm]
  | succ n ih =>
    intro n2 s caps k hn hn2
    cases n2 with
    | zero =>
      have hs : s = [] := List.length_eq_zero.mp (Nat.le_zero.mp hn2)
      subst hs
      simp only [Regex.starLoop, List.length_nil, Nat.not_lt_zero, ↓reduceIte]
      rw [hm]
    | succ n2 =>
      rw [Regex.starLoop, Regex.starLoop]
      have : (fun s1 c1 => if s1.length < s.length then Regex.starLoop m n s1 c1 k else none) =
          (fun s1 c1 => if s1.length < s.length then Regex.starLoop m n2 s1 c1 k else none) := by
        funext s1 c1
        split_ifs with h
        · exact ih n2 s1 c1 k (by omega) (by omega)
        · rfl
      rw [this]

theorem findAllLoop_succ (re : Regex) (fuel : Nat) (afterMatch : Bool) (s : List Char) :
    findAllLoop re (fuel + 1) afterMatch s =
      match Regex.exec re s with
      | none =>
        match s with
        | [] => []
        | _ :: t => findAllLoop re fuel false t
      | some (rest, caps) =>
        if rest.length < s.length then
          (String.mk (s.take (s.length - rest.length)), caps) :: findAllLoop re fuel true rest
        else
          (if afterMatch then [] else [("", caps)]) ++
            (match s with
             | [] => []
             | _ :: t => findAllLoop re fuel false t) := rfl

/-- The loop of `FindAllStringSubmatch` never runs out of fuel: above the length of the
text, the fuel does not change the result. -/
theorem findAllLoop_fuel (re : Regex) (n : Nat) :
    ∀ (n2 : Nat) (afterMatch : Bool) (s : List Char), s.length < n → s.length < n2 →
      findAllLoop re n afterMatch s = findAllLoop re n2 afterMatch s := by
  induction n with
  | zero => intro n2 afterMatch s h; omega
  | succ n ih =>
    intro n2 afterMatch s hn hn2
    cases n2 with
    | zero => omega
    | succ n2 =>
      rw [findAllLoop_succ, findAllLoop_succ]
      split
      · cases s with
        | nil => rfl
        | cons c t =>
          simp only
          exact ih n2 false t (by simp only [List.length_cons] at hn; omega)
            (by simp only [List.length_cons] at hn2; omega)
      · rename_i rest caps heq
        cases s with
        | nil => simp
        | cons c t =>
          simp only
          by_cases h : rest.length < (c :: t).length
          · rw [if_pos h, if_pos h, ih n2 true rest (by omega) (by omega)]
          · rw [if_neg h, if_neg h,
              ih n2 false t (by simp only [List.length_cons] at hn; omega)
                (by simp only [List.length_cons] at hn2; omega)]


theorem endToEnd_inheritance :
    ParseJavaInheritance asciiTables endToEndSource =
      Except.ok ([("TestClass", "BaseClass")], [("TestClass", ["Runnable"])]) := by
  decide

theorem endToEnd_calls :
    (FindAllStringSubmatch methodCallRegex endToEndSource).map
        (fun m => (submatch m.2 1, submatch m.2 2)) = [("items", "add")] := by
  decide

theorem splitDotAux_ne_nil (cs : List Char) : ∀ cur : List Char, splitDotAux cur cs ≠ [] := by
  induction cs with
  | nil => intro cur; simp [splitDotAux]
  | cons c t ih =>
    intro cur
    simp only [splitDotAux]
    split_ifs
    · simp
    · exact ih _

theorem takeWhile_append_of_exists_neg {α : Type} (p : α → Bool) (l1 l2 : List α)
    (h : ∃ x ∈ l1, p x = false) : (l1 ++ l2).takeWhile p = l1.takeWhile p := by
  induction l1 with
  | nil => obtain ⟨x, hx, _⟩ := h; cases hx
  | cons a t ih =>
    obtain ⟨x, hx, hpx⟩ := h
    by_cases hpa : p a = true
    · simp only [List.cons_append, List.takeWhile_cons, hpa, ↓reduceIte]
      rcases List.mem_cons.mp hx with rfl | hx
      · rw [hpa] at hpx; cases hpx
      · rw [ih ⟨x, hx, hpx⟩]
    · simp [List.takeWhile_cons, hpa]

theorem getLast?_cons_of_ne_nil {α : Type} (a : α) (l : List α) (h : l ≠ []) :
    (a :: l).getLast? = l.getLast? := by
  cases l with
  | nil => exact absurd rfl h
  | cons b t => exact List.getLast?_cons_cons

theorem reverse_takeWhile_snoc (cs : List Char) (c : Char) :
    ((cs.reverse ++ [c]).takeWhile (fun x => x != '.')).reverse =
      if '.' ∈ cs then (cs.reverse.takeWhile (fun x => x != '.')).reverse
      else if c = '.' then cs else c :: cs := by
  split_ifs with h hc
  · rw [takeWhile_append_of_exists_neg _ _ _ ⟨'.', List.mem_reverse.mpr h, by simp⟩]
  · have hall : ∀ x ∈ cs.reverse, (x != '.') = true := by
      intro x hx
      simp only [bne_iff_ne, ne_eq]
      rintro rfl
      exact h (List.mem_reverse.mp hx)
    rw [List.takeWhile_append_of_pos hall]
    simp [hc]
  · have hall : ∀ x ∈ cs.reverse, (x != '.') = true := by
      intro x hx
      simp only [bne_iff_ne, ne_eq]
      rintro rfl
      exact h (List.mem_reverse.mp hx)
    rw [List.takeWhile_append_of_pos hall]
    simp [hc]

theorem splitDotAux_getLast (cs : List Char) :
    ∀ cur : List Char, (splitDotAux cur cs).getLast? =
      some (if '.' ∈ cs then (cs.reverse.takeWhile (fun c => c != '.')).reverse
            else cur ++ cs) := by
  induction cs with
  | nil => intro cur; simp [splitDotAux]
  | cons c t ih =>
    intro cur
    simp only [splitDotAux]
    by_cases hc : c = '.'
    · subst hc
      simp only [↓reduceIte, List.mem_cons, true_or, List.reverse_cons]
      rw [getLast?_cons_of_ne_nil _ _ (splitDotAux_ne_nil t []), ih [],
        reverse_takeWhile_snoc]
      simp
    · rw [if_neg hc, ih]
      have hm : ('.' ∈ c :: t) ↔ ('.' ∈ t) := by
        simp [List.mem_cons, Ne.symm hc]
      simp only [List.reverse_cons, reverse_takeWhile_snoc, hc, ↓reduceIte]
      by_cases h : '.' ∈ t
      · simp [h]
      · simp [h, hm]

/-- The last part of `strings.Split(path, ".")` is the last segment of the path. -/
theorem splitDot_getLast (path : String) : (splitDot path).getLast? = some (lastSegment path) := by
  unfold splitDot lastSegment
  rw [List.getLast?_map, splitDotAux_getLast]
  simp only [List.nil_append, Option.map_some']
  split_ifs with h
  · rfl
  · have hall : ∀ x ∈ path.toList.reverse, (x != '.') = true := by
      intro x hx
      simp only [bne_iff_ne, ne_eq]
      rintro rfl
      exact h (List.mem_reverse.mp hx)
    rw [List.takeWhile_eq_self_iff.mpr hall]
    simp

/-- The edges of one import path: one edge to the last segment, none for a wildcard. -/
theorem importDependency_eq (cls importPath : String) :
    importDependency cls importPath =
      if lastSegment importPath ≠ "*" then
        [{ FromClass := cls, ToClass := lastSegment importPath, DepType := "imports" }]
      else [] := by
  unfold importDependency
  rw [splitDot_getLast]


theorem filter_hasDepType_eq_nil (kind : String) (l : List ClassDependency)
    (h : ∀ d ∈ l, d.DepType ≠ kind) : l.filter (hasDepType kind) = [] := by
  rw [List.filter_eq_nil_iff]
  intro d hd
  simp [hasDepType, h d hd]

theorem filter_hasDepType_eq_self (kind : String) (l : List ClassDependency)
    (h : ∀ d ∈ l, d.DepType = kind) : l.filter (hasDepType kind) = l := by
  rw [List.filter_eq_self]
  intro d hd
  simp [hasDepType, h d hd]

theorem fieldDependency_depType (classInfo : DecompiledClass) (field : DecompiledField)
    (d : ClassDependency) (h : d ∈ fieldDependency classInfo field) :
    d.DepType = "uses_field" := by
  unfold fieldDependency at h
  split_ifs at h
  · simp only [List.mem_singleton] at h
    rw [h]
  · simp at h

theorem flatMap_importDependency (cls : String) (l : List String) :
    l.flatMap (fun importPath => importDependency cls importPath) =
      (l.filter (fun p => decide (lastSegment p ≠ "*"))).map (fun p =>
        { FromClass := cls, ToClass := lastSegment p, DepType := "imports" }) := by
  induction l with
  | nil => rfl
  | cons p t ih =>
    rw [List.flatMap_cons, ih, importDependency_eq, List.filter_cons]
    by_cases hp : lastSegment p = "*"
    · simp [hp]
    · simp [hp]

/-- The `imports` edges that `buildClassDependencies` adds: for every entry of the import
map, one edge per path whose last segment is not `*`. -/
theorem buildClassDependencies_imports (o : RangeOrder) (result : DependencyAnalysisResult) :
    (buildClassDependencies o result).ClassDependencies.filter (hasDepType "imports") =
      result.ClassDependencies.filter (hasDepType "imports") ++
      (o.order result.ImportStatements).flatMap (fun e =>
        (e.2.filter (fun p => decide (lastSegment p ≠ "*"))).map (fun p =>
          { FromClass := e.1, ToClass := lastSegment p, DepType := "imports" })) := by
  rw [buildClassDependencies_deps]
  simp only [List.filter_append]
  have h1 : ((o.order result.InheritanceTree).map (fun e =>
      ({ FromClass := e.1, ToClass := e.2, DepType := "extends" } : ClassDependency))).filter
        (hasDepType "imports") = [] := by
    apply filter_hasDepType_eq_nil
    intro d hd
    obtain ⟨e, _, rfl⟩ := List.mem_map.mp hd
    show ("extends" : String) ≠ "imports"
    decide
  have h2 : ((o.order result.InterfaceImpls).flatMap (fun e => e.2.map (fun iface =>
      ({ FromClass := e.1, ToClass := iface, DepType := "implements" } : ClassDependency)))).filter
        (hasDepType "imports") = [] := by
    apply filter_hasDepType_eq_nil
    intro d hd
    obtain ⟨e, _, hd2⟩ := List.mem_flatMap.mp hd
    obtain ⟨i, _, rfl⟩ := List.mem_map.mp hd2
    show ("implements" : String) ≠ "imports"
    decide
  have h3 : ((o.order result.ImportStatements).flatMap (fun e =>
      e.2.flatMap (fun importPath => importDependency e.1 importPath))).filter
        (hasDepType "imports") =
      (o.order result.ImportStatements).flatMap (fun e =>
        e.2.flatMap (fun importPath => importDependency e.1 importPath)) := by
    apply filter_hasDepType_eq_self
    intro d hd
    obtain ⟨e, _, hd2⟩ := List.mem_flatMap.mp hd
    obtain ⟨i, _, hd3⟩ := List.mem_flatMap.mp hd2
    exact importDependency_depType _ _ _ hd3
  rw [h1, h2, h3, List.append_nil, List.append_nil]
  congr 1
  congr 1
  funext e
  exact flatMap_importDependency e.1 e.2

theorem GoMap.get?_set {V : Type} (m : GoMap V) (k k2 : String) (v : V) :
    (m.set k v).get? k2 = if k2 = k then some v else m.get? k2 := by
  induction m with
  | nil =>
    simp only [GoMap.set, GoMap.get?]
    split_ifs with h1 h2 h2
    · rfl
    · exact absurd h1.symm h2
    · exact absurd h2.symm h1
    · rfl
  | cons e r ih =>
    simp only [GoMap.set]
    by_cases he : e.1 = k
    · rw [if_pos he]
      simp only [GoMap.get?]
      by_cases h2 : k2 = k
      · simp [h2]
      · have : ¬ e.1 = k2 := fun h => h2 (h.symm.trans he)
        have h3 : ¬ k = k2 := fun h => h2 h.symm
        simp [h2, this, h3]
    · rw [if_neg he]
      simp only [GoMap.get?]
      by_cases h3 : e.1 = k2
      · have : ¬ k2 = k := fun h => he (h3.trans h)
        simp [h3, this]
      · simp [h3, ih]

theorem GoMap.keys_set {V : Type} (m : GoMap V) (k : String) (v : V) :
    (m.set k v).map Prod.fst =
      if k ∈ m.map Prod.fst then m.map Prod.fst else m.map Prod.fst ++ [k] := by
  induction m with
  | nil => simp [GoMap.set]
  | cons e r ih =>
    simp only [GoMap.set]
    by_cases he : e.1 = k
    · simp [he]
    · rw [if_neg he]
      simp only [List.map_cons, ih, List.mem_cons]
      have : ¬ k = e.1 := fun h => he h.symm
      by_cases hk : k ∈ r.map Prod.fst
      · simp [hk]
      · simp [hk, this]

theorem GoMap.get?_eq_none_iff {V : Type} (m : GoMap V) (k : String) :
    m.get? k = none ↔ k ∉ m.map Prod.fst := by
  induction m with
  | nil => simp [GoMap.get?]
  | cons e r ih =>
    simp only [GoMap.get?, List.map_cons, List.mem_cons]
    by_cases he : e.1 = k
    · simp [he]
    · have : ¬ k = e.1 := fun h => he h.symm
      simp [he, ih, this]

theorem GoMap.sum_lengths_set (m : GoMap (List String)) (k : String) (v : List String) :
    ((m.set k v).map (fun e => e.2.length)).sum + (m.lookup k).length =
      (m.map (fun e => e.2.length)).sum + v.length := by
  induction m with
  | nil => simp [GoMap.set, GoMap.lookup, GoMap.get?]
  | cons e r ih =>
    simp only [GoMap.set]
    by_cases he : e.1 = k
    · simp only [he, ↓reduceIte, List.map_cons, List.sum_cons, GoMap.lookup, GoMap.get?,
        Option.getD_some]
      omega
    · simp only [he, ↓reduceIte, List.map_cons, List.sum_cons, GoMap.lookup, GoMap.get?]
      simp only [GoMap.lookup] at ih
      omega

theorem GoMap.keys_nodup_set {V : Type} (m : GoMap V) (k : String) (v : V)
    (h : (m.map Prod.fst).Nodup) : ((m.set k v).map Prod.fst).Nodup := by
  rw [GoMap.keys_set]
  split_ifs with hk
  · exact h
  · exact List.nodup_append.mpr ⟨h, List.nodup_singleton k, by
      intro a ha hb
      simp only [List.mem_singleton] at hb
      exact hk (hb ▸ ha)⟩

/-- Lookup after one step of the loops: the target is appended to the entry of the key. -/
theorem appendTarget_get? (graph : GoMap (List String)) (key target c : String) :
    (appendTarget graph key target).get? c =
      if c = key then some (graph.lookup key ++ [target]) else graph.get? c := by
  unfold appendTarget
  rw [GoMap.get?_set]
  by_cases hc : c = key
  · simp only [hc, ↓reduceIte]
    by_cases h : graph.lookup key = []
    · rw [if_pos h, h]
      simp [GoMap.lookup, GoMap.get?_set]
    · simp [h]
  · simp only [hc, ↓reduceIte]
    by_cases h : graph.lookup key = []
    · simp [h, GoMap.get?_set, hc]
    · simp [h]

theorem appendTarget_nodup (graph : GoMap (List String)) (key target : String)
    (h : (graph.map Prod.fst).Nodup) : ((appendTarget graph key target).map Prod.fst).Nodup := by
  unfold appendTarget
  apply GoMap.keys_nodup_set
  split_ifs
  · exact GoMap.keys_nodup_set _ _ _ h
  · exact h

theorem appendTarget_sum (graph : GoMap (List String)) (key target : String) :
    ((appendTarget graph key target).map (fun e => e.2.length)).sum =
      (graph.map (fun e => e.2.length)).sum + 1 := by
  unfold appendTarget
  by_cases h : graph.lookup key = []
  · simp only [h, ↓reduceIte]
    have h1 := GoMap.sum_lengths_set graph key []
    have h2 := GoMap.sum_lengths_set (graph.set key []) key
      ((graph.set key []).lookup key ++ [target])
    have h3 : (graph.set key []).lookup key = [] := by
      simp [GoMap.lookup, GoMap.get?_set]
    rw [h3] at h2
    rw [h] at h1
    simp only [List.length_nil, Nat.add_zero, List.nil_append, List.length_singleton] at h1 h2
    rw [h3]
    simp only [List.nil_append]
    omega
  · simp only [h, ↓reduceIte]
    have h2 := GoMap.sum_lengths_set graph key (graph.lookup key ++ [target])
    simp only [List.length_append, List.length_singleton] at h2
    omega

/-- The map that the loops build from a list of pairs of key and target. -/
theorem foldl_appendTarget (pairs : List (String × String)) :
    (∀ c, (pairs.foldl (fun g p => appendTarget g p.1 p.2) []).get? c =
      if targetsOf pairs c = [] then none else some (targetsOf pairs c)) ∧
    ((pairs.foldl (fun g p => appendTarget g p.1 p.2) []).map Prod.fst).Nodup ∧
    ((pairs.foldl (fun g p => appendTarget g p.1 p.2) []).map (fun e => e.2.length)).sum =
      pairs.length := by
  induction pairs using List.reverseRecOn with
  | nil => simp [GoMap.get?, targetsOf]
  | append_singleton init x ih =>
    obtain ⟨h1, h2, h3⟩ := ih
    simp only [List.foldl_append, List.foldl_cons, List.foldl_nil]
    refine ⟨?_, appendTarget_nodup _ _ _ h2, ?_⟩
    · intro c
      rw [appendTarget_get?]
      have hl : (init.foldl (fun g p => appendTarget g p.1 p.2) []).lookup x.1 =
          targetsOf init x.1 := by
        simp only [GoMap.lookup, h1 x.1]
        split_ifs with h
        · simp [h]
        · simp
      rw [hl, h1 c]
      by_cases hc : c = x.1
      · subst hc
        simp [targetsOf, List.filter_append]
      · have : ¬ x.1 = c := fun h => hc h.symm
        have hf : targetsOf (init ++ [x]) c = targetsOf init c := by
          simp [targetsOf, List.filter_append, this]
        simp [hf, hc]
    · rw [appendTarget_sum, h3]
      simp


theorem targetsOf_eq_nil_iff (pairs : List (String × String)) (c : String) :
    targetsOf pairs c = [] ↔ c ∉ pairs.map Prod.fst := by
  simp only [targetsOf, List.map_eq_nil_iff, List.filter_eq_nil_iff, decide_eq_true_eq,
    List.mem_map, not_exists, not_and]

/-- The keys of the map that the loops build are the distinct keys of the pairs. -/
theorem foldl_appendTarget_length (pairs : List (String × String)) :
    (pairs.foldl (fun g p => appendTarget g p.1 p.2) []).length =
      (pairs.map Prod.fst).dedup.length := by
  obtain ⟨h1, h2, _⟩ := foldl_appendTarget pairs
  have hperm : ((pairs.foldl (fun g p => appendTarget g p.1 p.2) []).map Prod.fst).Perm
      (pairs.map Prod.fst).dedup := by
    rw [List.perm_ext_iff_of_nodup h2 (List.nodup_dedup _)]
    intro k
    rw [List.mem_dedup]
    have := h1 k
    constructor
    · intro hk
      by_contra hn
      rw [if_pos ((targetsOf_eq_nil_iff pairs k).mpr hn)] at this
      exact (GoMap.get?_eq_none_iff _ k).mp this hk
    · intro hk
      by_contra hn
      have hnone := (GoMap.get?_eq_none_iff _ k).mpr hn
      rw [hnone] at this
      have hne : ¬ targetsOf pairs k = [] := fun h => (targetsOf_eq_nil_iff pairs k).mp h hk
      rw [if_neg hne] at this
      cases this
  have := hperm.length_eq
  simpa using this

/-- An identifier that no `.` follows is parsed as it stands. -/
theorem parseIdentifier_single (name : String) (p : JavaASTParser)
    (h : ¬ (currentTok p = JavaToken.TOKEN_OPERATOR ∧ currentText p = ".")) :
    parseIdentifier (tokIdent name :: p) = (Except.ok name, p) := by
  simp only [parseIdentifier, currentTok, tokIdent, ne_eq, not_true_eq_false, ↓reduceIte,
    currentText, nextToken, List.tail_cons]
  cases p with
  | nil => rfl
  | cons t rest =>
    simp only [currentTok, currentText] at h
    unfold parseIdentifierLoop
    rw [if_neg h]

theorem parseTypeParameters_skip (p : JavaASTParser)
    (h : ¬ (currentTok p = JavaToken.TOKEN_OPERATOR ∧ currentText p = "<")) :
    parseTypeParameters p = p := by
  unfold parseTypeParameters
  rw [if_neg h]

theorem Regex.starLoop_suffix {R : Type}
    (m : List Char → Captures → (List Char → Captures → Option R) → Option R)
    (hm : ∀ (s : List Char) (caps : Captures) (k : List Char → Captures → Option R) (r : R),
      m s caps k = some r → ∃ s1 c1, s1 <:+ s ∧ k s1 c1 = some r) (fuel : Nat) :
    ∀ (s : List Char) (caps : Captures) (k : List Char → Captures → Option R) (r : R),
      Regex.starLoop m fuel s caps k = some r → ∃ s1 c1, s1 <:+ s ∧ k s1 c1 = some r := by
  induction fuel with
  | zero =>
    intro s caps k r h
    exact ⟨s, caps, List.suffix_refl s, h⟩
  | succ fuel ih =>
    intro s caps k r h
    rw [Regex.starLoop] at h
    split at h
    · rename_i r2 heq
      obtain ⟨s1, c1, hs1, hk⟩ := hm _ _ _ _ heq
      split_ifs at hk
      obtain ⟨s2, c2, hs2, hk2⟩ := ih s1 c1 k r2 hk
      simp only [Option.some.injEq] at h
      subst h
      exact ⟨s2, c2, hs2.trans hs1, hk2⟩
    · exact ⟨s, caps, List.suffix_refl s, h⟩

/-- A match ends where the continuation is entered: at a suffix of the text. -/
theorem Regex.run_suffix {R : Type} (re : Regex) :
    ∀ (s : List Char) (caps : Captures) (k : List Char → Captures → Option R) (r : R),
      Regex.run re s caps k = some r → ∃ s1 c1, s1 <:+ s ∧ k s1 c1 = some r := by
  induction re with
  | empty =>
    intro s caps k r h
    exact ⟨s, caps, List.suffix_refl s, h⟩
  | char c =>
    intro s caps k r h
    cases s with
    | nil => simp [Regex.run] at h
    | cons d t =>
      simp only [Regex.run] at h
      split_ifs at h
      exact ⟨t, caps, List.suffix_cons d t, h⟩
  | cls p =>
    intro s caps k r h
    cases s with
    | nil => simp [Regex.run] at h
    | cons d t =>
      simp only [Regex.run] at h
      split_ifs at h
      exact ⟨t, caps, List.suffix_cons d t, h⟩
  | seq a b iha ihb =>
    intro s caps k r h
    simp only [Regex.run] at h
    obtain ⟨s1, c1, hs1, h1⟩ := iha _ _ _ _ h
    obtain ⟨s2, c2, hs2, h2⟩ := ihb _ _ _ _ h1
    exact ⟨s2, c2, hs2.trans hs1, h2⟩
  | star a iha =>
    intro s caps k r h
    simp only [Regex.run] at h
    exact Regex.starLoop_suffix _ iha _ s caps k r h
  | opt a iha =>
    intro s caps k r h
    simp only [Regex.run] at h
    split at h
    · rename_i r2 heq
      simp only [Option.some.injEq] at h
      subst h
      exact iha _ _ _ _ heq
    · exact ⟨s, caps, List.suffix_refl s, h⟩
  | alt a b iha ihb =>
    intro s caps k r h
    simp only [Regex.run] at h
    split at h
    · rename_i r2 heq
      simp only [Option.some.injEq] at h
      subst h
      exact iha _ _ _ _ heq
    · exact ihb _ _ _ _ h
  | group i a iha =>
    intro s caps k r h
    simp only [Regex.run] at h
    obtain ⟨s1, c1, hs1, h1⟩ := iha _ _ _ _ h
    exact ⟨s1, _, hs1, h1⟩

/-- The rest that `exec` returns is a suffix of the text. -/
theorem Regex.exec_suffix (re : Regex) (s rest : List Char) (caps : Captures)
    (h : Regex.exec re s = some (rest, caps)) : rest <:+ s := by
  unfold Regex.exec at h
  obtain ⟨s1, c1, hs1, h1⟩ := Regex.run_suffix re s [] _ _ h
  simp only [Option.some.injEq, Prod.mk.injEq] at h1
  rw [← h1.1]
  exact hs1

theorem stringsIndex_isSome_of_contained (sub : List Char) :
    ∀ s : List Char, sub <:+: s → (stringsIndex sub s).isSome = true := by
  intro s
  induction s with
  | nil =>
    intro h
    have : sub = [] := List.eq_nil_of_infix_nil h
    simp [stringsIndex, this]
  | cons c t ih =>
    intro h
    simp only [stringsIndex]
    by_cases hp : sub.isPrefixOf (c :: t) = true
    · simp [hp]
    · rw [if_neg hp]
      rcases List.infix_cons_iff.mp h with h2 | h2
      · exact absurd (List.isPrefixOf_iff_prefix.mpr h2) hp
      · have := ih h2
        cases hx : stringsIndex sub t with
        | none => rw [hx] at this; cases this
        | some i => rfl

/-- Every match that `FindAllStringSubmatch` returns is a piece of the text. -/
theorem findAllLoop_contained (re : Regex) (fuel : Nat) :
    ∀ (afterMatch : Bool) (s : List Char) (m : String × Captures),
      m ∈ findAllLoop re fuel afterMatch s → m.1.toList <:+: s := by
  induction fuel with
  | zero => intro afterMatch s m h; simp [findAllLoop] at h
  | succ fuel ih =>
    intro afterMatch s m h
    rw [findAllLoop_succ] at h
    split at h
    · cases s with
      | nil => simp at h
      | cons c t =>
        simp only at h
        exact (ih false t m h).trans (List.suffix_cons c t).isInfix
    · rename_i rest caps heq
      have hsuf := Regex.exec_suffix re s rest caps heq
      split_ifs at h with h1 h2
      · rcases List.mem_cons.mp h with rfl | h
        · exact (List.take_prefix _ s).isInfix
        · exact (ih true rest m h).trans hsuf.isInfix
      · cases s with
        | nil => simp at h
        | cons c t =>
          simp only [List.nil_append] at h
          exact (ih false t m h).trans (List.suffix_cons c t).isInfix
      · cases s with
        | nil =>
          simp only [List.append_nil, List.mem_singleton] at h
          rw [h]
          exact List.nil_infix
        | cons c t =>
          simp only [List.singleton_append, List.mem_cons] at h
          rcases h with rfl | h
          · exact List.nil_infix
          · exact (ih false t m h).trans (List.suffix_cons c t).isInfix

/-- The text of every match is found again in the source. -/
theorem stringsContains_match (re : Regex) (source : String) (m : String × Captures)
    (h : m ∈ FindAllStringSubmatch re source) : stringsContains source m.1 = true := by
  unfold stringsContains
  exact stringsIndex_isSome_of_contained _ _ (findAllLoop_contained re _ _ _ m h)

/-- With the text found in the source, `findContainingMethod` returns the name of the
first method, and `unknown` when the class has no method. -/
theorem findContainingMethod_first (classInfo : DecompiledClass) (text : String)
    (h : stringsContains classInfo.SourceCode text = true) :
    findContainingMethod classInfo text =
      match classInfo.Methods with
      | [] => "unknown"
      | method :: _ => method.Name := by
  unfold findContainingMethod
  cases classInfo.Methods with
  | nil => rfl
  | cons method rest => simp [findContainingMethodLoop, h]

theorem fieldDependency_length (classInfo : DecompiledClass) (field : DecompiledField) :
    (fieldDependency classInfo field).length = if isFieldDependency field then 1 else 0 := by
  unfold fieldDependency isFieldDependency
  by_cases h1 : fieldBaseType field.Type_ = ""
  · simp [h1]
  · by_cases h2 : isPrimitiveType (fieldBaseType field.Type_) = true
    · simp [h1, h2]
    · simp [h1, h2]

theorem flatMap_fieldDependency_length (classInfo : DecompiledClass)
    (fields : List DecompiledField) :
    (fields.flatMap (fieldDependency classInfo)).length = fields.countP isFieldDependency := by
  induction fields with
  | nil => rfl
  | cons f t ih =>
    rw [List.flatMap_cons, List.length_append, ih, fieldDependency_length, List.countP_cons]
    split_ifs <;> omega

theorem analyzeMethodCalls_calls (classInfo : DecompiledClass)
    (result : DependencyAnalysisResult) :
    (analyzeMethodCalls classInfo result).MethodCalls =
      result.MethodCalls ++ (analyzeMethodCalls classInfo {}).MethodCalls := by
  simp [analyzeMethodCalls]

theorem analyzeClass_deps_entry (U : UnicodeTables) (o : RangeOrder)
    (result : DependencyAnalysisResult) (entry : String × Option DecompiledClass) :
    (analyzeClass U o result entry).ClassDependencies =
      result.ClassDependencies ++ entryFieldEdges entry := by
  obtain ⟨k, c⟩ := entry
  cases c with
  | none => simp [analyzeClass, entryFieldEdges]
  | some c => rw [analyzeClass_deps]; rfl

theorem analyzeClass_calls_entry (U : UnicodeTables) (o : RangeOrder)
    (result : DependencyAnalysisResult) (entry : String × Option DecompiledClass) :
    (analyzeClass U o result entry).MethodCalls = result.MethodCalls ++ entryCalls entry := by
  obtain ⟨k, c⟩ := entry
  cases c with
  | none => simp [analyzeClass, entryCalls]
  | some c => rw [analyzeClass_methodCalls, analyzeMethodCalls_calls]; rfl

/-- The edges after the loop: the field edges of the entries, in the order of the loop. -/
theorem analyzeClasses_deps (U : UnicodeTables) (o : RangeOrder)
    (l : List (String × Option DecompiledClass)) :
    ∀ result : DependencyAnalysisResult,
      (analyzeClasses U o l result).ClassDependencies =
        result.ClassDependencies ++ l.flatMap entryFieldEdges := by
  induction l with
  | nil => intro result; simp [analyzeClasses]
  | cons x l ih =>
    intro result
    rw [analyzeClasses_cons, ih, analyzeClass_deps_entry]
    simp [List.flatMap_cons]

/-- The calls after the loop: the calls of the entries, in the order of the loop. -/
theorem analyzeClasses_calls (U : UnicodeTables) (o : RangeOrder)
    (l : List (String × Option DecompiledClass)) :
    ∀ result : DependencyAnalysisResult,
      (analyzeClasses U o l result).MethodCalls =
        result.MethodCalls ++ l.flatMap entryCalls := by
  induction l with
  | nil => intro result; simp [analyzeClasses]
  | cons x l ih =>
    intro result
    rw [analyzeClasses_cons, ih, analyzeClass_calls_entry]
    simp [List.flatMap_cons]

theorem flatMap_entryFieldEdges_length (l : List (String × Option DecompiledClass)) :
    (l.flatMap entryFieldEdges).length =
      ((unitsOf l).map (fun c => c.Fields.countP isFieldDependency)).sum := by
  induction l with
  | nil => rfl
  | cons x l ih =>
    obtain ⟨k, c⟩ := x
    cases c with
    | none =>
      have hu : unitsOf ((k, none) :: l) = unitsOf l := rfl
      rw [List.flatMap_cons, hu, ← ih]
      rfl
    | some c =>
      have hu : unitsOf ((k, some c) :: l) = c :: unitsOf l := rfl
      rw [List.flatMap_cons, List.length_append, ih, hu, List.map_cons, List.sum_cons]
      show (c.Fields.flatMap (fieldDependency c)).length + _ = _
      rw [flatMap_fieldDependency_length]

theorem flatMap_entryCalls_length (l : List (String × Option DecompiledClass)) :
    (l.flatMap entryCalls).length =
      ((unitsOf l).map (fun c =>
        (FindAllStringSubmatch methodCallRegex c.SourceCode).length)).sum := by
  induction l with
  | nil => rfl
  | cons x l ih =>
    obtain ⟨k, c⟩ := x
    cases c with
    | none =>
      have hu : unitsOf ((k, none) :: l) = unitsOf l := rfl
      rw [List.flatMap_cons, hu, ← ih]
      rfl
    | some c =>
      have hu : unitsOf ((k, some c) :: l) = c :: unitsOf l := rfl
      rw [List.flatMap_cons, List.length_append, ih, hu, List.map_cons, List.sum_cons]
      show (analyzeMethodCalls c {}).MethodCalls.length + _ = _
      simp [analyzeMethodCalls]

theorem flatMap_implements_length (l : List (String × List String)) :
    (l.flatMap (fun e => e.2.map (fun iface =>
      ({ FromClass := e.1, ToClass := iface, DepType := "implements" } : ClassDependency)))).length =
      (l.map (fun e => e.2.length)).sum := by
  induction l with
  | nil => rfl
  | cons x l ih => simp [List.flatMap_cons, ih]

theorem flatMap_imports_length (l : List (String × List String)) :
    (l.flatMap (fun e => e.2.flatMap (fun importPath => importDependency e.1 importPath))).length =
      (l.flatMap Prod.snd).countP (fun p => decide (lastSegment p ≠ "*")) := by
  induction l with
  | nil => rfl
  | cons x l ih =>
    rw [List.flatMap_cons, List.length_append, ih, List.flatMap_cons, List.countP_append,
      flatMap_importDependency, List.length_map]
    simp only [List.countP_eq_length_filter]

/-- The numbers of edges and of calls in the result of the analysis. -/
theorem analyze_counts (U : UnicodeTables) (o : RangeOrder)
    (classes : GoMap (Option DecompiledClass)) :
    (buildClassDependencies o (analyzeClasses U o (o.order classes) {})).ClassDependencies.length =
      ((unitsOf classes).map (fun c => c.Fields.countP isFieldDependency)).sum +
      (analyzeClasses U o (o.order classes) {}).InheritanceTree.length +
      ((analyzeClasses U o (o.order classes) {}).InterfaceImpls.map (fun e => e.2.length)).sum +
      ((analyzeClasses U o (o.order classes) {}).ImportStatements.flatMap Prod.snd).countP
        (fun p => decide (lastSegment p ≠ "*")) ∧
    (buildClassDependencies o (analyzeClasses U o (o.order classes) {})).MethodCalls.length =
      ((unitsOf classes).map (fun c =>
        (FindAllStringSubmatch methodCallRegex c.SourceCode).length)).sum := by
  constructor
  · rw [buildClassDependencies_deps]
    simp only [List.length_append, List.length_map]
    rw [analyzeClasses_deps]
    have h1 : (({} : DependencyAnalysisResult).ClassDependencies ++
        (o.order classes).flatMap entryFieldEdges).length =
        ((unitsOf classes).map (fun c => c.Fields.countP isFieldDependency)).sum := by
      rw [← flatMap_entryFieldEdges_length]
      simpa using ((o.perm classes).flatMap_right entryFieldEdges).length_eq
    have h2 := (o.perm (analyzeClasses U o (o.order classes) {}).InheritanceTree).length_eq
    have h3 := ((o.perm (analyzeClasses U o (o.order classes) {}).InterfaceImpls).flatMap_right
      (fun e => e.2.map (fun iface =>
        ({ FromClass := e.1, ToClass := iface, DepType := "implements" } :
          ClassDependency)))).length_eq
    have h4 := ((o.perm (analyzeClasses U o (o.order classes) {}).ImportStatements).flatMap_right
      (fun e => e.2.flatMap (fun importPath => importDependency e.1 importPath))).length_eq
    rw [h1, h2, h3, h4, flatMap_implements_length, flatMap_imports_length]
  · show (analyzeClasses U o (o.order classes) {}).MethodCalls.length = _
    rw [analyzeClasses_calls, ← flatMap_entryCalls_length]
    simpa using ((o.perm classes).flatMap_right entryCalls).length_eq

theorem foldl_set_nodup {V : Type} (l : List (String × V)) :
    ∀ m : GoMap V, (m.map Prod.fst).Nodup →
      ((l.foldl (fun m e => m.set e.1 e.2) m).map Prod.fst).Nodup := by
  induction l with
  | nil => intro m h; exact h
  | cons x l ih => intro m h; exact ih _ (GoMap.keys_nodup_set m x.1 x.2 h)

theorem analyzeClass_maps_nodup (U : UnicodeTables) (o : RangeOrder)
    (result : DependencyAnalysisResult) (entry : String × Option DecompiledClass)
    (h1 : (result.InheritanceTree.map Prod.fst).Nodup)
    (h2 : (result.InterfaceImpls.map Prod.fst).Nodup)
    (h3 : (result.ImportStatements.map Prod.fst).Nodup) :
    ((analyzeClass U o result entry).InheritanceTree.map Prod.fst).Nodup ∧
    ((analyzeClass U o result entry).InterfaceImpls.map Prod.fst).Nodup ∧
    ((analyzeClass U o result entry).ImportStatements.map Prod.fst).Nodup := by
  obtain ⟨k, c⟩ := entry
  cases c with
  | none => exact ⟨h1, h2, h3⟩
  | some c =>
    rw [analyzeClass_inheritanceTree, analyzeClass_interfaceImpls, analyzeClass_importStatements]
    refine ⟨?_, ?_, GoMap.keys_nodup_set _ _ _ h3⟩
    · cases ParseJavaInheritance U c.SourceCode with
      | error e => exact h1
      | ok maps => exact foldl_set_nodup _ _ h1
    · cases ParseJavaInheritance U c.SourceCode with
      | error e => exact h2
      | ok maps => exact foldl_set_nodup _ _ h2

/-- The keys of the three maps of the result are distinct: the length of a map is the
number of its keys. -/
theorem analyzeClasses_maps_nodup (U : UnicodeTables) (o : RangeOrder)
    (l : List (String × Option DecompiledClass)) :
    ∀ result : DependencyAnalysisResult,
      (result.InheritanceTree.map Prod.fst).Nodup →
      (result.InterfaceImpls.map Prod.fst).Nodup →
      (result.ImportStatements.map Prod.fst).Nodup →
      ((analyzeClasses U o l result).InheritanceTree.map Prod.fst).Nodup ∧
      ((analyzeClasses U o l result).InterfaceImpls.map Prod.fst).Nodup ∧
      ((analyzeClasses U o l result).ImportStatements.map Prod.fst).Nodup := by
  induction l with
  | nil => intro result h1 h2 h3; exact ⟨h1, h2, h3⟩
  | cons x l ih =>
    intro result h1 h2 h3
    rw [analyzeClasses_cons]
    obtain ⟨g1, g2, g3⟩ := analyzeClass_maps_nodup U o result x h1 h2 h3
    exact ih _ g1 g2 g3

/-- A greedy star over a class, before a continuation that fails on the characters of the
class, reads the longest run of such characters. -/
theorem Regex.starLoop_cls_greedy {R : Type} (p : Char → Bool)
    (k : List Char → Captures → Option R)
    (hk : ∀ (c : Char) (r : List Char) (caps : Captures), p c = true → k (c :: r) caps = none) :
    ∀ (s : List Char) (fuel : Nat) (caps : Captures), s.length ≤ fuel →
      Regex.starLoop (fun s1 c1 k1 => Regex.run (Regex.cls p) s1 c1 k1) fuel s caps k =
        k (s.dropWhile p) caps := by
  intro s
  induction s with
  | nil =>
    intro fuel caps _
    cases fuel with
    | zero => rfl
    | succ f => simp [Regex.starLoop, Regex.run]
  | cons c r ih =>
    intro fuel caps hf
    cases fuel with
    | zero => simp at hf
    | succ f =>
      have hf2 : r.length ≤ f := by simpa using hf
      by_cases hp : p c = true
      · have h1 : Regex.starLoop (fun s1 c1 k1 => Regex.run (Regex.cls p) s1 c1 k1) (f + 1)
            (c :: r) caps k =
            match Regex.starLoop (fun s1 c1 k1 => Regex.run (Regex.cls p) s1 c1 k1) f r caps k with
            | some x => some x
            | none => k (c :: r) caps := by
          simp [Regex.starLoop, Regex.run, hp]
        rw [h1, ih f caps hf2, hk c r caps hp, List.dropWhile_cons_of_pos hp]
        cases k (List.dropWhile p r) caps <;> rfl
      · have h1 : Regex.starLoop (fun s1 c1 k1 => Regex.run (Regex.cls p) s1 c1 k1) (f + 1)
            (c :: r) caps k = k (c :: r) caps := by
          simp [Regex.starLoop, Regex.run, hp]
        rw [h1, List.dropWhile_cons_of_neg hp]

theorem Regex.run_star_cls {R : Type} (p : Char → Bool)
    (k : List Char → Captures → Option R)
    (hk : ∀ (c : Char) (r : List Char) (caps : Captures), p c = true → k (c :: r) caps = none)
    (s : List Char) (caps : Captures) :
    Regex.run (Regex.star (Regex.cls p)) s caps k = k (s.dropWhile p) caps := by
  rw [Regex.run]
  exact Regex.starLoop_cls_greedy p k hk s s.length caps (le_refl _)

theorem take_sub_dropWhile (p : Char → Bool) (c : Char) (r : List Char) :
    (c :: r).take ((c :: r).length - (r.dropWhile p).length) = c :: r.takeWhile p := by
  have h : r.length = (r.takeWhile p).length + (r.dropWhile p).length := by
    rw [← List.length_append, List.takeWhile_append_dropWhile]
  have h2 : (c :: r).length - (r.dropWhile p).length = (r.takeWhile p).length + 1 := by
    simp only [List.length_cons]; omega
  rw [h2, List.take_succ_cons]
  congr 1
  have h3 : List.take (r.takeWhile p).length (r.takeWhile p ++ r.dropWhile p) = r.takeWhile p :=
    List.take_left _ _
  rw [List.takeWhile_append_dropWhile] at h3
  exact h3

theorem reIdentChar_ne_dot (c : Char) (h : reIdentChar c = true) : c ≠ '.' := by
  intro hc; subst hc; revert h; decide

theorem reIdentChar_ne_paren (c : Char) (h : reIdentChar c = true) : c ≠ '(' := by
  intro hc; subst hc; revert h; decide

theorem reSpace_ne_paren (c : Char) (h : reSpace c = true) : c ≠ '(' := by
  intro hc; subst hc; revert h; decide

theorem reSpace_cases (c : Char) (h : reSpace c = true) :
    c = '\t' ∨ c = '\n' ∨ c = Char.ofNat 12 ∨ c = '\r' ∨ c = ' ' := by
  simp only [reSpace, Bool.or_eq_true, beq_iff_eq] at h
  rcases h with (((h | h) | h) | h) | h
  · exact Or.inl h
  · exact Or.inr (Or.inl h)
  · refine Or.inr (Or.inr (Or.inl ?_))
    rw [← Char.ofNat_toNat c, h]
  · exact Or.inr (Or.inr (Or.inr (Or.inl h)))
  · exact Or.inr (Or.inr (Or.inr (Or.inr h)))

theorem reIdentChar_not_space (c : Char) (h : reIdentChar c = true) : reSpace c = false := by
  cases hs : reSpace c with
  | false => rfl
  | true =>
    rcases reSpace_cases c hs with h1 | h1 | h1 | h1 | h1 <;> (subst h1; revert h; decide)

/-- The group of an identifier, before a continuation that fails on identifier characters. -/
theorem Regex.run_group_identifier {R : Type} (i : Nat)
    (k : List Char → Captures → Option R)
    (hk : ∀ (c : Char) (r : List Char) (caps : Captures),
      reIdentChar c = true → k (c :: r) caps = none)
    (s : List Char) (caps : Captures) :
    Regex.run (Regex.group i (Regex.seq (Regex.cls reIdentStart)
        (Regex.star (Regex.cls reIdentChar)))) s caps k =
      match specIdentifier s with
      | none => none
      | some (ident, rest) => k rest ((i, ident) :: caps) := by
  cases s with
  | nil => simp [Regex.run, specIdentifier]
  | cons c r =>
    by_cases hc : reIdentStart c = true
    · have h1 : Regex.run (Regex.group i (Regex.seq (Regex.cls reIdentStart)
          (Regex.star (Regex.cls reIdentChar)))) (c :: r) caps k =
          Regex.run (Regex.star (Regex.cls reIdentChar)) r caps
            (fun s1 c1 => k s1 ((i, (c :: r).take ((c :: r).length - s1.length)) :: c1)) := by
        simp [Regex.run, hc]
      rw [h1, Regex.run_star_cls reIdentChar
        (fun s1 c1 => k s1 ((i, (c :: r).take ((c :: r).length - s1.length)) :: c1))
        (fun c2 r2 caps2 h2 => hk c2 r2 _ h2)]
      simp only [specIdentifier, hc, if_true]
      rw [take_sub_dropWhile]
    · simp [Regex.run, specIdentifier, hc]

theorem Regex.run_spaces_paren {R : Type} (k : List Char → Captures → Option R)
    (s : List Char) (caps : Captures) :
    Regex.run (Regex.seq (Regex.star (Regex.cls reSpace)) (Regex.char '(')) s caps k =
      match specOpenParen s with
      | none => none
      | some t => k t caps := by
  have h1 : Regex.run (Regex.seq (Regex.star (Regex.cls reSpace)) (Regex.char '(')) s caps k =
      Regex.run (Regex.star (Regex.cls reSpace)) s caps
        (fun s1 c1 => Regex.run (Regex.char '(') s1 c1 k) := by
    rw [Regex.run]
  rw [h1, Regex.run_star_cls]
  · unfold specOpenParen
    cases List.dropWhile reSpace s with
    | nil => simp [Regex.run]
    | cons d t =>
      by_cases hd : d = '('
      · simp [Regex.run, hd]
      · simp [Regex.run, hd]
  · intro c r caps2 hc
    simp [Regex.run, reSpace_ne_paren c hc]

theorem specOpenParen_identChar (c : Char) (r : List Char) (h : reIdentChar c = true) :
    specOpenParen (c :: r) = none := by
  unfold specOpenParen
  rw [List.dropWhile_cons_of_neg (by simp [reIdentChar_not_space c h])]
  simp [reIdentChar_ne_paren c h]

/-- The call pattern at the head of a text: what the engine finds is the call of the
specification. -/
theorem exec_methodCallRegex (s : List Char) :
    Regex.exec methodCallRegex s =
      (specCallAt s).map (fun m => (m.2.2, [(2, m.2.1), (1, m.1)])) := by
  unfold Regex.exec methodCallRegex
  rw [Regex.run]
  rw [Regex.run_group_identifier]
  · unfold specCallAt
    cases specIdentifier s with
    | none => rfl
    | some p1 =>
      obtain ⟨left, s1⟩ := p1
      simp only
      have hdot : ∀ (k : List Char → Captures → Option (List Char × Captures)) (caps : Captures)
          (g : Regex),
          Regex.run (Regex.seq (Regex.char '.') g) s1 caps k =
            match specDot s1 with
            | none => none
            | some s2 => Regex.run g s2 caps k := by
        intro k caps g
        cases s1 with
        | nil => simp [Regex.run, specDot]
        | cons d t =>
          by_cases hd : d = '.'
          · simp [Regex.run, specDot, hd]
          · simp [Regex.run, specDot, hd]
      rw [hdot]
      cases specDot s1 with
      | none => rfl
      | some s2 =>
        simp only
        rw [Regex.run]
        rw [Regex.run_group_identifier]
        · cases specIdentifier s2 with
          | none => rfl
          | some p2 =>
            obtain ⟨right, s3⟩ := p2
            simp only
            rw [Regex.run_spaces_paren]
            cases specOpenParen s3 with
            | none => rfl
            | some s4 => rfl
        · intro c r caps hc
          rw [Regex.run_spaces_paren, specOpenParen_identChar c r hc]
  · intro c r caps hc
    simp [Regex.run, reIdentChar_ne_dot c hc]

theorem specIdentifier_length (s ident rest : List Char)
    (h : specIdentifier s = some (ident, rest)) : rest.length < s.length := by
  cases s with
  | nil => simp [specIdentifier] at h
  | cons c r =>
    simp only [specIdentifier] at h
    split_ifs at h
    simp only [Option.some.injEq, Prod.mk.injEq] at h
    rw [← h.2]
    have := (List.dropWhile_suffix reIdentChar (l := r)).length_le
    simp only [List.length_cons]
    omega

theorem specDot_length (s rest : List Char) (h : specDot s = some rest) :
    rest.length < s.length := by
  cases s with
  | nil => simp [specDot] at h
  | cons c r =>
    simp only [specDot] at h
    split_ifs at h
    simp only [Option.some.injEq] at h
    rw [← h]
    simp

theorem specOpenParen_length (s rest : List Char) (h : specOpenParen s = some rest) :
    rest.length < s.length := by
  unfold specOpenParen at h
  have hl := (List.dropWhile_suffix reSpace (l := s)).length_le
  cases hd : List.dropWhile reSpace s with
  | nil => rw [hd] at h; simp at h
  | cons c t =>
    rw [hd] at h hl
    simp only at h
    split_ifs at h
    simp only [Option.some.injEq] at h
    rw [← h]
    simp only [List.length_cons] at hl
    omega

theorem specCallAt_length (s left right rest : List Char)
    (h : specCallAt s = some (left, right, rest)) : rest.length < s.length := by
  unfold specCallAt at h
  cases h1 : specIdentifier s with
  | none => rw [h1] at h; simp at h
  | some p1 =>
    obtain ⟨l, s1⟩ := p1
    rw [h1] at h
    simp only at h
    cases h2 : specDot s1 with
    | none => rw [h2] at h; simp at h
    | some s2 =>
      rw [h2] at h
      simp only at h
      cases h3 : specIdentifier s2 with
      | none => rw [h3] at h; simp at h
      | some p2 =>
        obtain ⟨r, s3⟩ := p2
        rw [h3] at h
        simp only at h
        cases h4 : specOpenParen s3 with
        | none => rw [h4] at h; simp at h
        | some s4 =>
          rw [h4] at h
          simp only [Option.some.injEq, Prod.mk.injEq] at h
          have g1 := specIdentifier_length _ _ _ h1
          have g2 := specDot_length _ _ h2
          have g3 := specIdentifier_length _ _ _ h3
          have g4 := specOpenParen_length _ _ h4
          rw [← h.2.2]
          omega

/-- The matches of the call pattern are the calls of the specification. -/
theorem findAllLoop_methodCallRegex (fuel : Nat) :
    ∀ (afterMatch : Bool) (s : List Char),
      (findAllLoop methodCallRegex fuel afterMatch s).map
          (fun m => (submatch m.2 1, submatch m.2 2)) = specCallsLoop fuel s := by
  induction fuel with
  | zero => intro afterMatch s; rfl
  | succ fuel ih =>
    intro afterMatch s
    rw [findAllLoop_succ, exec_methodCallRegex]
    cases h : specCallAt s with
    | none =>
      simp only [Option.map_none', specCallsLoop, h]
      cases s with
      | nil => rfl
      | cons c t => exact ih false t
    | some m =>
      obtain ⟨left, right, rest⟩ := m
      have hl := specCallAt_length s left right rest h
      simp only [Option.map_some', specCallsLoop, h, if_pos hl, List.map_cons, ih]
      rfl

theorem Regex.run_seq {R : Type} (a b : Regex) (s : List Char) (caps : Captures)
    (k : List Char → Captures → Option R) :
    Regex.run (Regex.seq a b) s caps k =
      Regex.run a s caps (fun s1 c1 => Regex.run b s1 c1 k) := by
  rw [Regex.run]

theorem Regex.run_opt {R : Type} (a : Regex) (s : List Char) (caps : Captures)
    (k : List Char → Captures → Option R) :
    Regex.run (Regex.opt a) s caps k =
      match Regex.run a s caps k with
      | some r => some r
      | none => k s caps := by
  rw [Regex.run]

theorem Regex.run_group {R : Type} (i : Nat) (a : Regex) (s : List Char) (caps : Captures)
    (k : List Char → Captures → Option R) :
    Regex.run (Regex.group i a) s caps k =
      Regex.run a s caps (fun s1 c1 => k s1 ((i, s.take (s.length - s1.length)) :: c1)) := by
  rw [Regex.run]

theorem Regex.run_char_cons {R : Type} (c d : Char) (r : List Char) (caps : Captures)
    (k : List Char → Captures → Option R) :
    Regex.run (Regex.char c) (d :: r) caps k = if d = c then k r caps else none := by
  rw [Regex.run]

theorem Regex.run_char_nil {R : Type} (c : Char) (caps : Captures)
    (k : List Char → Captures → Option R) :
    Regex.run (Regex.char c) [] caps k = none := by
  rw [Regex.run]

theorem Regex.run_cls_cons {R : Type} (p : Char → Bool) (d : Char) (r : List Char)
    (caps : Captures) (k : List Char → Captures → Option R) :
    Regex.run (Regex.cls p) (d :: r) caps k = if p d then k r caps else none := by
  rw [Regex.run]

theorem Regex.run_cls_nil {R : Type} (p : Char → Bool) (caps : Captures)
    (k : List Char → Captures → Option R) :
    Regex.run (Regex.cls p) [] caps k = none := by
  rw [Regex.run]

theorem Regex.run_lit_append {R : Type} (cs : List Char) :
    ∀ (t : List Char) (caps : Captures) (k : List Char → Captures → Option R),
      Regex.run (Regex.lit cs) (cs ++ t) caps k = k t caps := by
  induction cs with
  | nil => intro t caps k; simp [Regex.lit, Regex.run]
  | cons c r ih =>
    intro t caps k
    rw [Regex.lit, Regex.run_seq, List.cons_append, Regex.run_char_cons, if_pos rfl, ih]

theorem Regex.run_lit_none {R : Type} (cs : List Char) :
    ∀ (s : List Char) (caps : Captures) (k : List Char → Captures → Option R),
      ¬ cs <+: s → Regex.run (Regex.lit cs) s caps k = none := by
  induction cs with
  | nil => intro s caps k h; exact absurd (List.nil_prefix) h
  | cons c r ih =>
    intro s caps k h
    rw [Regex.lit, Regex.run_seq]
    cases s with
    | nil => rw [Regex.run_char_nil]
    | cons d t =>
      rw [Regex.run_char_cons]
      split_ifs with hd
      · apply ih
        intro hp
        apply h
        rw [hd]
        exact (List.prefix_cons_inj c).mpr hp
      · rfl

/-- One step of a greedy star over a class. -/
theorem Regex.run_star_cls_cons {R : Type} (p : Char → Bool) (c : Char) (r : List Char)
    (caps : Captures) (k : List Char → Captures → Option R) :
    Regex.run (Regex.star (Regex.cls p)) (c :: r) caps k =
      if p c then
        match Regex.run (Regex.star (Regex.cls p)) r caps k with
        | some x => some x
        | none => k (c :: r) caps
      else k (c :: r) caps := by
  have h0 : Regex.run (Regex.star (Regex.cls p)) r caps k =
      Regex.starLoop (fun s1 c1 k1 => Regex.run (Regex.cls p) s1 c1 k1) r.length r caps k := by
    rw [Regex.run]
  rw [h0, Regex.run]
  by_cases hp : p c = true
  · simp [Regex.starLoop, Regex.run, hp]
  · simp [Regex.starLoop, Regex.run, hp]

/-- A greedy star over a class reads the characters of the class that stand before a text
from which the rest of the pattern succeeds. -/
theorem Regex.run_star_cls_append {R : Type} (p : Char → Bool) (cs : List Char)
    (hcs : ∀ x ∈ cs, p x = true) (t : List Char) (caps : Captures)
    (k : List Char → Captures → Option R) (v : R)
    (h : Regex.run (Regex.star (Regex.cls p)) t caps k = some v) :
    Regex.run (Regex.star (Regex.cls p)) (cs ++ t) caps k = some v := by
  induction cs with
  | nil => exact h
  | cons c r ih =>
    rw [List.cons_append, Regex.run_star_cls_cons, if_pos (hcs c (List.mem_cons_self _ _)),
      ih (fun x hx => hcs x (List.mem_cons_of_mem _ hx))]

theorem dropWhile_append_of_all {α : Type} (p : α → Bool) (a t : List α)
    (h : ∀ x ∈ a, p x = true) : (a ++ t).dropWhile p = t.dropWhile p := by
  induction a with
  | nil => rfl
  | cons c r ih =>
    rw [List.cons_append, List.dropWhile_cons_of_pos (h c (List.mem_cons_self _ _)),
      ih (fun x hx => h x (List.mem_cons_of_mem _ hx))]

theorem take_append_sub {α : Type} (a b : List α) :
    (a ++ b).take ((a ++ b).length - b.length) = a := by
  have h : (a ++ b).length - b.length = a.length := by simp
  rw [h]
  exact List.take_left _ _

/-- One or more white space characters, before a continuation that fails on white space,
and before a text that does not start with white space. -/
theorem Regex.run_plus_spaces {R : Type} (gap t : List Char) (caps : Captures)
    (k : List Char → Captures → Option R)
    (hk : ∀ (c : Char) (r : List Char) (caps : Captures),
      reSpace c = true → k (c :: r) caps = none)
    (hgap : gap ≠ []) (hall : ∀ x ∈ gap, reSpace x = true) (ht : t.dropWhile reSpace = t) :
    Regex.run (Regex.plus (Regex.cls reSpace)) (gap ++ t) caps k = k t caps := by
  cases gap with
  | nil => exact absurd rfl hgap
  | cons g gs =>
    rw [Regex.plus, Regex.run_seq, List.cons_append, Regex.run_cls_cons,
      if_pos (hall g (List.mem_cons_self _ _)), Regex.run_star_cls reSpace k hk,
      dropWhile_append_of_all reSpace gs t (fun x hx => hall x (List.mem_cons_of_mem _ hx)), ht]

theorem reIdentStart_identChar (c : Char) (h : reIdentStart c = true) :
    reIdentChar c = true := by
  unfold reIdentStart at h
  unfold reIdentChar
  simp only [Bool.or_eq_true] at h ⊢
  tauto

theorem reIdentStart_pathChar (c : Char) (h : reIdentStart c = true) :
    rePathChar c = true := by
  unfold rePathChar
  rw [reIdentStart_identChar c h]
  rfl

theorem reSpace_not_identStart (c : Char) (h : reSpace c = true) : reIdentStart c = false := by
  cases hs : reIdentStart c with
  | false => rfl
  | true =>
    have := reIdentChar_not_space c (reIdentStart_identChar c hs)
    rw [h] at this
    cases this

theorem reSpace_not_pathChar (c : Char) (h : reSpace c = true) : rePathChar c = false := by
  rcases reSpace_cases c h with h1 | h1 | h1 | h1 | h1 <;> (subst h1; decide)

theorem reSpace_ne_letter (c d : Char) (h : reSpace c = true) (hd : reIdentStart d = true) :
    c ≠ d := by
  intro hc
  subst hc
  rw [reSpace_not_identStart c h] at hd
  cases hd

theorem dropWhile_eq_self_of_head {α : Type} (p : α → Bool) (c : α) (t : List α)
    (h : p c = false) : (c :: t).dropWhile p = c :: t := by
  rw [List.dropWhile_cons_of_neg (by simp [h])]

/-- The pattern of the path and the semicolon, at a path followed by a semicolon. -/
theorem run_path_plain (c : Char) (cs rest : List Char) (caps : Captures)
    (hc : reIdentStart c = true) (hcs : ∀ x ∈ cs, rePathChar x = true) :
    Regex.run
      (Regex.seq
        (Regex.group 1
          (Regex.seq (Regex.cls reIdentStart)
            (Regex.seq (Regex.star (Regex.cls rePathChar))
              (Regex.opt (Regex.seq (Regex.char '.') (Regex.char '*'))))))
        (Regex.char ';'))
      (c :: (cs ++ ';' :: rest)) caps (fun r c1 => some (r, c1)) =
      some (rest, (1, c :: cs) :: caps) := by
  rw [Regex.run_seq, Regex.run_group, Regex.run_seq, Regex.run_cls_cons, if_pos hc,
    Regex.run_seq]
  apply Regex.run_star_cls_append rePathChar cs hcs
  rw [Regex.run_star_cls_cons, if_neg (by decide), Regex.run_opt, Regex.run_seq,
    Regex.run_char_cons, if_neg (by decide)]
  simp only
  rw [Regex.run_char_cons, if_pos rfl]
  have h := take_append_sub (c :: cs) (';' :: rest)
  rw [List.cons_append] at h
  rw [h]

/-- The pattern of the path and the semicolon, at a path followed by `.*` and a
semicolon: the star gives the dot back. -/
theorem run_path_wildcard (c : Char) (cs rest : List Char) (caps : Captures)
    (hc : reIdentStart c = true) (hcs : ∀ x ∈ cs, rePathChar x = true) :
    Regex.run
      (Regex.seq
        (Regex.group 1
          (Regex.seq (Regex.cls reIdentStart)
            (Regex.seq (Regex.star (Regex.cls rePathChar))
              (Regex.opt (Regex.seq (Regex.char '.') (Regex.char '*'))))))
        (Regex.char ';'))
      (c :: (cs ++ '.' :: '*' :: ';' :: rest)) caps (fun r c1 => some (r, c1)) =
      some (rest, (1, c :: (cs ++ ['.', '*'])) :: caps) := by
  rw [Regex.run_seq, Regex.run_group, Regex.run_seq, Regex.run_cls_cons, if_pos hc,
    Regex.run_seq]
  apply Regex.run_star_cls_append rePathChar cs hcs
  rw [Regex.run_star_cls_cons, if_pos (by decide), Regex.run_star_cls_cons,
    if_neg (by decide), Regex.run_opt, Regex.run_seq, Regex.run_char_cons, if_neg (by decide)]
  simp only
  rw [Regex.run_char_cons, if_neg (by decide)]
  simp only
  rw [Regex.run_opt, Regex.run_seq, Regex.run_char_cons, if_pos rfl, Regex.run_char_cons,
    if_pos rfl, Regex.run_char_cons, if_pos rfl]
  simp only
  have h := take_append_sub (c :: (cs ++ ['.', '*'])) (';' :: rest)
  simp only [List.cons_append, List.append_assoc, List.nil_append] at h
  rw [h]

/-- The option `static` and white space fails where the word `static` is not followed by
white space. -/
theorem run_static_none {R : Type} (s : List Char) (caps : Captures)
    (k : List Char → Captures → Option R)
    (h : ∀ (d : Char) (t : List Char), s = "static".toList ++ d :: t → reSpace d = false) :
    Regex.run (Regex.seq (Regex.lit "static".toList) (Regex.plus (Regex.cls reSpace)))
      s caps k = none := by
  by_cases hp : "static".toList <+: s
  · obtain ⟨t, ht⟩ := hp
    subst ht
    rw [Regex.run_seq, Regex.run_lit_append]
    cases t with
    | nil => rw [Regex.plus, Regex.run_seq, Regex.run_cls_nil]
    | cons d t =>
      rw [Regex.plus, Regex.run_seq, Regex.run_cls_cons, h d t rfl]
      rfl
  · rw [Regex.run_seq, Regex.run_lit_none _ _ _ _ hp]

/-- The text after the path of a statement. -/
theorem recorded_append (i : SpecImport) (c : Char) (cs rest : List Char)
    (hpath : i.path = c :: cs) :
    i.recorded ++ (';' :: rest) =
      if i.wildcard then c :: (cs ++ '.' :: '*' :: ';' :: rest) else c :: (cs ++ ';' :: rest) := by
  unfold SpecImport.recorded
  rw [hpath]
  cases i.wildcard <;> simp

theorem run_path_recorded (i : SpecImport) (rest : List Char) (caps : Captures)
    (hpath : isImportPath i.path = true) :
    Regex.run
      (Regex.seq
        (Regex.group 1
          (Regex.seq (Regex.cls reIdentStart)
            (Regex.seq (Regex.star (Regex.cls rePathChar))
              (Regex.opt (Regex.seq (Regex.char '.') (Regex.char '*'))))))
        (Regex.char ';'))
      (i.recorded ++ (';' :: rest)) caps (fun r c1 => some (r, c1)) =
      some (rest, (1, i.recorded) :: caps) := by
  cases hp : i.path with
  | nil => rw [hp] at hpath; simp [isImportPath] at hpath
  | cons c cs =>
    rw [hp] at hpath
    simp only [isImportPath, Bool.and_eq_true, List.all_eq_true] at hpath
    rw [recorded_append i c cs rest hp]
    unfold SpecImport.recorded
    rw [hp]
    cases i.wildcard with
    | false =>
      simp only [Bool.false_eq_true, if_false, List.append_nil]
      exact run_path_plain c cs rest caps hpath.1 hpath.2
    | true =>
      simp only [if_true]
      exact run_path_wildcard c cs rest caps hpath.1 hpath.2

theorem recorded_head (i : SpecImport) (rest : List Char)
    (hpath : isImportPath i.path = true) :
    ∃ c t, i.recorded ++ (';' :: rest) = c :: t ∧ reIdentStart c = true ∧
      (c :: t).dropWhile rePathChar ≠ [] ∧
      ∀ d u, (c :: t).dropWhile rePathChar = d :: u → d = ';' ∨ d = '*' := by
  cases hp : i.path with
  | nil => rw [hp] at hpath; simp [isImportPath] at hpath
  | cons c cs =>
    rw [hp] at hpath
    simp only [isImportPath, Bool.and_eq_true, List.all_eq_true] at hpath
    have hall : ∀ x ∈ c :: cs, rePathChar x = true := by
      intro x hx
      rcases List.mem_cons.mp hx with h | h
      · rw [h]; exact reIdentStart_pathChar c hpath.1
      · exact hpath.2 x h
    have hd : (i.recorded ++ (';' :: rest)).dropWhile rePathChar =
        if i.wildcard then '*' :: ';' :: rest else ';' :: rest := by
      unfold SpecImport.recorded
      rw [hp]
      cases i.wildcard with
      | false =>
        simp only [Bool.false_eq_true, if_false, List.append_nil]
        rw [dropWhile_append_of_all rePathChar _ _ hall]
        rfl
      | true =>
        simp only [if_true]
        have : (c :: cs) ++ ".*".toList ++ (';' :: rest) =
            ((c :: cs) ++ ['.']) ++ ('*' :: ';' :: rest) := by simp
        rw [this, dropWhile_append_of_all rePathChar]
        · rfl
        · intro x hx
          rcases List.mem_append.mp hx with h | h
          · exact hall x h
          · simp only [List.mem_singleton] at h
            rw [h]; decide
    have he : i.recorded ++ (';' :: rest) = c :: (cs ++ ((if i.wildcard then ".*".toList else [])
        ++ (';' :: rest))) := by
      unfold SpecImport.recorded
      rw [hp]
      simp
    refine ⟨c, _, he, hpath.1, ?_, ?_⟩
    · rw [← he, hd]
      cases i.wildcard <;> simp
    · intro d u hdu
      rw [← he, hd] at hdu
      cases hw : i.wildcard with
      | false =>
        rw [hw] at hdu
        simp only [Bool.false_eq_true, if_false, List.cons.injEq] at hdu
        exact Or.inl hdu.1.symm
      | true =>
        rw [hw] at hdu
        simp only [if_true, List.cons.injEq] at hdu
        exact Or.inr hdu.1.symm

/-- The pattern at the head of a statement: the match ends after the semicolon and the
group is the entry of the statement. -/
theorem exec_importRegex_body (i : SpecImport) (rest : List Char)
    (hwf : i.wellFormed = true) :
    Regex.exec importRegex (i.body ++ rest) = some (rest, [(1, i.recorded)]) := by
  simp only [SpecImport.wellFormed, Bool.and_eq_true, Bool.or_eq_true, Bool.not_eq_true',
    List.all_eq_true, List.isEmpty_eq_false] at hwf
  obtain ⟨⟨⟨_, hgap, hgapAll⟩, hstatic⟩, hpath⟩ := hwf
  obtain ⟨c, t, hct, hc, hne, hdrop⟩ := recorded_head i rest hpath
  have hpathrun := run_path_recorded i rest [] hpath
  have hkspace : ∀ (d : Char) (r : List Char) (caps : Captures), reSpace d = true →
      Regex.run
        (Regex.seq
          (Regex.group 1
            (Regex.seq (Regex.cls reIdentStart)
              (Regex.seq (Regex.star (Regex.cls rePathChar))
                (Regex.opt (Regex.seq (Regex.char '.') (Regex.char '*'))))))
          (Regex.char ';'))
        (d :: r) caps (fun r c1 => some (r, c1)) = none := by
    intro d r caps hd
    rw [Regex.run_seq, Regex.run_group, Regex.run_seq, Regex.run_cls_cons,
      reSpace_not_identStart d hd]
    rfl
  have hbody : i.body ++ rest = "import".toList ++ (i.gap ++
      ((if i.isStatic then "static".toList ++ i.staticGap else []) ++
        (i.recorded ++ (';' :: rest)))) := by
    unfold SpecImport.body
    simp
  rw [hbody]
  unfold Regex.exec importRegex
  rw [Regex.run_seq, Regex.run_lit_append, Regex.run_seq]
  cases hs : i.isStatic with
  | true =>
    rw [hs] at hstatic
    have hsg : i.staticGap ≠ [] ∧ ∀ x ∈ i.staticGap, reSpace x = true := by
      rcases hstatic with h | h
      · cases h
      · exact h
    simp only [if_true, List.append_assoc]
    have hst : ("static".toList ++ (i.staticGap ++ (i.recorded ++ ';' :: rest))).dropWhile
        reSpace = "static".toList ++ (i.staticGap ++ (i.recorded ++ ';' :: rest)) :=
      dropWhile_eq_self_of_head reSpace 's'
        ("tatic".toList ++ (i.staticGap ++ (i.recorded ++ ';' :: rest))) (by decide)
    rw [Regex.run_plus_spaces i.gap _ [] _ ?_ hgap hgapAll hst]
    · rw [Regex.run_seq, Regex.run_opt, Regex.run_seq, Regex.run_lit_append,
        Regex.run_plus_spaces i.staticGap _ [] _ hkspace hsg.1 hsg.2 ?_]
      · rw [hpathrun]
      · rw [hct]
        exact dropWhile_eq_self_of_head reSpace c t
          (reIdentChar_not_space c (reIdentStart_identChar c hc))
    · intro d r caps hd
      rw [Regex.run_seq, Regex.run_opt, Regex.run_seq,
        Regex.run_lit_none _ _ _ _ (by
          intro hp
          obtain ⟨u, hu⟩ := hp
          have : d = 's' := by
            have := congrArg List.head? hu
            simpa using this.symm
          exact reSpace_ne_letter d 's' hd (by decide) this)]
      simp only
      exact hkspace d r caps hd
  | false =>
    simp only [Bool.false_eq_true, if_false, List.nil_append]
    rw [Regex.run_plus_spaces i.gap _ [] _ ?_ hgap hgapAll ?_]
    · rw [Regex.run_seq, Regex.run_opt, run_static_none, hpathrun]
      intro d u hdu
      cases hsd : reSpace d with
      | false => rfl
      | true =>
        have h1 := congrArg (List.dropWhile rePathChar) hdu
        rw [dropWhile_append_of_all rePathChar "static".toList (d :: u) (by decide),
          dropWhile_eq_self_of_head rePathChar d u (reSpace_not_pathChar d hsd), hct] at h1
        rcases hdrop d u h1 with h2 | h2 <;> (subst h2; revert hsd; decide)
    · intro d r caps hd
      rw [Regex.run_seq, Regex.run_opt, Regex.run_seq,
        Regex.run_lit_none _ _ _ _ (by
          intro hp
          obtain ⟨u, hu⟩ := hp
          have : d = 's' := by
            have := congrArg List.head? hu
            simpa using this.symm
          exact reSpace_ne_letter d 's' hd (by decide) this)]
      simp only
      exact hkspace d r caps hd
    · rw [hct]
      exact dropWhile_eq_self_of_head reSpace c t
        (reIdentChar_not_space c (reIdentStart_identChar c hc))

/-- A match of the import pattern starts with the word `import`. -/
theorem exec_importRegex_word (s : List Char) (x : List Char × Captures)
    (h : Regex.exec importRegex s = some x) : "import".toList <+: s := by
  by_contra hp
  unfold Regex.exec importRegex at h
  rw [Regex.run_seq, Regex.run_lit_none _ _ _ _ hp] at h
  cases h

/-- A match of the import pattern is not empty. -/
theorem exec_importRegex_length (s rest : List Char) (caps : Captures)
    (h : Regex.exec importRegex s = some (rest, caps)) : rest.length < s.length := by
  obtain ⟨t, ht⟩ := exec_importRegex_word s _ h
  subst ht
  unfold Regex.exec importRegex at h
  rw [Regex.run_seq, Regex.run_lit_append] at h
  obtain ⟨s1, c1, hs1, h1⟩ := Regex.run_suffix _ _ _ _ _ h
  simp only [Option.some.injEq, Prod.mk.injEq] at h1
  have := hs1.length_le
  rw [← h1.1]
  simp only [List.length_append]
  have h6 : "import".toList.length = 6 := rfl
  omega

theorem exec_importRegex_space (c : Char) (t : List Char) (hc : reSpace c = true) :
    Regex.exec importRegex (c :: t) = none := by
  cases h : Regex.exec importRegex (c :: t) with
  | none => rfl
  | some x =>
    obtain ⟨u, hu⟩ := exec_importRegex_word _ _ h
    have : c = 'i' := by
      have := congrArg List.head? hu
      simpa using this.symm
    exact absurd this (reSpace_ne_letter c 'i' hc (by decide))

/-- The matches of the import pattern do not depend on the flag of the loop. -/
theorem findAllLoop_importRegex_flag (fuel : Nat) (afterMatch : Bool) (s : List Char) :
    findAllLoop importRegex fuel afterMatch s = findAllLoop importRegex fuel false s := by
  cases fuel with
  | zero => rfl
  | succ fuel =>
    rw [findAllLoop_succ, findAllLoop_succ]
    cases h : Regex.exec importRegex s with
    | none => rfl
    | some x =>
      obtain ⟨rest, caps⟩ := x
      simp only [if_pos (exec_importRegex_length s rest caps h)]

/-- The loop passes over white space. -/
theorem findAllLoop_importRegex_lead (lead : List Char) (hlead : ∀ x ∈ lead, reSpace x = true)
    (t : List Char) :
    findAllLoop importRegex ((lead ++ t).length + 1) false (lead ++ t) =
      findAllLoop importRegex (t.length + 1) false t := by
  induction lead with
  | nil => rfl
  | cons c r ih =>
    rw [List.cons_append, List.length_cons, findAllLoop_succ,
      exec_importRegex_space c (r ++ t) (hlead c (List.mem_cons_self _ _))]
    exact ih (fun x hx => hlead x (List.mem_cons_of_mem _ hx))

/-- The entries found in a source made of statements: one per statement, then those of
the tail. -/
theorem findAllLoop_importRegex_statements (stmts : List SpecImport)
    (hwf : ∀ i ∈ stmts, i.wellFormed = true) (tail : List Char) :
    (findAllLoop importRegex ((specSource stmts tail).length + 1) false
        (specSource stmts tail)).map (fun m => submatch m.2 1) =
      stmts.map (fun i => String.mk i.recorded) ++
        (findAllLoop importRegex (tail.length + 1) false tail).map (fun m => submatch m.2 1) := by
  induction stmts with
  | nil => rfl
  | cons i rest ih =>
    have hi := hwf i (List.mem_cons_self _ _)
    have hlead : ∀ x ∈ i.lead, reSpace x = true := by
      simp only [SpecImport.wellFormed, Bool.and_eq_true, List.all_eq_true] at hi
      exact hi.1.1.1
    have hexec := exec_importRegex_body i (specSource rest tail) hi
    have hlen := exec_importRegex_length _ _ _ hexec
    rw [specSource, findAllLoop_importRegex_lead i.lead hlead, findAllLoop_succ, hexec]
    simp only [if_pos hlen, List.map_cons, List.cons_append]
    rw [findAllLoop_importRegex_flag,
      findAllLoop_fuel importRegex _ ((specSource rest tail).length + 1) false _ hlen
        (Nat.lt_succ_self _),
      ih (fun j hj => hwf j (List.mem_cons_of_mem _ hj))]
    rfl

theorem findAllLoop_nil_of_no_match (re : Regex) (fuel : Nat) :
    ∀ (afterMatch : Bool) (s : List Char), (∀ t, t <:+ s → Regex.exec re t = none) →
      findAllLoop re fuel afterMatch s = [] := by
  induction fuel with
  | zero => intro afterMatch s _; rfl
  | succ fuel ih =>
    intro afterMatch s h
    rw [findAllLoop_succ, h s (List.suffix_refl s)]
    cases s with
    | nil => rfl
    | cons c t =>
      exact ih false t (fun u hu => h u (hu.trans (List.suffix_cons c t)))

/-- A source that does not contain the word `import` has no entry. -/
theorem extractImports_nil_of_no_word (source : String)
    (h : stringsContains source "import" = false) : extractImports source = [] := by
  unfold extractImports FindAllStringSubmatch
  rw [findAllLoop_nil_of_no_match]
  · rfl
  · intro t ht
    cases he : Regex.exec importRegex t with
    | none => rfl
    | some x =>
      have hp := exec_importRegex_word t x he
      have hin : "import".toList <:+: source.toList := by
        obtain ⟨a, ha⟩ := ht
        obtain ⟨b, hb⟩ := hp
        exact ⟨a, b, by rw [← ha, ← hb]; simp⟩
      have := stringsIndex_isSome_of_contained _ _ hin
      unfold stringsContains at h
      rw [h] at this
      cases this

/-- The entries of a source made of import statements followed by a tail without entry. -/
theorem extractImports_specSource (stmts : List SpecImport) (tail : String)
    (hwf : ∀ i ∈ stmts, i.wellFormed = true) (htail : extractImports tail = []) :
    extractImports (String.mk (specSource stmts tail.toList)) =
      stmts.map (fun i => String.mk i.recorded) := by
  have h := findAllLoop_importRegex_statements stmts hwf tail.toList
  have ht : (findAllLoop importRegex (tail.toList.length + 1) false tail.toList).map
      (fun m => submatch m.2 1) = [] := htail
  rw [ht, List.append_nil] at h
  exact h

theorem isImportPath_dottedPath_aux (w : List Char) (ws : List (List Char)) :
    ∀ (c : Char) (cs : List Char), w = c :: cs → reIdentStart c = true →
      (∀ x ∈ cs, reIdentChar x = true) → (∀ v ∈ ws, isIdentifierText v = true) →
      ∀ x ∈ (dottedPath (w :: ws)).tail, rePathChar x = true := by
  induction ws generalizing w with
  | nil =>
    intro c cs hw _ hcs _ x hx
    rw [dottedPath, hw] at hx
    simp only [List.tail_cons] at hx
    unfold rePathChar
    rw [hcs x hx]
    rfl
  | cons v vs ih =>
    intro c cs hw _ hcs hvs x hx
    have hv := hvs v (List.mem_cons_self _ _)
    cases hv2 : v with
    | nil => rw [hv2] at hv; simp [isIdentifierText] at hv
    | cons d ds =>
      rw [hv2] at hv
      simp only [isIdentifierText, Bool.and_eq_true, List.all_eq_true] at hv
      have ih2 := ih v d ds hv2 hv.1 hv.2 (fun u hu => hvs u (List.mem_cons_of_mem _ hu))
      rw [dottedPath, hw] at hx
      simp only [List.cons_append, List.tail_cons, List.mem_append, List.mem_cons] at hx
      rcases hx with hx | hx | hx
      · unfold rePathChar
        rw [hcs x hx]
        rfl
      · rw [hx]; decide
      · have hd : dottedPath (v :: vs) = d :: (dottedPath (v :: vs)).tail := by
          cases vs with
          | nil => rw [dottedPath, hv2]; rfl
          | cons u us => rw [dottedPath, hv2]; rfl
        rw [hd] at hx
        rcases List.mem_cons.mp hx with h | h
        · rw [h]; exact reIdentStart_pathChar d hv.1
        · exact ih2 x h

/-- A dotted path of identifiers is a path of an import statement. -/
theorem isImportPath_dottedPath (segs : List (List Char)) (hne : segs ≠ [])
    (hall : ∀ w ∈ segs, isIdentifierText w = true) : isImportPath (dottedPath segs) = true := by
  cases segs with
  | nil => exact absurd rfl hne
  | cons w ws =>
    have hw := hall w (List.mem_cons_self _ _)
    cases hw2 : w with
    | nil => rw [hw2] at hw; simp [isIdentifierText] at hw
    | cons c cs =>
      rw [hw2] at hw
      simp only [isIdentifierText, Bool.and_eq_true, List.all_eq_true] at hw
      have htail := isImportPath_dottedPath_aux w ws c cs hw2 hw.1 hw.2
        (fun v hv => hall v (List.mem_cons_of_mem _ hv))
      have hd : dottedPath (w :: ws) = c :: (dottedPath (w :: ws)).tail := by
        cases ws with
        | nil => rw [dottedPath, hw2]; rfl
        | cons u us => rw [dottedPath, hw2]; rfl
      rw [← hw2, hd]
      simp only [isImportPath, Bool.and_eq_true, List.all_eq_true]
      exact ⟨hw.1, htail⟩

theorem GoMap.set_of_not_mem {V : Type} (m : GoMap V) (k : String) (v : V)
    (h : k ∉ m.map Prod.fst) : m.set k v = m ++ [(k, v)] := by
  induction m with
  | nil => rfl
  | cons e r ih =>
    simp only [List.map_cons, List.mem_cons, not_or] at h
    rw [GoMap.set, if_neg (fun he => h.1 he.symm), ih h.2]
    rfl

/-- Assignments to keys that are new and distinct add the entries at the end. -/
theorem foldl_set_of_nodup {V : Type} (l : List (String × V)) :
    ∀ m : GoMap V, ((m ++ l).map Prod.fst).Nodup →
      l.foldl (fun m e => m.set e.1 e.2) m = m ++ l := by
  induction l with
  | nil => intro m _; simp
  | cons x l ih =>
    intro m h
    have hx : x.1 ∉ m.map Prod.fst := by
      simp only [List.map_append, List.map_cons] at h
      have h2 := (List.nodup_append.mp h).2.2
      intro hm
      exact h2 hm (List.mem_cons_self _ _)
    rw [List.foldl_cons, GoMap.set_of_not_mem m x.1 x.2 hx, ih]
    · simp
    · simpa using h

theorem analyzeClass_inheritanceTree_entry (U : UnicodeTables) (o : RangeOrder)
    (result : DependencyAnalysisResult) (entry : String × Option DecompiledClass) :
    (analyzeClass U o result entry).InheritanceTree =
      (entryParents U o entry).foldl (fun m e => m.set e.1 e.2) result.InheritanceTree := by
  obtain ⟨k, c⟩ := entry
  cases c with
  | none => rfl
  | some c =>
    rw [analyzeClass_inheritanceTree]
    simp only [entryParents]
    cases ParseJavaInheritance U c.SourceCode <;> rfl

theorem analyzeClass_interfaceImpls_entry (U : UnicodeTables) (o : RangeOrder)
    (result : DependencyAnalysisResult) (entry : String × Option DecompiledClass) :
    (analyzeClass U o result entry).InterfaceImpls =
      (entryInterfaces U o entry).foldl (fun m e => m.set e.1 e.2) result.InterfaceImpls := by
  obtain ⟨k, c⟩ := entry
  cases c with
  | none => rfl
  | some c =>
    rw [analyzeClass_interfaceImpls]
    simp only [entryInterfaces]
    cases ParseJavaInheritance U c.SourceCode <;> rfl

theorem analyzeClass_importStatements_entry (U : UnicodeTables) (o : RangeOrder)
    (result : DependencyAnalysisResult) (entry : String × Option DecompiledClass) :
    (analyzeClass U o result entry).ImportStatements =
      (entryImports entry).toList.foldl (fun m e => m.set e.1 e.2) result.ImportStatements := by
  obtain ⟨k, c⟩ := entry
  cases c with
  | none => rfl
  | some c =>
    rw [analyzeClass_importStatements]
    rfl

/-- The inheritance map after the loop: the assignments of the units, one after the other. -/
theorem analyzeClasses_inheritanceTree (U : UnicodeTables) (o : RangeOrder)
    (l : List (String × Option DecompiledClass)) :
    ∀ result : DependencyAnalysisResult,
      (analyzeClasses U o l result).InheritanceTree =
        (l.flatMap (entryParents U o)).foldl (fun m e => m.set e.1 e.2)
          result.InheritanceTree := by
  induction l with
  | nil => intro result; rfl
  | cons x l ih =>
    intro result
    rw [analyzeClasses_cons, ih, analyzeClass_inheritanceTree_entry, List.flatMap_cons,
      List.foldl_append]

theorem analyzeClasses_interfaceImpls (U : UnicodeTables) (o : RangeOrder)
    (l : List (String × Option DecompiledClass)) :
    ∀ result : DependencyAnalysisResult,
      (analyzeClasses U o l result).InterfaceImpls =
        (l.flatMap (entryInterfaces U o)).foldl (fun m e => m.set e.1 e.2)
          result.InterfaceImpls := by
  induction l with
  | nil => intro result; rfl
  | cons x l ih =>
    intro result
    rw [analyzeClasses_cons, ih, analyzeClass_interfaceImpls_entry, List.flatMap_cons,
      List.foldl_append]

theorem analyzeClasses_importStatements (U : UnicodeTables) (o : RangeOrder)
    (l : List (String × Option DecompiledClass)) :
    ∀ result : DependencyAnalysisResult,
      (analyzeClasses U o l result).ImportStatements =
        (l.flatMap (fun e => (entryImports e).toList)).foldl (fun m e => m.set e.1 e.2)
          result.ImportStatements := by
  induction l with
  | nil => intro result; rfl
  | cons x l ih =>
    intro result
    rw [analyzeClasses_cons, ih, analyzeClass_importStatements_entry, List.flatMap_cons,
      List.foldl_append]

theorem entryParents_perm (U : UnicodeTables) (o : RangeOrder)
    (entry : String × Option DecompiledClass) :
    (entryParents U o entry).Perm (entryParents U storedOrder entry) := by
  unfold entryParents
  cases entry.2 with
  | none => exact List.Perm.refl _
  | some c =>
    simp only
    cases ParseJavaInheritance U c.SourceCode with
    | error e => exact List.Perm.refl _
    | ok maps => exact o.perm maps.1

theorem entryInterfaces_perm (U : UnicodeTables) (o : RangeOrder)
    (entry : String × Option DecompiledClass) :
    (entryInterfaces U o entry).Perm (entryInterfaces U storedOrder entry) := by
  unfold entryInterfaces
  cases entry.2 with
  | none => exact List.Perm.refl _
  | some c =>
    simp only
    cases ParseJavaInheritance U c.SourceCode with
    | error e => exact List.Perm.refl _
    | ok maps => exact o.perm maps.2

theorem flatMap_entryParents_perm (U : UnicodeTables) (o : RangeOrder)
    (classes : GoMap (Option DecompiledClass)) :
    ((o.order classes).flatMap (entryParents U o)).Perm (recordedParents U classes) :=
  ((o.perm classes).flatMap_right _).trans
    (List.Perm.flatMap_left _ (fun e _ => entryParents_perm U o e))

theorem flatMap_entryInterfaces_perm (U : UnicodeTables) (o : RangeOrder)
    (classes : GoMap (Option DecompiledClass)) :
    ((o.order classes).flatMap (entryInterfaces U o)).Perm (recordedInterfaces U classes) :=
  ((o.perm classes).flatMap_right _).trans
    (List.Perm.flatMap_left _ (fun e _ => entryInterfaces_perm U o e))

theorem entryImports_keys (l : List (String × Option DecompiledClass)) :
    ((l.flatMap (fun e => (entryImports e).toList)).map Prod.fst).Sublist (l.map Prod.fst) := by
  induction l with
  | nil => exact List.Sublist.refl _
  | cons x l ih =>
    obtain ⟨k, c⟩ := x
    cases c with
    | none => exact List.Sublist.cons _ ih
    | some c => exact List.Sublist.cons₂ _ ih

/-- With distinct recorded names, the inheritance map of the result is a rearrangement of
the parents recorded by the units. -/
theorem inheritanceTree_perm (U : UnicodeTables) (o : RangeOrder)
    (classes : GoMap (Option DecompiledClass))
    (h : ((recordedParents U classes).map Prod.fst).Nodup) :
    (analyzeClasses U o (o.order classes) {}).InheritanceTree.Perm
      (recordedParents U classes) := by
  have hp := flatMap_entryParents_perm U o classes
  rw [analyzeClasses_inheritanceTree, foldl_set_of_nodup]
  · exact hp
  · exact ((hp.map Prod.fst).nodup_iff).mpr h

theorem interfaceImpls_perm (U : UnicodeTables) (o : RangeOrder)
    (classes : GoMap (Option DecompiledClass))
    (h : ((recordedInterfaces U classes).map Prod.fst).Nodup) :
    (analyzeClasses U o (o.order classes) {}).InterfaceImpls.Perm
      (recordedInterfaces U classes) := by
  have hp := flatMap_entryInterfaces_perm U o classes
  rw [analyzeClasses_interfaceImpls, foldl_set_of_nodup]
  · exact hp
  · exact ((hp.map Prod.fst).nodup_iff).mpr h

theorem importStatements_perm (U : UnicodeTables) (o : RangeOrder)
    (classes : GoMap (Option DecompiledClass)) (h : (classes.map Prod.fst).Nodup) :
    (analyzeClasses U o (o.order classes) {}).ImportStatements.Perm
      (classes.flatMap (fun e => (entryImports e).toList)) := by
  have hp : ((o.order classes).flatMap (fun e => (entryImports e).toList)).Perm
      (classes.flatMap (fun e => (entryImports e).toList)) := (o.perm classes).flatMap_right _
  rw [analyzeClasses_importStatements, foldl_set_of_nodup]
  · exact hp
  · exact ((hp.map Prod.fst).nodup_iff).mpr ((entryImports_keys classes).nodup h)

/-- With distinct keys and distinct recorded names, the edges of the result are a
rearrangement of a list that does not depend on the order of the iterations. -/
theorem classDependencies_perm (U : UnicodeTables) (o : RangeOrder)
    (classes : GoMap (Option DecompiledClass)) (hkeys : (classes.map Prod.fst).Nodup)
    (hparents : ((recordedParents U classes).map Prod.fst).Nodup)
    (hifaces : ((recordedInterfaces U classes).map Prod.fst).Nodup) :
    (buildClassDependencies o (analyzeClasses U o (o.order classes) {})).ClassDependencies.Perm
      (classes.flatMap entryFieldEdges ++
        (recordedParents U classes).map (fun e =>
          ({ FromClass := e.1, ToClass := e.2, DepType := "extends" } : ClassDependency)) ++
        (recordedInterfaces U classes).flatMap (fun e => e.2.map (fun iface =>
          ({ FromClass := e.1, ToClass := iface, DepType := "implements" } : ClassDependency))) ++
        (classes.flatMap (fun e => (entryImports e).toList)).flatMap (fun e =>
          e.2.flatMap (fun importPath => importDependency e.1 importPath))) := by
  rw [buildClassDependencies_deps, analyzeClasses_deps]
  refine List.Perm.append (List.Perm.append (List.Perm.append ?_ ?_) ?_) ?_
  · exact (o.perm classes).flatMap_right _
  · exact ((o.perm _).trans (inheritanceTree_perm U o classes hparents)).map _
  · exact ((o.perm _).trans (interfaceImpls_perm U o classes hifaces)).flatMap_right _
  · exact ((o.perm _).trans (importStatements_perm U o classes hkeys)).flatMap_right _

theorem methodCalls_perm (U : UnicodeTables) (o : RangeOrder)
    (classes : GoMap (Option DecompiledClass)) :
    (buildClassDependencies o (analyzeClasses U o (o.order classes) {})).MethodCalls.Perm
      (classes.flatMap entryCalls) := by
  show (analyzeClasses U o (o.order classes) {}).MethodCalls.Perm _
  rw [analyzeClasses_calls]
  exact (o.perm classes).flatMap_right _

theorem validateMethods_none (l : List DecompiledMethod) :
    ∀ i : Nat, validateMethods i l = none ↔ ∀ m ∈ l, m.Name ≠ "" := by
  induction l with
  | nil => intro i; simp [validateMethods]
  | cons m rest ih =>
    intro i
    simp only [validateMethods]
    by_cases h : m.Name = ""
    · simp [h]
    · simp [h, ih (i + 1)]

theorem validateFields_none (l : List DecompiledField) :
    ∀ i : Nat, validateFields i l = none ↔ ∀ f ∈ l, f.Name ≠ "" := by
  induction l with
  | nil => intro i; simp [validateFields]
  | cons f rest ih =>
    intro i
    simp only [validateFields]
    by_cases h : f.Name = ""
    · simp [h]
    · simp [h, ih (i + 1)]

theorem validateMethods_first (before : List DecompiledMethod) :
    ∀ (i : Nat) (m : DecompiledMethod) (after : List DecompiledMethod),
      (∀ x ∈ before, x.Name ≠ "") → m.Name = "" →
      validateMethods i (before ++ m :: after) =
        some ("method name at index " ++ fmtIndex (i + before.length) ++ " cannot be empty") := by
  induction before with
  | nil => intro i m after _ hm; simp [validateMethods, hm]
  | cons x rest ih =>
    intro i m after hb hm
    have hx : x.Name ≠ "" := hb x (List.mem_cons_self _ _)
    rw [List.cons_append, validateMethods, if_neg hx,
      ih (i + 1) m after (fun y hy => hb y (List.mem_cons_of_mem _ hy)) hm]
    simp only [List.length_cons]
    have : i + 1 + rest.length = i + (rest.length + 1) := by omega
    rw [this]

theorem validateFields_first (before : List DecompiledField) :
    ∀ (i : Nat) (f : DecompiledField) (after : List DecompiledField),
      (∀ x ∈ before, x.Name ≠ "") → f.Name = "" →
      validateFields i (before ++ f :: after) =
        some ("field name at index " ++ fmtIndex (i + before.length) ++ " cannot be empty") := by
  induction before with
  | nil => intro i f after _ hf; simp [validateFields, hf]
  | cons x rest ih =>
    intro i f after hb hf
    have hx : x.Name ≠ "" := hb x (List.mem_cons_self _ _)
    rw [List.cons_append, validateFields, if_neg hx,
      ih (i + 1) f after (fun y hy => hb y (List.mem_cons_of_mem _ hy)) hf]
    simp only [List.length_cons]
    have : i + 1 + rest.length = i + (rest.length + 1) := by omega
    rw [this]

/-- Where the entries of a map come from after a run of assignments. -/
theorem mem_foldl_set {V : Type} (l : List (String × V)) :
    ∀ (m : GoMap V) (e : String × V),
      e ∈ l.foldl (fun m e => m.set e.1 e.2) m → e ∈ m ∨ e ∈ l := by
  induction l with
  | nil => intro m e h; exact Or.inl h
  | cons x l ih =>
    intro m e h
    rcases ih (m.set x.1 x.2) e h with h1 | h1
    · have h2 : e ∈ m ∨ e = x := by
        clear h ih
        induction m with
        | nil =>
          simp only [GoMap.set, List.mem_singleton] at h1
          exact Or.inr h1
        | cons y r ihm =>
          simp only [GoMap.set] at h1
          split_ifs at h1
          · rcases List.mem_cons.mp h1 with h3 | h3
            · exact Or.inr h3
            · exact Or.inl (List.mem_cons_of_mem _ h3)
          · rcases List.mem_cons.mp h1 with h3 | h3
            · exact Or.inl (h3 ▸ List.mem_cons_self _ _)
            · rcases ihm h3 with h4 | h4
              · exact Or.inl (List.mem_cons_of_mem _ h4)
              · exact Or.inr h4
      rcases h2 with h3 | h3
      · exact Or.inl h3
      · exact Or.inr (h3 ▸ List.mem_cons_self _ _)
    · exact Or.inr (List.mem_cons_of_mem _ h1)

/-- The value of a key after a run of assignments: that of the last assignment to the key. -/
theorem get?_foldl_set {V : Type} (l : List (String × V)) :
    ∀ (m : GoMap V) (k : String),
      (l.foldl (fun m e => m.set e.1 e.2) m).get? k =
        match (l.filter (fun e => decide (e.1 = k))).getLast? with
        | some e => some e.2
        | none => m.get? k := by
  induction l with
  | nil => intro m k; rfl
  | cons x l ih =>
    intro m k
    rw [List.foldl_cons, ih, GoMap.get?_set]
    by_cases hx : x.1 = k
    · have hf : (x :: l).filter (fun e => decide (e.1 = k)) =
          x :: l.filter (fun e => decide (e.1 = k)) := by
        rw [List.filter_cons_of_pos (by simpa using hx)]
      rw [hf]
      cases hl : l.filter (fun e => decide (e.1 = k)) with
      | nil => simp [hx]
      | cons y t =>
        rw [List.getLast?_cons_cons]
        cases hg : (y :: t).getLast? with
        | none => simp at hg
        | some e => rfl
    · have hf : (x :: l).filter (fun e => decide (e.1 = k)) =
          l.filter (fun e => decide (e.1 = k)) := by
        rw [List.filter_cons_of_neg (by simpa using hx)]
      rw [hf]
      have : ¬ k = x.1 := fun h => hx h.symm
      simp [this]

/-- The inheritance map that `ParseJavaInheritance` builds from the declarations. -/
theorem inheritance_fold_fst (ds : List ClassDeclaration) :
    ∀ acc : GoMap String × GoMap (List String),
      (ds.foldl
        (fun (acc : GoMap String × GoMap (List String)) decl =>
          ((if decl.ParentClass ≠ "" then acc.1.set decl.Name decl.ParentClass else acc.1),
           (if decl.Interfaces.length > 0 then acc.2.set decl.Name decl.Interfaces else acc.2)))
        acc).1 =
      (((ds.filter (fun d => decide (d.ParentClass ≠ ""))).map
        (fun d => (d.Name, d.ParentClass))).foldl (fun m e => m.set e.1 e.2) acc.1) := by
  induction ds with
  | nil => intro acc; rfl
  | cons d ds ih =>
    intro acc
    rw [List.foldl_cons, ih]
    by_cases hd : d.ParentClass = ""
    · simp [hd]
    · simp [hd]

/-- The interface map that `ParseJavaInheritance` builds from the declarations. -/
theorem inheritance_fold_snd (ds : List ClassDeclaration) :
    ∀ acc : GoMap String × GoMap (List String),
      (ds.foldl
        (fun (acc : GoMap String × GoMap (List String)) decl =>
          ((if decl.ParentClass ≠ "" then acc.1.set decl.Name decl.ParentClass else acc.1),
           (if decl.Interfaces.length > 0 then acc.2.set decl.Name decl.Interfaces else acc.2)))
        acc).2 =
      (((ds.filter (fun d => decide (d.Interfaces ≠ []))).map
        (fun d => (d.Name, d.Interfaces))).foldl (fun m e => m.set e.1 e.2) acc.2) := by
  induction ds with
  | nil => intro acc; rfl
  | cons d ds ih =>
    intro acc
    rw [List.foldl_cons, ih]
    by_cases hd : d.Interfaces = []
    · simp [hd]
    · have : d.Interfaces.length > 0 := List.length_pos.mpr hd
      simp [hd, this]

theorem getLast?_filter_map {α β : Type} (p q : α → Bool) (f : α → β) (g : β → Bool)
    (l : List α) (h : ∀ a, g (f a) = q a) :
    (((l.filter p).map f).filter g).getLast? =
      ((l.filter (fun a => p a && q a)).getLast?).map f := by
  have : ((l.filter p).map f).filter g = (l.filter (fun a => p a && q a)).map f := by
    induction l with
    | nil => rfl
    | cons a t ih =>
      by_cases hp : p a = true
      · by_cases hq : q a = true
        · have hg : g (f a) = true := by rw [h, hq]
          simp [List.filter_cons, hp, hq, hg, ih]
        · have hg : ¬ g (f a) = true := by rw [h]; exact hq
          simp [List.filter_cons, hp, hq, hg, ih]
      · simp [List.filter_cons, hp, ih]
  rw [this, List.getLast?_map]

/-- The membership of an edge in the result of `buildClassDependencies`. -/
theorem mem_build_iff (o : RangeOrder) (result : DependencyAnalysisResult)
    (d : ClassDependency) :
    d ∈ (buildClassDependencies o result).ClassDependencies ↔
      d ∈ result.ClassDependencies ∨
      (∃ e ∈ result.InheritanceTree,
        d = { FromClass := e.1, ToClass := e.2, DepType := "extends" }) ∨
      (∃ e ∈ result.InterfaceImpls, ∃ iface ∈ e.2,
        d = { FromClass := e.1, ToClass := iface, DepType := "implements" }) ∨
      (∃ e ∈ result.ImportStatements, ∃ importPath ∈ e.2,
        d ∈ importDependency e.1 importPath) := by
  rw [buildClassDependencies_deps]
  simp only [List.mem_append, List.mem_map, List.mem_flatMap, o.mem_order, or_assoc]
  constructor
  · rintro (h | ⟨e, he, rfl⟩ | ⟨e, he, i, hi, rfl⟩ | ⟨e, he, i, hi, hd⟩)
    · exact Or.inl h
    · exact Or.inr (Or.inl ⟨e, he, rfl⟩)
    · exact Or.inr (Or.inr (Or.inl ⟨e, he, i, hi, rfl⟩))
    · exact Or.inr (Or.inr (Or.inr ⟨e, he, i, hi, hd⟩))
  · rintro (h | ⟨e, he, rfl⟩ | ⟨e, he, i, hi, rfl⟩ | ⟨e, he, i, hi, hd⟩)
    · exact Or.inl h
    · exact Or.inr (Or.inl ⟨e, he, rfl⟩)
    · exact Or.inr (Or.inr (Or.inl ⟨e, he, i, hi, rfl⟩))
    · exact Or.inr (Or.inr (Or.inr ⟨e, he, i, hi, hd⟩))

theorem entryFieldEdges_depType (entry : String × Option DecompiledClass) (d : ClassDependency)
    (h : d ∈ entryFieldEdges entry) : d.DepType = "uses_field" := by
  unfold entryFieldEdges at h
  cases h2 : entry.2 with
  | none => rw [h2] at h; cases h
  | some c =>
    rw [h2] at h
    simp only [List.mem_flatMap] at h
    obtain ⟨f, _, hf⟩ := h
    exact fieldDependency_depType c f d hf

theorem fieldDependency_fromClass (classInfo : DecompiledClass) (field : DecompiledField)
    (d : ClassDependency) (h : d ∈ fieldDependency classInfo field) :
    d.FromClass = classInfo.ClassName := by
  unfold fieldDependency at h
  split_ifs at h
  · simp only [List.mem_singleton] at h
    rw [h]
  · simp at h

theorem importDependency_fromClass (cls importPath : String) (d : ClassDependency)
    (h : d ∈ importDependency cls importPath) : d.FromClass = cls := by
  unfold importDependency at h
  split at h
  · simp at h
  · split_ifs at h
    · simp only [List.mem_singleton] at h
      rw [h]
    · simp at h

/-- The two maps of `ParseJavaInheritance` for the declarations `ds`. -/
theorem ParseJavaInheritance_of_ok (U : UnicodeTables) (source : String)
    (ds : List ClassDeclaration)
    (h : (ParseClassDeclarations (NewJavaASTParser U source)).1 = Except.ok ds) :
    ParseJavaInheritance U source = Except.ok
      ((((ds.filter (fun d => decide (d.ParentClass ≠ ""))).map
          (fun d => (d.Name, d.ParentClass))).foldl (fun m e => GoMap.set m e.1 e.2) []),
       (((ds.filter (fun d => decide (d.Interfaces ≠ []))).map
          (fun d => (d.Name, d.Interfaces))).foldl (fun m e => GoMap.set m e.1 e.2) [])) := by
  unfold ParseJavaInheritance
  rw [h]
  simp only
  congr 1
  exact Prod.ext (inheritance_fold_fst ds ([], [])) (inheritance_fold_snd ds ([], []))

theorem ParseJavaInheritance_of_error (U : UnicodeTables) (source e : String)
    (h : (ParseClassDeclarations (NewJavaASTParser U source)).1 = Except.error e) :
    ParseJavaInheritance U source =
      Except.error ("failed to parse class declarations: " ++ e) := by
  unfold ParseJavaInheritance
  rw [h]

/-- Lookup in a map built by assignments of `f d` to `key d` for the elements that pass
`p`: the value of the last such element with that key. -/
theorem get?_foldl_set_filter_map {α V : Type} (l : List α) (p : α → Bool)
    (key : α → String) (f : α → V) (n : String) :
    GoMap.get? (((l.filter p).map (fun d => (key d, f d))).foldl
        (fun m e => GoMap.set m e.1 e.2) []) n =
      ((l.filter (fun d => p d && decide (key d = n))).getLast?).map f := by
  rw [get?_foldl_set,
    getLast?_filter_map p (fun d => decide (key d = n)) (fun d => (key d, f d))
      (fun e => decide (e.1 = n)) l (fun _ => rfl)]
  cases (l.filter (fun d => p d && decide (key d = n))).getLast? with
  | none => rfl
  | some d => rfl

theorem keys_foldl_set_filter_map {α V : Type} (l : List α) (p : α → Bool)
    (key : α → String) (f : α → V) (n : String) :
    n ∈ (((l.filter p).map (fun d => (key d, f d))).foldl
        (fun m e => GoMap.set m e.1 e.2) []).map Prod.fst ↔
      ∃ d ∈ l, key d = n ∧ p d = true := by
  have h := get?_foldl_set_filter_map l p key f n
  have hk := GoMap.get?_eq_none_iff
    (((l.filter p).map (fun d => (key d, f d))).foldl (fun m e => GoMap.set m e.1 e.2) []) n
  rw [h] at hk
  constructor
  · intro hn
    by_contra hne
    apply hk.mp _ hn
    have : l.filter (fun d => p d && decide (key d = n)) = [] := by
      rw [List.filter_eq_nil_iff]
      intro d hd hpd
      simp only [Bool.and_eq_true, decide_eq_true_eq] at hpd
      exact hne ⟨d, hd, hpd.2, hpd.1⟩
    rw [this]
    rfl
  · rintro ⟨d, hd, hkd, hpd⟩
    by_contra hn
    have hnone := hk.mpr hn
    have hmem : d ∈ l.filter (fun d => p d && decide (key d = n)) := by
      rw [List.mem_filter]
      exact ⟨hd, by simp [hpd, hkd]⟩
    cases hl : l.filter (fun d => p d && decide (key d = n)) with
    | nil => rw [hl] at hmem; cases hmem
    | cons x t =>
      rw [hl] at hnone
      cases hg : (x :: t).getLast? with
      | none => simp at hg
      | some e => rw [hg] at hnone; cases hnone

theorem head_append (a b : String) (c : Char) (h : a.data.head? = some c) :
    (a ++ b).data.head? = some c := by
  rw [String.data_append]
  cases ha : a.data with
  | nil => rw [ha] at h; cases h
  | cons x t => rw [ha] at h; exact h

/-- The messages of `parseIdentifier` start with `expected`. -/
theorem parseIdentifierLoop_error_head (n : Nat) :
    ∀ (p p1 : JavaASTParser) (identifier e : String), p.length ≤ n →
      parseIdentifierLoop identifier p = (Except.error e, p1) → e.data.head? = some 'e' := by
  induction n using Nat.strong_induction_on with
  | _ n ih =>
    intro p p1 identifier e hn h
    match p with
    | [] => simp [parseIdentifierLoop] at h
    | [t] =>
      unfold parseIdentifierLoop at h
      by_cases h1 : t.tok = JavaToken.TOKEN_OPERATOR ∧ t.text = "."
      · rw [if_pos h1] at h
        simp only [Prod.mk.injEq, Except.error.injEq] at h
        rw [← h.1]
        exact head_append _ _ 'e' rfl
      · rw [if_neg h1] at h
        simp at h
    | t :: u :: rest =>
      unfold parseIdentifierLoop at h
      by_cases h1 : t.tok = JavaToken.TOKEN_OPERATOR ∧ t.text = "."
      · rw [if_pos h1] at h
        by_cases h2 : u.tok = JavaToken.TOKEN_IDENTIFIER
        · simp only [ne_eq, h2, not_true_eq_false, ↓reduceIte] at h
          exact ih rest.length (by simp only [List.length_cons] at hn; omega) rest p1
            (identifier ++ "." ++ u.text) e (le_refl _) h
        · simp only [ne_eq, h2, not_false_eq_true, ↓reduceIte, Prod.mk.injEq,
            Except.error.injEq] at h
          rw [← h.1]
          exact head_append _ _ 'e' rfl
      · rw [if_neg h1] at h
        cases h

theorem parseIdentifier_error_head (p p1 : JavaASTParser) (e : String)
    (h : parseIdentifier p = (Except.error e, p1)) : e.data.head? = some 'e' := by
  unfold parseIdentifier at h
  split_ifs at h
  · simp only [Prod.mk.injEq, Except.error.injEq] at h
    rw [← h.1]
    exact head_append _ _ 'e' rfl
  · exact parseIdentifierLoop_error_head _ _ p1 _ e (le_refl _) h

/-- With enough fuel the loop of `parseInterfaceList` fails with a message of
`parseIdentifier` only. -/
theorem parseInterfaceListLoop_error_head (fuel : Nat) :
    ∀ (interfaces : List String) (p p1 : JavaASTParser) (e : String), p.length < fuel →
      parseInterfaceListLoop fuel interfaces p = (Except.error e, p1) →
      e.data.head? = some 'e' := by
  induction fuel with
  | zero => intro interfaces p p1 e h; omega
  | succ fuel ih =>
    intro interfaces p p1 e hf h
    rw [parseInterfaceListLoop] at h
    split at h
    · rename_i e2 p2 heq
      simp only [Prod.mk.injEq, Except.error.injEq] at h
      rw [← h.1]
      exact parseIdentifier_error_head p p2 e2 heq
    · rename_i name p2 heq
      have h1 := parseIdentifier_ok_length p p2 name heq
      have h2 := parseTypeParameters_length p2
      have h4 : (nextToken (parseTypeParameters p2)).length ≤
          (parseTypeParameters p2).length := by
        simp [nextToken]
      split_ifs at h
      · exact ih _ _ p1 e (by omega) h
      · cases h

/-- The method `parseInterfaceList` never runs out of fuel. -/
theorem parseInterfaceList_error_head (p p1 : JavaASTParser) (e : String)
    (h : parseInterfaceList p = (Except.error e, p1)) : e.data.head? = some 'e' :=
  parseInterfaceListLoop_error_head _ [] p p1 e (Nat.lt_succ_self _) h

theorem parseImplementsClause_error_head (decl : ClassDeclaration) (p p1 : JavaASTParser)
    (e : String) (h : parseImplementsClause decl p = (Except.error e, p1)) :
    e.data.head? = some 'f' := by
  unfold parseImplementsClause at h
  split_ifs at h
  · split at h
    · simp only [Prod.mk.injEq, Except.error.injEq] at h
      rw [← h.1]
      exact head_append _ _ 'f' rfl
    · cases h
  · cases h

theorem parseExtendsClause_error_head (decl : ClassDeclaration) (p p1 : JavaASTParser)
    (e : String) (h : parseExtendsClause decl p = (Except.error e, p1)) :
    e.data.head? = some 'f' := by
  unfold parseExtendsClause at h
  split_ifs at h
  · split at h
    · simp only [Prod.mk.injEq, Except.error.injEq] at h
      rw [← h.1]
      exact head_append _ _ 'f' rfl
    · exact parseImplementsClause_error_head _ _ p1 e h
  · exact parseImplementsClause_error_head _ _ p1 e h

theorem parseClassName_error_head (decl : ClassDeclaration) (p p1 : JavaASTParser)
    (e : String) (h : parseClassName decl p = (Except.error e, p1)) :
    e.data.head? = some 'f' := by
  unfold parseClassName at h
  split at h
  · simp only [Prod.mk.injEq, Except.error.injEq] at h
    rw [← h.1]
    exact head_append _ _ 'f' rfl
  · exact parseExtendsClause_error_head _ _ p1 e h

theorem parseClassDeclarationLoop_error_head (p : JavaASTParser) :
    ∀ (decl : ClassDeclaration) (p1 : JavaASTParser) (e : String),
      parseClassDeclarationLoop decl p = (Except.error e, p1) →
      e.data.head? = some 'f' ∨ e.data.head? = some 'u' := by
  induction p with
  | nil =>
    intro decl p1 e h
    exact Or.inl (parseClassName_error_head decl [] p1 e h)
  | cons t rest ih =>
    intro decl p1 e h
    simp only [parseClassDeclarationLoop] at h
    split_ifs at h
    · exact ih _ p1 e h
    · exact Or.inl (parseClassName_error_head _ _ p1 e h)
    · simp only [Prod.mk.injEq, Except.error.injEq] at h
      rw [← h.1]
      exact Or.inr (head_append _ _ 'u' rfl)
    · exact Or.inl (parseClassName_error_head _ _ p1 e h)

/-- The messages of `parseClassDeclaration` start with `failed` or `unexpected`. -/
theorem parseClassDeclaration_error_head (p p1 : JavaASTParser) (e : String)
    (h : parseClassDeclaration p = (Except.error e, p1)) :
    e.data.head? = some 'f' ∨ e.data.head? = some 'u' :=
  parseClassDeclarationLoop_error_head p {} p1 e h

/-- With more fuel than tokens, the scan loop fails with a message of
`parseClassDeclaration` only. -/
theorem ParseClassDeclarationsLoop_error_head (fuel : Nat) :
    ∀ (declarations : List ClassDeclaration) (p : JavaASTParser) (e : String),
      p.length < fuel → (ParseClassDeclarationsLoop fuel declarations p).1 = Except.error e →
      e.data.head? = some 'f' ∨ e.data.head? = some 'u' := by
  induction fuel with
  | zero => intro declarations p e h; omega
  | succ fuel ih =>
    intro declarations p e hf h
    rw [ParseClassDeclarationsLoop] at h
    have hnext : (nextToken p).length ≤ p.length - 1 := by
      cases p <;> simp [nextToken]
    by_cases h1 : currentTok p = JavaToken.TOKEN_EOF
    · rw [if_pos h1] at h
      simp at h
    · rw [if_neg h1] at h
      by_cases h2 : atClassKeyword p = true
      · rw [if_pos h2] at h
        have hlt := parseClassDeclaration_length_lt p (Or.inl h2)
        cases heq : parseClassDeclaration p with
        | mk r p1 =>
          rw [heq] at h hlt
          cases r with
          | error e2 =>
            simp only [Except.error.injEq] at h
            rw [← h]
            exact parseClassDeclaration_error_head p p1 e2 heq
          | ok decl =>
            simp only at h hlt
            have := skipToNextDeclaration_length p1
            exact ih _ _ e (by omega) h
      · rw [if_neg h2] at h
        by_cases h3 : currentTok p = JavaToken.TOKEN_KEYWORD ∧
            isModifierText (currentText p) = true
        · rw [if_pos h3] at h
          have hlt := parseClassDeclaration_length_lt p (Or.inr h3)
          cases heq : parseClassDeclaration p with
          | mk r p1 =>
            rw [heq] at h hlt
            cases r with
            | error e2 =>
              simp only at h hlt
              have : (nextToken p1).length ≤ p1.length := by simp [nextToken]
              exact ih _ _ e (by omega) h
            | ok decl =>
              simp only at h hlt
              have := skipToNextDeclaration_length p1
              exact ih _ _ e (by omega) h
        · rw [if_neg h3] at h
          have hp : 0 < p.length := by
            cases p with
            | nil => simp [currentTok] at h1
            | cons t r => simp
          exact ih _ _ e (by omega) h

/-- A scan that returns declarations has reached the end of the input. -/
theorem ParseClassDeclarationsLoop_ok_eof (fuel : Nat) :
    ∀ (declarations ds : List ClassDeclaration) (p : JavaASTParser),
      (ParseClassDeclarationsLoop fuel declarations p).1 = Except.ok ds →
      currentTok (ParseClassDeclarationsLoop fuel declarations p).2 = JavaToken.TOKEN_EOF := by
  induction fuel with
  | zero => intro declarations ds p h; simp [ParseClassDeclarationsLoop] at h
  | succ fuel ih =>
    intro declarations ds p h
    rw [ParseClassDeclarationsLoop] at h ⊢
    by_cases h1 : currentTok p = JavaToken.TOKEN_EOF
    · rw [if_pos h1]
      exact h1
    · rw [if_neg h1] at h ⊢
      by_cases h2 : atClassKeyword p = true
      · rw [if_pos h2] at h ⊢
        cases heq : parseClassDeclaration p with
        | mk r p1 =>
          rw [heq] at h
          cases r with
          | error e2 => simp at h
          | ok decl =>
            simp only at h ⊢
            exact ih _ ds _ h
      · rw [if_neg h2] at h ⊢
        by_cases h3 : currentTok p = JavaToken.TOKEN_KEYWORD ∧
            isModifierText (currentText p) = true
        · rw [if_pos h3] at h ⊢
          cases heq : parseClassDeclaration p with
          | mk r p1 =>
            rw [heq] at h
            cases r with
            | error e2 =>
              simp only at h ⊢
              exact ih _ ds _ h
            | ok decl =>
              simp only at h ⊢
              exact ih _ ds _ h
        · rw [if_neg h3] at h ⊢
          exact ih _ ds _ h

/-- The remaining tokens of a scan are tokens of the input. -/
theorem skipToNextDeclaration_suffix (p : JavaASTParser) : skipToNextDeclaration p <:+ p := by
  induction p with
  | nil => exact List.suffix_refl _
  | cons t rest ih =>
    simp only [skipToNextDeclaration]
    split_ifs
    · exact ih.trans (List.suffix_cons t rest)
    · exact List.suffix_refl _

theorem tokenStreamAux_no_eof (U : UnicodeTables) (fuel : Nat) :
    ∀ (l : JavaLexer), ∀ t ∈ tokenStreamAux U fuel l, t.tok ≠ JavaToken.TOKEN_EOF := by
  induction fuel with
  | zero => intro l t h; simp [tokenStreamAux] at h
  | succ fuel ih =>
    intro l t h
    rw [tokenStreamAux] at h
    split_ifs at h with h1
    · cases h
    · rcases List.mem_cons.mp h with h2 | h2
      · rw [h2]; exact h1
      · exact ih _ t h2

/-- No token of a parser made by `NewJavaASTParser` is of kind `TOKEN_EOF`. -/
theorem NewJavaASTParser_no_eof (U : UnicodeTables) (source : String) :
    ∀ t ∈ NewJavaASTParser U source, t.tok ≠ JavaToken.TOKEN_EOF := by
  intro t ht
  unfold NewJavaASTParser at ht
  exact tokenStreamAux_no_eof U _ _ t (List.mem_of_mem_filter ht)

theorem parseIdentifierLoop_suffix (n : Nat) :
    ∀ (p : JavaASTParser) (identifier : String), p.length ≤ n →
      (parseIdentifierLoop identifier p).2 <:+ p := by
  induction n using Nat.strong_induction_on with
  | _ n ih =>
    intro p identifier hn
    match p with
    | [] => simp [parseIdentifierLoop]
    | [t] =>
      unfold parseIdentifierLoop
      split_ifs <;> simp
    | t :: u :: rest =>
      unfold parseIdentifierLoop
      by_cases h1 : t.tok = JavaToken.TOKEN_OPERATOR ∧ t.text = "."
      · rw [if_pos h1]
        by_cases h2 : u.tok = JavaToken.TOKEN_IDENTIFIER
        · simp only [ne_eq, h2, not_true_eq_false, ↓reduceIte]
          have := ih rest.length (by simp only [List.length_cons] at hn; omega) rest
            (identifier ++ "." ++ u.text) (le_refl _)
          exact this.trans ((List.suffix_cons u rest).trans (List.suffix_cons t _))
        · simp only [ne_eq, h2, not_false_eq_true, ↓reduceIte]
          exact List.suffix_cons t _
      · rw [if_neg h1]

theorem nextToken_suffix (p : JavaASTParser) : nextToken p <:+ p := by
  cases p with
  | nil => exact List.suffix_refl _
  | cons t r => exact List.suffix_cons t r

theorem parseIdentifier_suffix (p : JavaASTParser) : (parseIdentifier p).2 <:+ p := by
  unfold parseIdentifier
  split_ifs
  · exact List.suffix_refl _
  · exact (parseIdentifierLoop_suffix _ (nextToken p) (currentText p) (le_refl _)).trans
      (nextToken_suffix p)

theorem parseTypeParametersLoop_suffix (p : JavaASTParser) :
    ∀ depth : Nat, parseTypeParametersLoop depth p <:+ p := by
  induction p with
  | nil => intro depth; cases depth <;> simp [parseTypeParametersLoop]
  | cons t rest ih =>
    intro depth
    cases depth with
    | zero => simp [parseTypeParametersLoop]
    | succ d =>
      simp only [parseTypeParametersLoop]
      split_ifs
      · exact List.suffix_refl _
      · exact (ih (d + 2)).trans (List.suffix_cons t rest)
      · exact (ih d).trans (List.suffix_cons t rest)
      · exact (ih (d + 1)).trans (List.suffix_cons t rest)

theorem parseTypeParameters_suffix (p : JavaASTParser) : parseTypeParameters p <:+ p := by
  unfold parseTypeParameters
  split_ifs
  · exact (parseTypeParametersLoop_suffix (nextToken p) 1).trans (nextToken_suffix p)
  · exact List.suffix_refl _

theorem parseInterfaceListLoop_suffix (fuel : Nat) :
    ∀ (interfaces : List String) (p : JavaASTParser),
      (parseInterfaceListLoop fuel interfaces p).2 <:+ p := by
  induction fuel with
  | zero => intro interfaces p; simp [parseInterfaceListLoop]
  | succ fuel ih =>
    intro interfaces p
    rw [parseInterfaceListLoop]
    have h1 := parseIdentifier_suffix p
    cases heq : parseIdentifier p with
    | mk r p1 =>
      rw [heq] at h1
      cases r with
      | error e => exact h1
      | ok name =>
        simp only at h1 ⊢
        have h2 := parseTypeParameters_suffix p1
        split_ifs
        · exact (ih _ _).trans ((nextToken_suffix _).trans (h2.trans h1))
        · exact h2.trans h1

theorem parseImplementsClause_suffix (decl : ClassDeclaration) (p : JavaASTParser) :
    (parseImplementsClause decl p).2 <:+ p := by
  unfold parseImplementsClause
  split_ifs
  · have h1 : (parseInterfaceList (nextToken p)).2 <:+ nextToken p :=
      parseInterfaceListLoop_suffix _ _ _
    cases heq : parseInterfaceList (nextToken p) with
    | mk r p1 =>
      rw [heq] at h1
      cases r with
      | error e => exact h1.trans (nextToken_suffix p)
      | ok l => exact h1.trans (nextToken_suffix p)
  · exact List.suffix_refl _

theorem parseExtendsClause_suffix (decl : ClassDeclaration) (p : JavaASTParser) :
    (parseExtendsClause decl p).2 <:+ p := by
  unfold parseExtendsClause
  split_ifs
  · have h1 := parseIdentifier_suffix (nextToken p)
    cases heq : parseIdentifier (nextToken p) with
    | mk r p1 =>
      rw [heq] at h1
      cases r with
      | error e => exact h1.trans (nextToken_suffix p)
      | ok name =>
        simp only at h1 ⊢
        exact (parseImplementsClause_suffix _ _).trans
          ((parseTypeParameters_suffix p1).trans (h1.trans (nextToken_suffix p)))
  · exact parseImplementsClause_suffix decl p

theorem parseClassName_suffix (decl : ClassDeclaration) (p : JavaASTParser) :
    (parseClassName decl p).2 <:+ p := by
  unfold parseClassName
  have h1 := parseIdentifier_suffix p
  cases heq : parseIdentifier p with
  | mk r p1 =>
    rw [heq] at h1
    cases r with
    | error e => exact h1
    | ok name =>
      simp only at h1 ⊢
      exact (parseExtendsClause_suffix _ _).trans ((parseTypeParameters_suffix p1).trans h1)

theorem parseClassDeclarationLoop_suffix (p : JavaASTParser) :
    ∀ decl : ClassDeclaration, (parseClassDeclarationLoop decl p).2 <:+ p := by
  induction p with
  | nil => intro decl; exact parseClassName_suffix decl []
  | cons t rest ih =>
    intro decl
    simp only [parseClassDeclarationLoop]
    split_ifs
    · exact (ih _).trans (List.suffix_cons t rest)
    · exact (parseClassName_suffix _ rest).trans (List.suffix_cons t rest)
    · exact List.suffix_refl _
    · exact parseClassName_suffix decl (t :: rest)

theorem parseClassDeclaration_suffix (p : JavaASTParser) : (parseClassDeclaration p).2 <:+ p :=
  parseClassDeclarationLoop_suffix p {}

theorem ParseClassDeclarationsLoop_suffix (fuel : Nat) :
    ∀ (declarations : List ClassDeclaration) (p : JavaASTParser),
      (ParseClassDeclarationsLoop fuel declarations p).2 <:+ p := by
  induction fuel with
  | zero => intro declarations p; exact List.suffix_refl _
  | succ fuel ih =>
    intro declarations p
    rw [ParseClassDeclarationsLoop]
    by_cases h1 : currentTok p = JavaToken.TOKEN_EOF
    · rw [if_pos h1]
    · rw [if_neg h1]
      have hp := parseClassDeclaration_suffix p
      by_cases h2 : atClassKeyword p = true
      · rw [if_pos h2]
        cases heq : parseClassDeclaration p with
        | mk r p1 =>
          rw [heq] at hp
          cases r with
          | error e2 => exact hp
          | ok decl =>
            simp only at hp ⊢
            exact (ih _ _).trans ((skipToNextDeclaration_suffix p1).trans hp)
      · rw [if_neg h2]
        by_cases h3 : currentTok p = JavaToken.TOKEN_KEYWORD ∧
            isModifierText (currentText p) = true
        · rw [if_pos h3]
          cases heq : parseClassDeclaration p with
          | mk r p1 =>
            rw [heq] at hp
            cases r with
            | error e2 =>
              simp only at hp ⊢
              exact (ih _ _).trans ((nextToken_suffix p1).trans hp)
            | ok decl =>
              simp only at hp ⊢
              exact (ih _ _).trans ((skipToNextDeclaration_suffix p1).trans hp)
        · rw [if_neg h3]
          exact (ih _ _).trans (nextToken_suffix p)

/-- The tokens left by `ParseClassDeclarations` are the last tokens of its input. -/
theorem ParseClassDeclarations_state_suffix (p : JavaASTParser) :
    (ParseClassDeclarations p).2 <:+ p :=
  ParseClassDeclarationsLoop_suffix _ _ _

theorem nested_tokens (U : UnicodeTables) (A B C : String)
    (hA : isIdentifierLexeme U A = true) (hB : isIdentifierLexeme U B = true)
    (hC : isIdentifierLexeme U C = true)
    (kA : JavaKeywords A = false) (kB : JavaKeywords B = false)
    (kC : JavaKeywords C = false) :
    tokenStream U (NewJavaLexer
      ("class " ++ A ++ " \x7b class " ++ B ++ " extends " ++ C ++ " \x7b\x7d \x7d")) =
      [⟨JavaToken.TOKEN_KEYWORD, "class"⟩, ⟨JavaToken.TOKEN_IDENTIFIER, A⟩,
       ⟨JavaToken.TOKEN_OPERATOR, "\x7b"⟩, ⟨JavaToken.TOKEN_KEYWORD, "class"⟩,
       ⟨JavaToken.TOKEN_IDENTIFIER, B⟩, ⟨JavaToken.TOKEN_KEYWORD, "extends"⟩,
       ⟨JavaToken.TOKEN_IDENTIFIER, C⟩, ⟨JavaToken.TOKEN_OPERATOR, "\x7b"⟩,
       ⟨JavaToken.TOKEN_OPERATOR, "\x7d"⟩, ⟨JavaToken.TOKEN_OPERATOR, "\x7d"⟩] := by
  obtain ⟨a, aw, rfl, ha0, ha1⟩ := isIdentifierLexeme_iff U A hA
  obtain ⟨b, bw, rfl, hb0, hb1⟩ := isIdentifierLexeme_iff U B hB
  obtain ⟨c, cw, rfl, hc0, hc1⟩ := isIdentifierLexeme_iff U C hC
  have hsp : ∀ x ∈ [' '], isGoWhitespace x = true := by simp [isGoWhitespace]
  have hnil : ∀ x ∈ ([] : List Char), isGoWhitespace x = true := by simp
  have spNo : isIdentRune U ' ' 1 = false := isGoWhitespace_not_ident U ' ' 1 (by decide)
  have hsrc : NewJavaLexer
      ("class " ++ String.mk (a :: aw) ++ " \x7b class " ++ String.mk (b :: bw) ++ " extends " ++
        String.mk (c :: cw) ++ " \x7b\x7d \x7d") =
      [] ++ 'c' :: (['l', 'a', 's', 's'] ++ ([' '] ++ a :: (aw ++ ([' '] ++ '{' :: ([' '] ++ 'c' :: (['l', 'a', 's', 's'] ++ ([' '] ++ b :: (bw ++ ([' '] ++ 'e' :: (['x', 't', 'e', 'n', 'd', 's'] ++ ([' '] ++ c :: (cw ++ ([' '] ++ '{' :: ([] ++ '}' :: ([' '] ++ '}' :: []))))))))))))))) := by
    simp [NewJavaLexer, String.toList]
  rw [hsrc]
  rw [tokenStream_word U [] 'c' _ _ hnil (isIdentRune_of_ascii U _ _ (by decide))
    (word_of_ascii U _ (by decide)) (by simpa using spNo)]
  rw [tokenStream_word U [' '] a aw _ hsp ha0 ha1 (by simpa using spNo)]
  rw [tokenStream_rune U [' '] '{' _ hsp (by decide) (not_isIdentRune_of_ascii U _ _ (by decide))
    (by decide) (by decide) (by decide) (by decide) (by decide)]
  rw [tokenStream_word U [' '] 'c' _ _ hsp (isIdentRune_of_ascii U _ _ (by decide))
    (word_of_ascii U _ (by decide)) (by simpa using spNo)]
  rw [tokenStream_word U [' '] b bw _ hsp hb0 hb1 (by simpa using spNo)]
  rw [tokenStream_word U [' '] 'e' _ _ hsp (isIdentRune_of_ascii U _ _ (by decide))
    (word_of_ascii U _ (by decide)) (by simpa using spNo)]
  rw [tokenStream_word U [' '] c cw _ hsp hc0 hc1 (by simpa using spNo)]
  rw [tokenStream_rune U [' '] '{' _ hsp (by decide) (not_isIdentRune_of_ascii U _ _ (by decide))
    (by decide) (by decide) (by decide) (by decide) (by decide)]
  rw [tokenStream_rune U [] '}' _ hnil (by decide) (not_isIdentRune_of_ascii U _ _ (by decide))
    (by decide) (by decide) (by decide) (by decide) (by decide)]
  rw [tokenStream_rune U [' '] '}' _ hsp (by decide) (not_isIdentRune_of_ascii U _ _ (by decide))
    (by decide) (by decide) (by decide) (by decide) (by decide)]
  rw [tokenStream_nil_of U [] (NextToken_end U [] hnil)]
  rw [kA, kB, kC]
  rfl

theorem JavaKeywords_iff (w : String) : JavaKeywords w = true ↔ w ∈ JavaKeywordsList := by
  unfold JavaKeywords
  simp

theorem scanNumber_tok (cs : List Char) (seenDot : Bool) :
    (scanNumber cs seenDot).1 = ScanTok.int ∨ (scanNumber cs seenDot).1 = ScanTok.float := by
  have key : ∀ (x : Option (List Char × List Char)) (c : Bool) (a b : List Char),
      (match x with
        | some (e, rest) => (ScanTok.float, a ++ e, rest)
        | none => ((if c then ScanTok.float else ScanTok.int), a, b)).1 = ScanTok.int ∨
      (match x with
        | some (e, rest) => (ScanTok.float, a ++ e, rest)
        | none => ((if c then ScanTok.float else ScanTok.int), a, b)).1 = ScanTok.float := by
    intro x c a b
    cases x with
    | none => cases c <;> simp
    | some p => exact Or.inr rfl
  unfold scanNumber
  exact key _ _ _ _

/-- The white space of the scanner before a token does not change the token. -/
theorem Scan_skip_whitespace (U : UnicodeTables) (ws rest : List Char)
    (hws : ∀ c ∈ ws, isGoWhitespace c = true) : Scan U (ws ++ rest) = Scan U rest := by
  unfold Scan
  rw [List.dropWhile_append_of_pos hws]

theorem NextToken_skip_whitespace (U : UnicodeTables) (ws rest : List Char)
    (hws : ∀ c ∈ ws, isGoWhitespace c = true) :
    NextToken U (ws ++ rest) = NextToken U rest := by
  unfold NextToken
  rw [Scan_skip_whitespace U ws rest hws]

theorem tokenStream_skip_whitespace (U : UnicodeTables) (ws rest : List Char)
    (hws : ∀ c ∈ ws, isGoWhitespace c = true) :
    tokenStream U (ws ++ rest) = tokenStream U rest := by
  rw [tokenStream_unfold, NextToken_skip_whitespace U ws rest hws, ← tokenStream_unfold]

theorem dropWhile_head_neg {α : Type} (p : α → Bool) (l : List α) (c : α) (t : List α)
    (h : l.dropWhile p = c :: t) : p c = false := by
  induction l with
  | nil => cases h
  | cons a r ih =>
    by_cases ha : p a = true
    · rw [List.dropWhile_cons_of_pos ha] at h
      exact ih h
    · rw [List.dropWhile_cons_of_neg ha] at h
      simp only [List.cons.injEq] at h
      rw [← h.1]
      simpa using ha

/-- A character returned as itself is the text of its token, and is no white space of
the scanner. -/
theorem Scan_rune (U : UnicodeTables) (l : List Char) (c : Char)
    (h : (Scan U l).1 = ScanTok.rune c) :
    (Scan U l).2.1 = [c] ∧ isGoWhitespace c = false := by
  unfold Scan at h ⊢
  cases hd : l.dropWhile isGoWhitespace with
  | nil => rw [hd] at h; cases h
  | cons ch cs =>
    have hch := dropWhile_head_neg isGoWhitespace l ch cs hd
    rw [hd] at h
    simp only at h ⊢
    by_cases h1 : isIdentRune U ch 0 = true
    · rw [if_pos h1] at h; cases h
    · rw [if_neg h1] at h ⊢
      by_cases h2 : isDecimal ch = true
      · rw [if_pos h2] at h
        rcases scanNumber_tok (ch :: cs) false with h3 | h3 <;> (rw [h3] at h; cases h)
      · rw [if_neg h2] at h ⊢
        by_cases h3 : ch = '"'
        · rw [if_pos h3] at h; cases h
        · rw [if_neg h3] at h ⊢
          by_cases h4 : ch = '\''
          · rw [if_pos h4] at h; cases h
          · rw [if_neg h4] at h ⊢
            by_cases h5 : ch = '.'
            · rw [if_pos h5] at h ⊢
              cases cs with
              | nil =>
                simp only [ScanTok.rune.injEq] at h ⊢
                rw [← h]
                exact ⟨rfl, hch⟩
              | cons d r =>
                simp only at h ⊢
                by_cases h6 : isDecimal d = true
                · rw [if_pos h6] at h
                  rcases scanNumber_tok (d :: r) true with h7 | h7 <;>
                    (simp only at h; rw [h7] at h; cases h)
                · rw [if_neg h6] at h ⊢
                  simp only [ScanTok.rune.injEq] at h ⊢
                  rw [← h]
                  exact ⟨rfl, hch⟩
            · rw [if_neg h5] at h ⊢
              by_cases h6 : ch = '/'
              · rw [if_pos h6] at h ⊢
                cases cs with
                | nil =>
                  simp only [ScanTok.rune.injEq] at h ⊢
                  rw [← h]
                  exact ⟨rfl, hch⟩
                | cons d r =>
                  simp only at h ⊢
                  by_cases h7 : (d = '/' || d = '*') = true
                  · rw [if_pos h7] at h; cases h
                  · rw [if_neg h7] at h ⊢
                    simp only [ScanTok.rune.injEq] at h ⊢
                    rw [← h]
                    exact ⟨rfl, hch⟩
              · rw [if_neg h6] at h ⊢
                simp only [ScanTok.rune.injEq] at h ⊢
                rw [← h]
                exact ⟨rfl, hch⟩

/-- A token of the kind `TOKEN_WHITESPACE` is one character, a Unicode space that the
scanner does not skip. -/
theorem NextToken_whitespace (U : UnicodeTables) (l : JavaLexer)
    (h : (NextToken U l).1.tok = JavaToken.TOKEN_WHITESPACE) :
    ∃ c : Char, (NextToken U l).1.text = String.mk [c] ∧ unicodeIsSpace c = true ∧
      isGoWhitespace c = false := by
  unfold NextToken at h ⊢
  simp only at h ⊢
  cases hs : (Scan U l).1 with
  | rune c =>
    have hr := Scan_rune U l c hs
    rw [hs] at h
    simp only at h ⊢
    by_cases hsp : unicodeIsSpace c = true
    · rw [if_pos hsp]
      exact ⟨c, by rw [hr.1], hsp, hr.2⟩
    · rw [if_neg hsp] at h
      split_ifs at h
  | eof => rw [hs] at h; cases h
  | ident => rw [hs] at h; simp only at h; split_ifs at h
  | int => rw [hs] at h; cases h
  | float => rw [hs] at h; cases h
  | char => rw [hs] at h; cases h
  | string => rw [hs] at h; cases h
  | rawString => rw [hs] at h; cases h
  | comment => rw [hs] at h; cases h

/-- The header `public class A extends B implements C, D {}` for names that the scanner
reads as one identifier each (a letter or an underscore, then letters, digits and
underscores) and that are no keywords: the source parses without error to exactly one
declaration, with name A, parent B and interfaces C, D in this order. -/
theorem parse_extends_implements_header (U : UnicodeTables) (A B C D : String)
    (hA : isIdentifierLexeme U A = true) (hB : isIdentifierLexeme U B = true)
    (hC : isIdentifierLexeme U C = true) (hD : isIdentifierLexeme U D = true)
    (kA : JavaKeywords A = false) (kB : JavaKeywords B = false)
    (kC : JavaKeywords C = false) (kD : JavaKeywords D = false) :
    ParseClassDeclarations (NewJavaASTParser U
      ("public class " ++ A ++ " extends " ++ B ++ " implements " ++ C ++ ", " ++ D ++ " \x7b\x7d")) =
      (Except.ok [{ Name := A, ParentClass := B, Interfaces := [C, D], Modifiers := ["public"] }],
        []) := by
  unfold NewJavaASTParser
  rw [header_tokens U A B C D hA hB hC hD kA kB kC kD]
  rfl

/-- The header theorem at the names `TestClass`, `BaseClass`, `Runnable`, `Serializable`. -/
theorem parse_extends_implements_header_witness :
    (isIdentifierLexeme asciiTables "TestClass" = true ∧ JavaKeywords "TestClass" = false) ∧
    ParseClassDeclarations (NewJavaASTParser asciiTables
      ("public class " ++ "TestClass" ++ " extends " ++ "BaseClass" ++ " implements " ++
        "Runnable" ++ ", " ++ "Serializable" ++ " \x7b\x7d")) =
      (Except.ok [{ Name := "TestClass", ParentClass := "BaseClass",
                    Interfaces := ["Runnable", "Serializable"], Modifiers := ["public"] }], []) :=
  ⟨⟨by decide, by decide⟩,
   parse_extends_implements_header asciiTables "TestClass" "BaseClass" "Runnable" "Serializable"
    (by decide) (by decide) (by decide) (by decide) (by decide) (by decide) (by decide)
    (by decide)⟩

/-- C1 (failing input): `Outer$Inner` is a Java identifier and no keyword, but the scanner
ends an identifier at the dollar sign.  The source
`public class Outer$Inner extends Base implements C, D {}` parses without error to one
declaration with name `Outer`, no parent and no interfaces, so its inheritance maps are
empty.  The source that `decompileWithFallback` generates for an inner class is of this
kind: its declaration gets the name of the outer class. -/
theorem dollar_name_cut_at_dollar :
    (∀ U : UnicodeTables,
      ParseClassDeclarations (NewJavaASTParser U
        "public class Outer$Inner extends Base implements C, D \x7b\x7d") =
        (Except.ok [{ Name := "Outer", Modifiers := ["public"] }], [])) ∧
    (∀ U : UnicodeTables,
      ParseJavaInheritance U "public class Outer$Inner extends Base implements C, D \x7b\x7d" =
        Except.ok ([], [])) ∧
    (∀ U : UnicodeTables,
      (tokenStream U (NewJavaLexer "Outer$Inner")) =
        [⟨JavaToken.TOKEN_IDENTIFIER, "Outer"⟩, ⟨JavaToken.TOKEN_DELIMITER, "$"⟩,
         ⟨JavaToken.TOKEN_IDENTIFIER, "Inner"⟩]) ∧
    decompileWithFallback "com.example.OuterClass$InnerClass" =
      "package com.example;\n\npublic class OuterClass$InnerClass \x7b\n" ++
      "    // Decompiled with fallback method\n" ++
      "    // Original bytecode structure preserved\n\n" ++
      "    public OuterClass$InnerClass() \x7b\n" ++
      "        // Default constructor\n" ++
      "    \x7d\n\n" ++
      "    // Additional methods and fields would be extracted from bytecode\n" ++
      "\x7d\n" ∧
    (∀ U : UnicodeTables,
      ParseClassDeclarations (NewJavaASTParser U
        (decompileWithFallback "com.example.OuterClass$InnerClass")) =
        (Except.ok [{ Name := "OuterClass", Modifiers := ["public"] }], [])) := by
  refine ⟨?_, ?_, ?_, by decide, ?_⟩
  · intro U
    rw [NewJavaASTParser_ascii U _ (by decide)]
    decide
  · intro U
    rw [ParseJavaInheritance_ascii U _ (by decide)]
    decide
  · intro U
    have h3 : tokenStream U (NewJavaLexer "Outer$Inner") =
        tokenStream asciiTables (NewJavaLexer "Outer$Inner") :=
      tokenStreamAux_ascii U asciiTables _ _ (by decide)
    rw [h3]
    decide
  · intro U
    rw [NewJavaASTParser_ascii U _ (by decide)]
    decide


/-- C2: a class header whose name, parent and interfaces each carry a balanced, possibly
nested, generic argument list is parsed with every list skipped and the bare names
resolved; the source `class Box<T> extends Container<T> implements Comparable<Box<T>> {}`
gives exactly one declaration, `Box` with parent `Container` and interfaces
`[Comparable]`. -/
theorem parse_generic_header :
    (∀ U : UnicodeTables,
      ParseClassDeclarations (NewJavaASTParser U
        "class Box<T> extends Container<T> implements Comparable<Box<T>> \x7b\x7d") =
        (Except.ok [{ Name := "Box", ParentClass := "Container", Interfaces := ["Comparable"] }],
          [])) ∧
    (∀ (N P : String) (gN gP : List Token) (ifaces : List (String × List Token))
      (rest : JavaASTParser),
      isGenericList gN = true → isGenericList gP = true → ifaces ≠ [] →
      (∀ e ∈ ifaces, isGenericList e.2 = true) →
      ¬ (currentTok rest = JavaToken.TOKEN_OPERATOR ∧ currentText rest = ",") →
      (∀ t ∈ rest, atClassKeyword [t] = false) →
      (ParseClassDeclarations
        (tokKeyword "class" :: tokIdent N :: (gN ++ tokKeyword "extends" :: tokIdent P ::
          (gP ++ tokKeyword "implements" :: (interfaceListTokens ifaces ++ rest))))).1 =
        Except.ok [{ Name := N, ParentClass := P, Interfaces := ifaces.map Prod.fst }]) := by
  constructor
  · intro U
    rw [NewJavaASTParser_ascii U _ (by decide)]
    decide
  · intro N P gN gP ifaces rest hN hP hne hI hrest hcls
    have hskip := currentTok_skipToNextDeclaration rest hcls
    have hparse := parseClassDeclaration_generic_header N P gN gP ifaces rest hN hP hne hI hrest
    unfold ParseClassDeclarations
    generalize hp : (tokKeyword "class" :: tokIdent N :: (gN ++ tokKeyword "extends" ::
      tokIdent P :: (gP ++ tokKeyword "implements" :: (interfaceListTokens ifaces ++ rest)))) = p
      at hparse ⊢
    have hlen : ∃ n, p.length + 1 = n + 2 := by
      subst hp
      exact ⟨_, rfl⟩
    obtain ⟨n, hn⟩ := hlen
    rw [hn]
    have hcur : currentTok p = JavaToken.TOKEN_KEYWORD := by subst hp; rfl
    have hat : atClassKeyword p = true := by subst hp; rfl
    simp only [ParseClassDeclarationsLoop, hcur, hat, hparse, hskip, ↓reduceIte,
      reduceCtorEq, List.nil_append]

/-- Witness of C2 at the tokens of the `Box` header. -/
theorem parse_generic_header_witness :
    (ParseClassDeclarations
      (tokKeyword "class" :: tokIdent "Box" :: ([tokLt, tokIdent "T", tokGt] ++
        tokKeyword "extends" :: tokIdent "Container" :: ([tokLt, tokIdent "T", tokGt] ++
          tokKeyword "implements" ::
            (interfaceListTokens
              [("Comparable", [tokLt, tokIdent "Box", tokLt, tokIdent "T", tokGt, tokGt])] ++
              [⟨JavaToken.TOKEN_OPERATOR, "\x7b"⟩, ⟨JavaToken.TOKEN_OPERATOR, "\x7d"⟩]))))).1 =
      Except.ok [{ Name := "Box", ParentClass := "Container", Interfaces := ["Comparable"] }] :=
  parse_generic_header.2 "Box" "Container" [tokLt, tokIdent "T", tokGt]
    [tokLt, tokIdent "T", tokGt]
    [("Comparable", [tokLt, tokIdent "Box", tokLt, tokIdent "T", tokGt, tokGt])]
    [⟨JavaToken.TOKEN_OPERATOR, "\x7b"⟩, ⟨JavaToken.TOKEN_OPERATOR, "\x7d"⟩]
    (by decide) (by decide) (by decide) (by decide) (by decide) (by decide)



/-- C3: for the single unit `TestClass` with the source of the scenario and a field
`items` of type `List<String>`, the analysis succeeds, its edges contain
`TestClass -> BaseClass (extends)`, `TestClass -> Runnable (implements)` and
`TestClass -> List (uses_field)`, and its calls contain one to `items.add`. -/
theorem analyze_end_to_end (U : UnicodeTables) (o : RangeOrder) (classInfo : DecompiledClass)
    (hname : classInfo.ClassName = "TestClass") (hsrc : classInfo.SourceCode = endToEndSource)
    (hfield : ∃ f ∈ classInfo.Fields, f.Name = "items" ∧ f.Type_ = "List<String>") :
    ∃ r, AnalyzeDependencies U o (some [("TestClass", some classInfo)]) = Except.ok r ∧
      ({ FromClass := "TestClass", ToClass := "BaseClass", DepType := "extends" } :
        ClassDependency) ∈ r.ClassDependencies ∧
      ({ FromClass := "TestClass", ToClass := "Runnable", DepType := "implements" } :
        ClassDependency) ∈ r.ClassDependencies ∧
      ({ FromClass := "TestClass", ToClass := "List", DepType := "uses_field" } :
        ClassDependency) ∈ r.ClassDependencies ∧
      ∃ call ∈ r.MethodCalls, call.CalleeClass = "items" ∧ call.CalleeMethod = "add" := by
  have hparse : ParseJavaInheritance U classInfo.SourceCode =
      Except.ok ([("TestClass", "BaseClass")], [("TestClass", ["Runnable"])]) := by
    rw [hsrc, ParseJavaInheritance_ascii U _ (by decide)]
    exact endToEnd_inheritance
  refine ⟨buildClassDependencies o (analyzeClass U o {} ("TestClass", some classInfo)), ?_,
    ?_, ?_, ?_, ?_⟩
  · simp [AnalyzeDependencies, analyzeClasses, o.order_singleton]
  · apply mem_build_extends
    rw [analyzeClass_inheritanceTree, hparse]
    simp [o.order_singleton, GoMap.set]
  · apply mem_build_implements o _ "TestClass" "Runnable" ["Runnable"]
    · rw [analyzeClass_interfaceImpls, hparse]
      simp [o.order_singleton, GoMap.set]
    · simp
  · apply mem_build_of_mem
    rw [analyzeClass_deps]
    obtain ⟨f, hf, _, hty⟩ := hfield
    have hbase : fieldBaseType "List<String>" = "List" := by decide
    have hprim : isPrimitiveType "List" = false := by decide
    have hne : ("List" : String) ≠ "" := by decide
    simp only [List.mem_append, List.mem_flatMap]
    refine Or.inr ⟨f, hf, ?_⟩
    simp [fieldDependency, hty, hbase, hprim, hne, hname]
  · have hcalls := endToEnd_calls
    refine ⟨{ CallerClass := classInfo.ClassName,
              CallerMethod := findContainingMethod classInfo "items.add(",
              CalleeClass := "items", CalleeMethod := "add", LineNumber := 0 }, ?_, rfl, rfl⟩
    show _ ∈ (analyzeClass U o {} ("TestClass", some classInfo)).MethodCalls
    rw [analyzeClass_methodCalls]
    simp only [analyzeMethodCalls, hsrc]
    have hm : FindAllStringSubmatch methodCallRegex endToEndSource =
        [("items.add(", [(2, "add".toList), (1, "items".toList)])] := by decide
    rw [hm]
    simp [submatch]

/-- Witness of C3 at the unit of the scenario. -/
theorem analyze_end_to_end_witness :
    ∃ r, AnalyzeDependencies asciiTables storedOrder
        (some [("TestClass", some { ClassName := "TestClass", SourceCode := endToEndSource,
                                    Fields := [{ Name := "items", Type_ := "List<String>" }] })])
        = Except.ok r ∧
      ({ FromClass := "TestClass", ToClass := "BaseClass", DepType := "extends" } :
        ClassDependency) ∈ r.ClassDependencies ∧
      ({ FromClass := "TestClass", ToClass := "Runnable", DepType := "implements" } :
        ClassDependency) ∈ r.ClassDependencies ∧
      ({ FromClass := "TestClass", ToClass := "List", DepType := "uses_field" } :
        ClassDependency) ∈ r.ClassDependencies ∧
      ∃ call ∈ r.MethodCalls, call.CalleeClass = "items" ∧ call.CalleeMethod = "add" :=
  analyze_end_to_end asciiTables storedOrder
    { ClassName := "TestClass", SourceCode := endToEndSource,
      Fields := [{ Name := "items", Type_ := "List<String>" }] }
    rfl rfl ⟨_, List.mem_cons_self _ _, rfl, rfl⟩



/-- C4: `AnalyzeDependencies` returns an error, and no result, exactly when the input map
is `nil`; for every other map, whatever its entries, it returns a result and no error. -/
theorem analyze_fails_iff_nil :
    (∀ (U : UnicodeTables) (o : RangeOrder)
        (decompiledClasses : Option (GoMap (Option DecompiledClass))),
      (∃ e, AnalyzeDependencies U o decompiledClasses = Except.error e) ↔
        decompiledClasses = none) ∧
    (∀ (U : UnicodeTables) (o : RangeOrder) (classes : GoMap (Option DecompiledClass)),
      ∃ r, AnalyzeDependencies U o (some classes) = Except.ok r) := by
  constructor
  · intro U o decompiledClasses
    cases decompiledClasses with
    | none => simp [AnalyzeDependencies]
    | some classes => simp [AnalyzeDependencies]
  · intro U o classes
    exact ⟨_, rfl⟩

/-- C5 (counterexample): on `public class A extends B { Object k = A.class; }` the pass is
aborted at the class literal: the result is the error, and the declaration `A` is not
returned. -/
theorem class_literal_aborts_pass :
    (ParseClassDeclarations (NewJavaASTParser asciiTables
      "public class A extends B \x7b Object k = A.class; \x7d")).1 =
      Except.error "failed to parse class name: expected identifier, got 3 ';'" := by
  decide

/-- C5 (as amended): a `class` or `interface` keyword that no identifier follows aborts
the pass with the error of that declaration, whatever was recognised before; a failed
parse that started at a modifier keyword is skipped and the scan resumes one token
later. -/
theorem parse_failure_policy :
    (∀ (fuel : Nat) (declarations : List ClassDeclaration) (p : JavaASTParser),
      atClassKeyword p = true → currentTok (nextToken p) ≠ JavaToken.TOKEN_IDENTIFIER →
      ParseClassDeclarationsLoop (fuel + 1) declarations p =
        (Except.error ("failed to parse class name: " ++
          ("expected identifier, " ++ gotText (nextToken p))), nextToken p)) ∧
    (∀ (fuel : Nat) (declarations : List ClassDeclaration) (p p1 : JavaASTParser) (e : String),
      atClassKeyword p = false → currentTok p = JavaToken.TOKEN_KEYWORD →
      isModifierText (currentText p) = true → parseClassDeclaration p = (Except.error e, p1) →
      ParseClassDeclarationsLoop (fuel + 1) declarations p =
        ParseClassDeclarationsLoop fuel declarations (nextToken p1)) ∧
    (∀ U : UnicodeTables,
      (ParseClassDeclarations (NewJavaASTParser U
        "public class A extends B \x7b Object k = A.class; \x7d")).1 =
        Except.error "failed to parse class name: expected identifier, got 3 ';'") ∧
    (∀ U : UnicodeTables,
      ParseClassDeclarations (NewJavaASTParser U "private int x; public class A extends B \x7b\x7d") =
        (Except.ok [{ Name := "A", ParentClass := "B", Modifiers := ["public"] }], [])) := by
  refine ⟨?_, ?_, ?_, ?_⟩
  · intro fuel declarations p hat hn
    have hk : currentTok p ≠ JavaToken.TOKEN_EOF := by
      cases p with
      | nil => simp [atClassKeyword, currentTok] at hat
      | cons t rest =>
        rw [atClassKeyword_cons] at hat
        simp [currentTok, hat.1]
    rw [ParseClassDeclarationsLoop]
    simp only [hk, hat, ↓reduceIte, parseClassDeclaration_no_name p hat hn]
  · intro fuel declarations p p1 e hat hk hm hparse
    rw [ParseClassDeclarationsLoop]
    simp [hk, hat, hm, hparse]
  · intro U
    rw [NewJavaASTParser_ascii U _ (by decide)]
    decide
  · intro U
    rw [NewJavaASTParser_ascii U _ (by decide)]
    decide

/-- Witness of C5 at the tokens `class ;`. -/
theorem parse_failure_policy_witness :
    ParseClassDeclarationsLoop 1 [] [tokKeyword "class", ⟨JavaToken.TOKEN_OPERATOR, ";"⟩] =
      (Except.error "failed to parse class name: expected identifier, got 3 ';'",
        [⟨JavaToken.TOKEN_OPERATOR, ";"⟩]) :=
  parse_failure_policy.1 0 [] [tokKeyword "class", ⟨JavaToken.TOKEN_OPERATOR, ";"⟩]
    (by decide) (by decide)

/-- C6 (failing input): the sources `private String name;` and
`import static java.lang.Math.PI;` hold no `class` or `interface` keyword, and each
yields one declaration, named `String` and `java.lang.Math.PI`. -/
theorem declaration_without_class_keyword :
    (∀ U : UnicodeTables,
      (ParseClassDeclarations (NewJavaASTParser U "private String name;")).1 =
        Except.ok [{ Name := "String", Modifiers := ["private"] }]) ∧
    (∀ U : UnicodeTables,
      (ParseClassDeclarations (NewJavaASTParser U "import static java.lang.Math.PI;")).1 =
        Except.ok [{ Name := "java.lang.Math.PI", Modifiers := ["static"] }]) := by
  constructor
  · intro U
    rw [NewJavaASTParser_ascii U _ (by decide)]
    decide
  · intro U
    rw [NewJavaASTParser_ascii U _ (by decide)]
    decide

/-- C7 (counterexample): in `class A {} public abstract class B {}` the declaration `B` is
returned with no modifiers and with `IsAbstract` false. -/
theorem later_declaration_loses_modifiers :
    ParseClassDeclarations (NewJavaASTParser asciiTables
      "class A \x7b\x7d public abstract class B \x7b\x7d") =
      (Except.ok [{ Name := "A" }, { Name := "B", Modifiers := [], IsAbstract := false }], []) := by
  decide

/-- C7 (as amended): a parse that starts at the first of the modifier keywords in front of
a `class` or `interface` keyword records them, and `IsAbstract` says whether `abstract` is
among them; this is how the first declaration of a source is reached.  Every later
declaration of a pass is entered at its `class` or `interface` keyword: its `Modifiers`
are empty and its `IsAbstract` is false. -/
theorem modifiers_recorded_for_first_only :
    (∀ (mods : List String) (kw : String) (rest p1 : JavaASTParser) (d : ClassDeclaration),
      (∀ m ∈ mods, isModifierText m = true) → (kw = "class" ∨ kw = "interface") →
      parseClassDeclaration (mods.map tokKeyword ++ tokKeyword kw :: rest) = (Except.ok d, p1) →
      d.Modifiers = mods ∧ d.IsAbstract = mods.contains "abstract") ∧
    (∀ (p s : JavaASTParser) (ds : List ClassDeclaration),
      ParseClassDeclarations p = (Except.ok ds, s) →
      ∀ d ∈ ds.tail, d.Modifiers = [] ∧ d.IsAbstract = false) ∧
    (∀ U : UnicodeTables,
      ParseClassDeclarations (NewJavaASTParser U "public abstract class B \x7b\x7d") =
        (Except.ok [{ Name := "B", Modifiers := ["public", "abstract"], IsAbstract := true }],
          [])) ∧
    (∀ U : UnicodeTables,
      ParseClassDeclarations (NewJavaASTParser U "class A \x7b\x7d public abstract class B \x7b\x7d") =
        (Except.ok [{ Name := "A" }, { Name := "B", Modifiers := [], IsAbstract := false }],
          [])) := by
  refine ⟨?_, ?_, ?_, ?_⟩
  · intro mods kw rest p1 d hmods hkw hparse
    unfold parseClassDeclaration at hparse
    rw [parseClassDeclarationLoop_modifiers mods {} kw rest hmods hkw] at hparse
    have := parseClassName_keeps _ d rest p1 hparse
    simpa using this
  · intro p s ds h
    obtain ⟨extra, he, hq⟩ := ParseClassDeclarationsLoop_tail_plain _ [] ds p s h
    simp only [List.nil_append] at he
    subst he
    exact hq
  · intro U
    rw [NewJavaASTParser_ascii U _ (by decide)]
    decide
  · intro U
    rw [NewJavaASTParser_ascii U _ (by decide)]
    decide

/-- Witness of C7 at the tokens of `class A {} public abstract class B {}`. -/
theorem modifiers_recorded_for_first_only_witness :
    ∀ d ∈ ([{ Name := "A" }, { Name := "B" }] : List ClassDeclaration).tail,
      d.Modifiers = [] ∧ d.IsAbstract = false :=
  modifiers_recorded_for_first_only.2.1
    (NewJavaASTParser asciiTables "class A \x7b\x7d public abstract class B \x7b\x7d") []
    [{ Name := "A" }, { Name := "B" }] (by decide)



/-- C8: when the header parse of the source of one unit fails, `AnalyzeDependencies` still
succeeds; the unit adds nothing to `InheritanceTree` and `InterfaceImpls`, which are the
maps that the loop over the other units produces; and the `imports` edges and
`uses_field` edges of the unit are among the edges of the result. -/
theorem failed_header_parse_skips_inheritance_only (U : UnicodeTables) (o : RangeOrder)
    (classes : GoMap (Option DecompiledClass)) (key : String) (classInfo : DecompiledClass)
    (e : String) (hkeys : (classes.map Prod.fst).Nodup)
    (hmem : (key, some classInfo) ∈ classes)
    (hfail : ParseJavaInheritance U classInfo.SourceCode = Except.error e) :
    ∃ r, AnalyzeDependencies U o (some classes) = Except.ok r ∧
      (∃ before after, o.order classes = before ++ (key, some classInfo) :: after ∧
        r.InheritanceTree = (analyzeClasses U o (before ++ after) {}).InheritanceTree ∧
        r.InterfaceImpls = (analyzeClasses U o (before ++ after) {}).InterfaceImpls) ∧
      (∀ importPath ∈ extractImports classInfo.SourceCode,
        ∀ d ∈ importDependency key importPath, d ∈ r.ClassDependencies) ∧
      (∀ f ∈ classInfo.Fields, ∀ d ∈ fieldDependency classInfo f, d ∈ r.ClassDependencies) := by
  have hin : (key, some classInfo) ∈ o.order classes := (o.mem_order _ _).mpr hmem
  obtain ⟨before, after, hsplit⟩ := List.append_of_mem hin
  have hnodup : ((o.order classes).map Prod.fst).Nodup :=
    ((o.perm classes).map Prod.fst).nodup_iff.mpr hkeys
  have hafter : ∀ x ∈ after, x.1 ≠ key := by
    rw [hsplit] at hnodup
    simp only [List.map_append, List.map_cons] at hnodup
    have h2 := (List.nodup_append.mp hnodup).2.1
    have h3 := (List.nodup_cons.mp h2).1
    intro x hx hxk
    exact h3 (List.mem_map.mpr ⟨x, hx, hxk⟩)
  have hloop : analyzeClasses U o (o.order classes) {} =
      analyzeClasses U o after
        (analyzeClass U o (analyzeClasses U o before {}) (key, some classInfo)) := by
    rw [hsplit, analyzeClasses_append, analyzeClasses_cons]
  refine ⟨buildClassDependencies o (analyzeClasses U o (o.order classes) {}), rfl,
    ⟨before, after, hsplit, ?_, ?_⟩, ?_, ?_⟩
  · show (analyzeClasses U o (o.order classes) {}).InheritanceTree = _
    rw [hloop, analyzeClasses_append]
    apply analyzeClasses_inheritanceTree_congr
    rw [analyzeClass_inheritanceTree, hfail]
  · show (analyzeClasses U o (o.order classes) {}).InterfaceImpls = _
    rw [hloop, analyzeClasses_append]
    apply analyzeClasses_interfaceImpls_congr
    rw [analyzeClass_interfaceImpls, hfail]
  · intro importPath hp d hd
    apply mem_build_imports o _ key importPath (extractImports classInfo.SourceCode) d _ hp hd
    rw [hloop]
    apply analyzeClasses_imports_keep U o after key _ _ hafter
    rw [analyzeClass_importStatements]
    exact GoMap.mem_set_self _ _ _
  · intro f hf d hd
    apply mem_build_of_mem
    rw [hloop]
    apply analyzeClasses_deps_mono
    rw [analyzeClass_deps]
    exact List.mem_append_right _ (List.mem_flatMap.mpr ⟨f, hf, hd⟩)

/-- Witness of C8 at a map of two units, of which `Broken` holds a class literal. -/
theorem failed_header_parse_skips_inheritance_only_witness :
    ParseJavaInheritance asciiTables brokenUnit.SourceCode =
      Except.error ("failed to parse class declarations: " ++
        "failed to parse class name: expected identifier, got 3 ';'") ∧
    ∃ r, AnalyzeDependencies asciiTables storedOrder
        (some [("Sound", some soundUnit), ("Broken", some brokenUnit)]) = Except.ok r ∧
      (∃ before after,
        storedOrder.order [("Sound", some soundUnit), ("Broken", some brokenUnit)] =
          before ++ ("Broken", some brokenUnit) :: after ∧
        r.InheritanceTree =
          (analyzeClasses asciiTables storedOrder (before ++ after) {}).InheritanceTree ∧
        r.InterfaceImpls =
          (analyzeClasses asciiTables storedOrder (before ++ after) {}).InterfaceImpls) ∧
      (∀ importPath ∈ extractImports brokenUnit.SourceCode,
        ∀ d ∈ importDependency "Broken" importPath, d ∈ r.ClassDependencies) ∧
      (∀ f ∈ brokenUnit.Fields, ∀ d ∈ fieldDependency brokenUnit f, d ∈ r.ClassDependencies) :=
  ⟨by decide,
   failed_header_parse_skips_inheritance_only asciiTables storedOrder
    [("Sound", some soundUnit), ("Broken", some brokenUnit)] "Broken" brokenUnit
    ("failed to parse class declarations: " ++
      "failed to parse class name: expected identifier, got 3 ';'")
    (by decide) (by decide) (by decide)⟩



/-- C9 (counterexample): for the field type `int[]<String>` on `Foo`, with `T` the text
`int[]` (not empty, without `<`, none of the ten names), the analysis emits no
`uses_field` edge at all. -/
theorem generic_field_with_array_base_no_edge :
    AnalyzeDependencies asciiTables storedOrder
      (some [("Foo", some { ClassName := "Foo",
                            Fields := [{ Name := "cache", Type_ := "int[]<String>" }] })]) =
      Except.ok { ClassDependencies := [], ImportStatements := [("Foo", [])] } := by
  decide

/-- C9 (as amended): for a field whose type is `T<args>`, where `T` is not empty, holds no
`<`, does not end in `[]` and is none of the ten primitive or well-known names, the field
adds exactly one edge, `uses_field` from the class name of the unit to `T`: in the body of
the loop, in `analyzeFieldDependencies` between the edges of the fields before and after
it, and in the result of `AnalyzeDependencies` for a unit with this one field. -/
theorem generic_field_yields_base_type_edge (classInfo : DecompiledClass)
    (field : DecompiledField) (T args : String) (hty : field.Type_ = T ++ "<" ++ args)
    (hne : T ≠ "") (hlt : '<' ∉ T.toList)
    (harr : List.isSuffixOf "[]".toList T.toList = false) (hprim : isPrimitiveType T = false) :
    fieldDependency classInfo field =
      [{ FromClass := classInfo.ClassName, ToClass := T, DepType := "uses_field" }] ∧
    (∀ (result : DependencyAnalysisResult) (before after : List DecompiledField),
      classInfo.Fields = before ++ field :: after →
      (analyzeFieldDependencies classInfo result).ClassDependencies =
        result.ClassDependencies ++ (before.flatMap (fieldDependency classInfo) ++
          { FromClass := classInfo.ClassName, ToClass := T, DepType := "uses_field" } ::
            after.flatMap (fieldDependency classInfo))) ∧
    (∀ (U : UnicodeTables) (o : RangeOrder) (key : String), classInfo.Fields = [field] →
      ∃ r, AnalyzeDependencies U o (some [(key, some classInfo)]) = Except.ok r ∧
        r.ClassDependencies.filter (fun d => decide (d.DepType = "uses_field")) =
          [{ FromClass := classInfo.ClassName, ToClass := T, DepType := "uses_field" }]) := by
  have hdep : fieldDependency classInfo field =
      [{ FromClass := classInfo.ClassName, ToClass := T, DepType := "uses_field" }] := by
    unfold fieldDependency
    rw [hty, fieldBaseType_generic T args hlt harr]
    simp [hne, hprim]
  refine ⟨hdep, ?_, ?_⟩
  · intro result before after hfields
    rw [analyzeFieldDependencies_deps, hfields]
    simp [List.flatMap_append, List.flatMap_cons, hdep]
  · intro U o key hfields
    obtain ⟨r, hr, hf⟩ := analyze_single_usesField U o key classInfo
    refine ⟨r, hr, ?_⟩
    rw [hf, hfields]
    simp [List.flatMap_cons, hdep]

/-- Witness of C9 at the field type `List<String>` on `Foo`. -/
theorem generic_field_yields_base_type_edge_witness :
    fieldDependency { ClassName := "Foo", Fields := [{ Name := "items", Type_ := "List<String>" }] }
        { Name := "items", Type_ := "List<String>" } =
      [{ FromClass := "Foo", ToClass := "List", DepType := "uses_field" }] :=
  (generic_field_yields_base_type_edge
    { ClassName := "Foo", Fields := [{ Name := "items", Type_ := "List<String>" }] }
    { Name := "items", Type_ := "List<String>" } "List" "String>"
    (by decide) (by decide) (by decide) (by decide) (by decide)).1

/-- C10 (failing input): a field of type `int[][]` loses one `[]` only, so the analysis
emits a `uses_field` edge to `int[]`; with a single `[]` after one of the ten names no
edge is emitted. -/
theorem two_dimensional_array_field_edge :
    (∀ (classInfo : DecompiledClass) (name : String),
      fieldDependency classInfo { Name := name, Type_ := "int[][]" } =
        [{ FromClass := classInfo.ClassName, ToClass := "int[]", DepType := "uses_field" }]) ∧
    AnalyzeDependencies asciiTables storedOrder
      (some [("Grid", some { ClassName := "Grid",
                             Fields := [{ Name := "cells", Type_ := "int[][]" }] })]) =
      Except.ok { ClassDependencies :=
                    [{ FromClass := "Grid", ToClass := "int[]", DepType := "uses_field" }],
                  ImportStatements := [("Grid", [])] } ∧
    (["boolean", "byte", "char", "short", "int", "long", "float", "double", "void",
        "String"].all (fun t => fieldBaseType (t ++ "[]") == t && isPrimitiveType t)) = true := by
  refine ⟨?_, ?_, ?_⟩
  · intro classInfo name
    have hb : fieldBaseType "int[][]" = "int[]" := by decide
    have hp : isPrimitiveType "int[]" = false := by decide
    have hn : ("int[]" : String) ≠ "" := by decide
    simp [fieldDependency, hb, hp, hn]
  · decide
  · decide

/-- C11: for every entry of the import map and every path recorded for it,
`buildClassDependencies` emits exactly one `imports` edge, from the key to the last
dot-separated segment of the path, when that segment is not `*`, and no edge for a
wildcard; a unit whose source is `import java.util.List;` and `import java.util.*;`
contributes exactly one `imports` edge, to `List`. -/
theorem imports_edges_skip_wildcards :
    (∀ cls importPath : String,
      importDependency cls importPath =
        if lastSegment importPath ≠ "*" then
          [{ FromClass := cls, ToClass := lastSegment importPath, DepType := "imports" }]
        else []) ∧
    (∀ (o : RangeOrder) (result : DependencyAnalysisResult),
      (buildClassDependencies o result).ClassDependencies.filter (hasDepType "imports") =
        result.ClassDependencies.filter (hasDepType "imports") ++
        (o.order result.ImportStatements).flatMap (fun e =>
          (e.2.filter (fun p => decide (lastSegment p ≠ "*"))).map (fun p =>
            { FromClass := e.1, ToClass := lastSegment p, DepType := "imports" }))) ∧
    (∀ (U : UnicodeTables) (o : RangeOrder) (key : String) (classInfo : DecompiledClass),
      classInfo.SourceCode = "import java.util.List;\nimport java.util.*;" →
      ∃ r, AnalyzeDependencies U o (some [(key, some classInfo)]) = Except.ok r ∧
        r.ImportStatements = [(key, ["java.util.List", "java.util.*"])] ∧
        r.ClassDependencies.filter (hasDepType "imports") =
          [{ FromClass := key, ToClass := "List", DepType := "imports" }]) := by
  refine ⟨importDependency_eq, buildClassDependencies_imports, ?_⟩
  intro U o key classInfo hsrc
  have himp : extractImports classInfo.SourceCode = ["java.util.List", "java.util.*"] := by
    rw [hsrc]; decide
  have hmap : (analyzeClass U o {} (key, some classInfo)).ImportStatements =
      [(key, ["java.util.List", "java.util.*"])] := by
    rw [analyzeClass_importStatements, himp]
    rfl
  refine ⟨buildClassDependencies o (analyzeClass U o {} (key, some classInfo)), ?_, hmap, ?_⟩
  · simp [AnalyzeDependencies, analyzeClasses, o.order_singleton]
  · rw [buildClassDependencies_imports, hmap, o.order_singleton, analyzeClass_deps]
    have hf : (classInfo.Fields.flatMap (fieldDependency classInfo)).filter
        (hasDepType "imports") = [] := by
      apply filter_hasDepType_eq_nil
      intro d hd
      obtain ⟨f, _, hd2⟩ := List.mem_flatMap.mp hd
      rw [fieldDependency_depType _ _ _ hd2]
      decide
    have h1 : lastSegment "java.util.List" = "List" := by decide
    have h2 : lastSegment "java.util.*" = "*" := by decide
    have h3 : ("List" : String) ≠ "*" := by decide
    simp [hf, h1, h2, h3]

/-- Witness of C11 at a unit that holds the two import statements. -/
theorem imports_edges_skip_wildcards_witness :
    ∃ r, AnalyzeDependencies asciiTables storedOrder
        (some [("Foo", some { ClassName := "Foo",
                              SourceCode := "import java.util.List;\nimport java.util.*;" })])
        = Except.ok r ∧
      r.ImportStatements = [("Foo", ["java.util.List", "java.util.*"])] ∧
      r.ClassDependencies.filter (hasDepType "imports") =
        [{ FromClass := "Foo", ToClass := "List", DepType := "imports" }] :=
  imports_edges_skip_wildcards.2.2 asciiTables storedOrder "Foo"
    { ClassName := "Foo", SourceCode := "import java.util.List;\nimport java.util.*;" } rfl

/-- C17: in the graph of `GetDependencyGraph` the entry of a class `c` is the list of the
`ToClass` values of exactly the edges whose `FromClass` is `c`, in the order of the edges
and with duplicates kept; `c` is a key exactly when there is such an edge, no key occurs
twice, and the lengths of the lists add up to the number of edges. -/
theorem dependency_graph_adjacency (result : DependencyAnalysisResult) :
    (∀ c : String, (GetDependencyGraph result).get? c =
      if (result.ClassDependencies.filter (fun d => decide (d.FromClass = c))) = [] then none
      else some ((result.ClassDependencies.filter (fun d => decide (d.FromClass = c))).map
        (fun d => d.ToClass))) ∧
    (∀ c : String, c ∈ (GetDependencyGraph result).map Prod.fst ↔
      ∃ d ∈ result.ClassDependencies, d.FromClass = c) ∧
    ((GetDependencyGraph result).map Prod.fst).Nodup ∧
    ((GetDependencyGraph result).map (fun e => e.2.length)).sum =
      result.ClassDependencies.length := by
  have hfold : GetDependencyGraph result =
      (result.ClassDependencies.map (fun d => (d.FromClass, d.ToClass))).foldl
        (fun g p => appendTarget g p.1 p.2) [] := by
    unfold GetDependencyGraph
    rw [List.foldl_map]
  obtain ⟨h1, h2, h3⟩ :=
    foldl_appendTarget (result.ClassDependencies.map (fun d => (d.FromClass, d.ToClass)))
  have htargets : ∀ c, targetsOf (result.ClassDependencies.map (fun d => (d.FromClass, d.ToClass))) c =
      (result.ClassDependencies.filter (fun d => decide (d.FromClass = c))).map
        (fun d => d.ToClass) := by
    intro c
    simp [targetsOf, List.filter_map, Function.comp_def]
  have hget : ∀ c : String, (GetDependencyGraph result).get? c =
      if (result.ClassDependencies.filter (fun d => decide (d.FromClass = c))) = [] then none
      else some ((result.ClassDependencies.filter (fun d => decide (d.FromClass = c))).map
        (fun d => d.ToClass)) := by
    intro c
    rw [hfold, h1 c, htargets c]
    simp only [List.map_eq_nil_iff]
  refine ⟨hget, ?_, ?_, ?_⟩
  · intro c
    have hn := GoMap.get?_eq_none_iff (GetDependencyGraph result) c
    rw [hget c] at hn
    constructor
    · intro hk
      by_contra hex
      have hnil : result.ClassDependencies.filter (fun d => decide (d.FromClass = c)) = [] := by
        rw [List.filter_eq_nil_iff]
        intro d hd hdc
        exact hex ⟨d, hd, by simpa using hdc⟩
      rw [if_pos hnil] at hn
      exact hn.mp rfl hk
    · rintro ⟨d, hd, hdc⟩
      by_contra hk
      have hne : ¬ result.ClassDependencies.filter (fun d => decide (d.FromClass = c)) = [] := by
        rw [List.filter_eq_nil_iff]
        intro h
        exact h d hd (by simpa using hdc)
      rw [if_neg hne] at hn
      have := hn.mpr hk
      cases this
  · rw [hfold]; exact h2
  · rw [hfold, h3]; simp

/-- C18: in the graph of `GetMethodCallGraph` the entry of a key `CallerClass.CallerMethod`
is the list of the texts `CalleeClass.CalleeMethod` of exactly the calls with that caller
key, in the order of the calls and with duplicates kept; the number of keys is the number
of distinct caller keys, and the lengths of the lists add up to the number of calls. -/
theorem method_call_graph_adjacency (result : DependencyAnalysisResult) :
    (∀ key : String, (GetMethodCallGraph result).get? key =
      if (result.MethodCalls.filter (fun call =>
          decide (sprintfDot call.CallerClass call.CallerMethod = key))) = [] then none
      else some ((result.MethodCalls.filter (fun call =>
          decide (sprintfDot call.CallerClass call.CallerMethod = key))).map
        (fun call => sprintfDot call.CalleeClass call.CalleeMethod))) ∧
    ((GetMethodCallGraph result).map Prod.fst).Nodup ∧
    (GetMethodCallGraph result).length =
      (result.MethodCalls.map (fun call =>
        sprintfDot call.CallerClass call.CallerMethod)).dedup.length ∧
    ((GetMethodCallGraph result).map (fun e => e.2.length)).sum = result.MethodCalls.length := by
  have hfold : GetMethodCallGraph result =
      (result.MethodCalls.map (fun call => (sprintfDot call.CallerClass call.CallerMethod,
        sprintfDot call.CalleeClass call.CalleeMethod))).foldl
        (fun g p => appendTarget g p.1 p.2) [] := by
    unfold GetMethodCallGraph
    rw [List.foldl_map]
  obtain ⟨h1, h2, h3⟩ :=
    foldl_appendTarget (result.MethodCalls.map (fun call =>
      (sprintfDot call.CallerClass call.CallerMethod,
        sprintfDot call.CalleeClass call.CalleeMethod)))
  have h4 := foldl_appendTarget_length (result.MethodCalls.map (fun call =>
      (sprintfDot call.CallerClass call.CallerMethod,
        sprintfDot call.CalleeClass call.CalleeMethod)))
  refine ⟨?_, ?_, ?_, ?_⟩
  · intro key
    rw [hfold, h1 key]
    have : targetsOf (result.MethodCalls.map (fun call =>
        (sprintfDot call.CallerClass call.CallerMethod,
          sprintfDot call.CalleeClass call.CalleeMethod))) key =
        (result.MethodCalls.filter (fun call =>
          decide (sprintfDot call.CallerClass call.CallerMethod = key))).map
        (fun call => sprintfDot call.CalleeClass call.CalleeMethod) := by
      simp [targetsOf, List.filter_map, Function.comp_def]
    rw [this]
    simp only [List.map_eq_nil_iff]
  · rw [hfold]; exact h2
  · rw [hfold, h4]
    simp [Function.comp_def]
  · rw [hfold, h3]; simp

/-- C20: of the types that an interface extends, the parser records the first only: the
source `interface I extends A, B {}` gives, without error, exactly one declaration, with
name `I`, `IsInterface` true, parent `A` and no interfaces; the same holds for the tokens
`interface I extends A , ...` with any names and any tokens after the comma that hold no
`class` or `interface` keyword. -/
theorem interface_extends_records_first :
    (∀ U : UnicodeTables,
      ParseClassDeclarations (NewJavaASTParser U "interface I extends A, B \x7b\x7d") =
        (Except.ok [{ Name := "I", ParentClass := "A", Interfaces := [], IsInterface := true }],
          [])) ∧
    (∀ (I A : String) (rest : JavaASTParser), (∀ t ∈ rest, atClassKeyword [t] = false) →
      (ParseClassDeclarations
        (tokKeyword "interface" :: tokIdent I :: tokKeyword "extends" :: tokIdent A ::
          tokComma :: rest)).1 =
        Except.ok [{ Name := I, ParentClass := A, Interfaces := [], IsInterface := true }]) := by
  constructor
  · intro U
    rw [NewJavaASTParser_ascii U _ (by decide)]
    decide
  · intro I A rest hrest
    have hskip := currentTok_skipToNextDeclaration (tokComma :: rest) (by
      intro t ht
      rcases List.mem_cons.mp ht with rfl | ht
      · decide
      · exact hrest t ht)
    have hparse : parseClassDeclaration
        (tokKeyword "interface" :: tokIdent I :: tokKeyword "extends" :: tokIdent A ::
          tokComma :: rest) =
        (Except.ok { Name := I, ParentClass := A, Interfaces := [], IsInterface := true },
          tokComma :: rest) := by
      rw [parseClassDeclaration_at_keyword (tokKeyword "interface")
        (tokIdent I :: tokKeyword "extends" :: tokIdent A :: tokComma :: rest) rfl]
      have h1 : ¬ (currentTok (tokKeyword "extends" :: tokIdent A :: tokComma :: rest) =
          JavaToken.TOKEN_OPERATOR ∧
          currentText (tokKeyword "extends" :: tokIdent A :: tokComma :: rest) = ".") := by
        simp [currentTok, tokKeyword]
      have h2 : ¬ (currentTok (tokKeyword "extends" :: tokIdent A :: tokComma :: rest) =
          JavaToken.TOKEN_OPERATOR ∧
          currentText (tokKeyword "extends" :: tokIdent A :: tokComma :: rest) = "<") := by
        simp [currentTok, tokKeyword]
      have h3 : ¬ (currentTok (tokComma :: rest) = JavaToken.TOKEN_OPERATOR ∧
          currentText (tokComma :: rest) = ".") := by
        simp only [currentTok, currentText, tokComma, true_and]
        decide
      have h4 : ¬ (currentTok (tokComma :: rest) = JavaToken.TOKEN_OPERATOR ∧
          currentText (tokComma :: rest) = "<") := by
        simp only [currentTok, currentText, tokComma, true_and]
        decide
      have h5 : ¬ (currentTok (tokComma :: rest) = JavaToken.TOKEN_KEYWORD ∧
          currentText (tokComma :: rest) = "implements") := by
        simp [currentTok, tokComma]
      have h6 : currentTok (tokKeyword "extends" :: tokIdent A :: tokComma :: rest) =
          JavaToken.TOKEN_KEYWORD ∧
          currentText (tokKeyword "extends" :: tokIdent A :: tokComma :: rest) = "extends" :=
        ⟨rfl, rfl⟩
      simp only [parseClassName]
      rw [parseIdentifier_single I _ h1]
      simp only [parseTypeParameters_skip _ h2, parseExtendsClause]
      rw [if_pos h6]
      simp only [nextToken, List.tail_cons]
      rw [parseIdentifier_single A _ h3]
      simp only [parseTypeParameters_skip _ h4, parseImplementsClause]
      rw [if_neg h5]
      rfl
    unfold ParseClassDeclarations
    simp only [List.length_cons, ParseClassDeclarationsLoop]
    have hcur : currentTok (tokKeyword "interface" :: tokIdent I :: tokKeyword "extends" ::
        tokIdent A :: tokComma :: rest) = JavaToken.TOKEN_KEYWORD := rfl
    have hat : atClassKeyword (tokKeyword "interface" :: tokIdent I :: tokKeyword "extends" ::
        tokIdent A :: tokComma :: rest) = true := rfl
    simp only [hcur, hat, hparse, hskip, ↓reduceIte, reduceCtorEq, List.nil_append]

/-- Witness of C20 at the tokens of `interface I extends A, B`. -/
theorem interface_extends_records_first_witness :
    (ParseClassDeclarations
      (tokKeyword "interface" :: tokIdent "I" :: tokKeyword "extends" :: tokIdent "A" ::
        tokComma :: [tokIdent "B"])).1 =
      Except.ok [{ Name := "I", ParentClass := "A", Interfaces := [], IsInterface := true }] :=
  interface_extends_records_first.2 "I" "A" [tokIdent "B"] (by decide)

/-- C15: for every unit and every call produced from it, `CallerMethod` is the name of the
first method of the method list of the unit when that list is not empty, and the fallback
`unknown` when it is empty: the text of a match is searched in the source of the whole
class, where it is always found.  When no method of the unit is itself named `unknown`,
`CallerMethod` is `unknown` exactly when the method list is empty. -/
theorem caller_method_is_first_method (classInfo : DecompiledClass)
    (result : DependencyAnalysisResult) :
    (∀ m ∈ FindAllStringSubmatch methodCallRegex classInfo.SourceCode,
      stringsContains classInfo.SourceCode m.1 = true) ∧
    (∀ call ∈ (analyzeMethodCalls classInfo result).MethodCalls.drop result.MethodCalls.length,
      call.CallerMethod =
        match classInfo.Methods with
        | [] => "unknown"
        | method :: _ => method.Name) ∧
    (∀ call ∈ (analyzeMethodCalls classInfo result).MethodCalls.drop result.MethodCalls.length,
      (∀ method ∈ classInfo.Methods, method.Name ≠ "unknown") →
      (call.CallerMethod = "unknown" ↔ classInfo.Methods = [])) := by
  have h2 : ∀ call ∈ (analyzeMethodCalls classInfo result).MethodCalls.drop
      result.MethodCalls.length,
      call.CallerMethod =
        match classInfo.Methods with
        | [] => "unknown"
        | method :: _ => method.Name := by
    intro call hcall
    simp only [analyzeMethodCalls, List.drop_left, List.mem_map] at hcall
    obtain ⟨m, hm, rfl⟩ := hcall
    exact findContainingMethod_first classInfo m.1 (stringsContains_match _ _ m hm)
  refine ⟨fun m hm => stringsContains_match _ _ m hm, h2, ?_⟩
  intro call hcall hnames
  have h := h2 call hcall
  cases hm : classInfo.Methods with
  | nil =>
    rw [hm] at h
    exact ⟨fun _ => rfl, fun _ => h⟩
  | cons method rest =>
    rw [hm] at h
    have hne : method.Name ≠ "unknown" := hnames method (by rw [hm]; exact List.mem_cons_self _ _)
    constructor
    · intro hc
      rw [h] at hc
      exact absurd hc hne
    · intro hc
      cases hc

/-- Witness of C15 at the unit of the test case `class with method calls`, whose methods
are `saveData` and `loadData`. -/
theorem caller_method_is_first_method_witness :
    (∀ method ∈ serviceClassUnit.Methods, method.Name ≠ "unknown") ∧
    ∀ call ∈ (analyzeMethodCalls serviceClassUnit {}).MethodCalls.drop
        ({} : DependencyAnalysisResult).MethodCalls.length,
      call.CallerMethod = "saveData" ∧
      (call.CallerMethod = "unknown" ↔ serviceClassUnit.Methods = []) :=
  ⟨by decide, fun call hcall =>
    ⟨(caller_method_is_first_method serviceClassUnit {}).2.1 call hcall,
     (caller_method_is_first_method serviceClassUnit {}).2.2 call hcall (by decide)⟩⟩

/-- C16 (failing input): for the unit of the test case `class with method calls` all six
calls have `CallerMethod` equal to `saveData`, also the three calls of `load`,
`connect` and `disconnect` whose call sites lie in the body of `loadData`. -/
theorem service_class_calls_all_from_first_method :
    (∀ (U : UnicodeTables) (o : RangeOrder),
      ∃ r, AnalyzeDependencies U o (some [("ServiceClass", some serviceClassUnit)]) =
          Except.ok r ∧
        r.MethodCalls.map (fun call => (call.CallerMethod, call.CalleeMethod)) =
          [("saveData", "connect"), ("saveData", "save"), ("saveData", "disconnect"),
           ("saveData", "connect"), ("saveData", "load"), ("saveData", "disconnect")]) := by
  intro U o
  refine ⟨buildClassDependencies o (analyzeClass U o {} ("ServiceClass", some serviceClassUnit)),
    ?_, ?_⟩
  · simp [AnalyzeDependencies, analyzeClasses, o.order_singleton]
  · show ((analyzeClass U o {} ("ServiceClass", some serviceClassUnit)).MethodCalls).map _ = _
    rw [analyzeClass_methodCalls]
    decide

/-- C13: for every non-nil input the analysis returns a result whose number of edges is
the number of fields, over all units, whose stripped base type is neither empty nor
primitive, plus the number of keys of the inheritance map (its keys are distinct), plus
the total number of interfaces in the interface map, plus the number of recorded imports
whose last segment is not the star; its number of calls is the total number of matches
of the call pattern over the sources of the units.  The unit of the first test case gives
5 edges and 3 calls, the unit of the second gives 1 edge and 6 calls. -/
theorem analyze_edge_and_call_counts :
    (∀ (U : UnicodeTables) (o : RangeOrder) (classes : GoMap (Option DecompiledClass)),
      ∃ r, AnalyzeDependencies U o (some classes) = Except.ok r ∧
        (r.InheritanceTree.map Prod.fst).Nodup ∧
        r.ClassDependencies.length =
          ((unitsOf classes).map (fun c => c.Fields.countP isFieldDependency)).sum +
          r.InheritanceTree.length +
          (r.InterfaceImpls.map (fun e => e.2.length)).sum +
          (r.ImportStatements.flatMap Prod.snd).countP
            (fun p => decide (lastSegment p ≠ "*")) ∧
        r.MethodCalls.length =
          ((unitsOf classes).map (fun c =>
            (FindAllStringSubmatch methodCallRegex c.SourceCode).length)).sum) ∧
    (∀ (U : UnicodeTables) (o : RangeOrder),
      ∃ r, AnalyzeDependencies U o (some [("TestClass", some testClassUnit)]) = Except.ok r ∧
        r.ClassDependencies.length = 5 ∧ r.MethodCalls.length = 3) ∧
    (∀ (U : UnicodeTables) (o : RangeOrder),
      ∃ r, AnalyzeDependencies U o (some [("ServiceClass", some serviceClassUnit)]) =
          Except.ok r ∧
        r.ClassDependencies.length = 1 ∧ r.MethodCalls.length = 6) := by
  refine ⟨?_, ?_, ?_⟩
  · intro U o classes
    refine ⟨_, rfl, ?_, (analyze_counts U o classes).1, (analyze_counts U o classes).2⟩
    exact (analyzeClasses_maps_nodup U o (o.order classes) {} List.nodup_nil List.nodup_nil
      List.nodup_nil).1
  · intro U o
    have hparse : ParseJavaInheritance U testClassUnit.SourceCode =
        Except.ok ([("TestClass", "BaseClass")],
          [("TestClass", ["Runnable"])]) := by
      rw [ParseJavaInheritance_ascii U _ (by decide)]
      decide
    refine ⟨_, rfl, ?_, ?_⟩
    · rw [(analyze_counts U o _).1, o.order_singleton]
      show _ + (analyzeClass U o {} ("TestClass", some testClassUnit)).InheritanceTree.length +
        ((analyzeClass U o {} ("TestClass", some testClassUnit)).InterfaceImpls.map _).sum +
        ((analyzeClass U o {} ("TestClass", some testClassUnit)).ImportStatements.flatMap
          _).countP _ = 5
      rw [analyzeClass_inheritanceTree, analyzeClass_interfaceImpls,
        analyzeClass_importStatements, hparse]
      simp only [o.order_singleton]
      decide
    · rw [(analyze_counts U o _).2]
      decide
  · intro U o
    have hparse : ParseJavaInheritance U serviceClassUnit.SourceCode =
        Except.ok ([], []) := by
      rw [ParseJavaInheritance_ascii U _ (by decide)]
      decide
    refine ⟨_, rfl, ?_, ?_⟩
    · rw [(analyze_counts U o _).1, o.order_singleton]
      show _ + (analyzeClass U o {} ("ServiceClass", some serviceClassUnit)).InheritanceTree.length +
        ((analyzeClass U o {} ("ServiceClass", some serviceClassUnit)).InterfaceImpls.map _).sum +
        ((analyzeClass U o {} ("ServiceClass", some serviceClassUnit)).ImportStatements.flatMap
          _).countP _ = 1
      rw [analyzeClass_inheritanceTree, analyzeClass_interfaceImpls,
        analyzeClass_importStatements, hparse]
      simp only [o.order_nil]
      decide
    · rw [(analyze_counts U o _).2]
      decide

/-- C14: for every unit `analyzeMethodCalls` keeps the calls recorded before and appends
one call per match of `identifier.identifier(` in the source of the unit, the matches
being taken from left to right without overlap (white space may stand before the
parenthesis), in the order of the source: `CalleeClass` is the left identifier,
`CalleeMethod` the right one, `CallerClass` the class name of the unit and `LineNumber`
is 0.  In the chain `System.out.println(` the only call reported is `(out, println)`. -/
theorem method_calls_are_pattern_matches :
    (∀ (classInfo : DecompiledClass) (result : DependencyAnalysisResult),
      ∃ added : List MethodCall,
        (analyzeMethodCalls classInfo result).MethodCalls = result.MethodCalls ++ added ∧
        added.map (fun call =>
            (call.CallerClass, call.CalleeClass, call.CalleeMethod, call.LineNumber)) =
          (specCalls classInfo.SourceCode).map (fun m =>
            (classInfo.ClassName, m.1, m.2, (0 : Int)))) ∧
    specCalls "System.out.println(\"Running\");" = [("out", "println")] ∧
    (analyzeMethodCalls { ClassName := "A", SourceCode := "System.out.println(\"Running\");" }
        {}).MethodCalls.map (fun call => (call.CalleeClass, call.CalleeMethod)) =
      [("out", "println")] ∧
    specCalls "a.b (c.d(), e . f())" = [("a", "b"), ("c", "d")] := by
  refine ⟨?_, by decide, by decide, by decide⟩
  intro classInfo result
  refine ⟨_, rfl, ?_⟩
  have h := findAllLoop_methodCallRegex (classInfo.SourceCode.length + 1) false
    classInfo.SourceCode.toList
  unfold specCalls
  rw [← h]
  unfold FindAllStringSubmatch
  simp only [List.map_map]
  rfl

/-- C19: for every source made of import statements of the forms `import p;`,
`import static p;` and `import p.*;`, white space between them, followed by code in which
`extractImports` finds nothing, `extractImports` returns one entry per statement in the
order of the source: the path `p` without the word `static`, with the suffix `.*` kept for
a wildcard import.  The dotted paths of identifiers are paths in this sense; a source
without the word `import` yields the empty list; the sources of the test give the
expected entries. -/
theorem extract_imports_of_statements :
    (∀ (stmts : List SpecImport) (tail : String),
      (∀ i ∈ stmts, i.wellFormed = true) → extractImports tail = [] →
      extractImports (String.mk (specSource stmts tail.toList)) =
        stmts.map (fun i => String.mk i.recorded)) ∧
    (∀ segs : List (List Char), segs ≠ [] → (∀ w ∈ segs, isIdentifierText w = true) →
      isImportPath (dottedPath segs) = true) ∧
    (∀ source : String, stringsContains source "import" = false →
      extractImports source = []) ∧
    extractImports "public class Test \x7b\x7d" = [] ∧
    extractImports "import java.util.List;\npublic class Test \x7b\x7d" = ["java.util.List"] ∧
    extractImports ("import java.util.List;\nimport java.util.ArrayList;\n" ++
        "import static java.lang.System.out;\npublic class Test \x7b\x7d") =
      ["java.util.List", "java.util.ArrayList", "java.lang.System.out"] ∧
    extractImports "import java.util.*;\npublic class Test \x7b\x7d" = ["java.util.*"] := by
  refine ⟨extractImports_specSource, isImportPath_dottedPath, extractImports_nil_of_no_word,
    by decide, by decide, by decide, by decide⟩

/-- Witness of C19: a plain, a static and a wildcard import before a class. -/
theorem extract_imports_of_statements_witness :
    extractImports (String.mk (specSource
      [{ lead := [], gap := [' '], isStatic := false, staticGap := [],
         path := "java.util.List".toList, wildcard := false },
       { lead := ['\n'], gap := [' '], isStatic := true, staticGap := [' ', ' '],
         path := "java.lang.System.out".toList, wildcard := false },
       { lead := ['\n', '\t'], gap := ['\t'], isStatic := false, staticGap := [],
         path := "java.util".toList, wildcard := true }]
      "\npublic class Test \x7b\x7d".toList)) =
    ["java.util.List", "java.lang.System.out", "java.util.*"] :=
  extract_imports_of_statements.1
    [{ lead := [], gap := [' '], isStatic := false, staticGap := [],
       path := "java.util.List".toList, wildcard := false },
     { lead := ['\n'], gap := [' '], isStatic := true, staticGap := [' ', ' '],
       path := "java.lang.System.out".toList, wildcard := false },
     { lead := ['\n', '\t'], gap := ['\t'], isStatic := false, staticGap := [],
       path := "java.util".toList, wildcard := true }]
    "\npublic class Test \x7b\x7d" (by decide) (by decide)

/-- C12 (counterexample): two units of different packages declare a class `A`, one with one
interface and one with two.  Visited as stored, the analysis returns the two edges of the
second unit; visited in the reverse order, it returns the one edge of the first unit: the
number of edges and the set of edges both depend on the order of the iteration. -/
theorem same_name_units_depend_on_order :
    (AnalyzeDependencies asciiTables storedOrder (some sameNameUnits)).map
        (fun r => r.ClassDependencies) =
      Except.ok [{ FromClass := "A", ToClass := "Y", DepType := "implements" },
                 { FromClass := "A", ToClass := "Z", DepType := "implements" }] ∧
    (AnalyzeDependencies asciiTables reversedOrder (some sameNameUnits)).map
        (fun r => r.ClassDependencies) =
      Except.ok [{ FromClass := "A", ToClass := "X", DepType := "implements" }] := by
  decide

/-- C12 (as amended): when the keys of the input map are distinct and no class name is
recorded with a parent, or with interfaces, from the sources of two units, the results of
the analysis for any two orders of iteration have the same edges up to their order: the
same number of edges and the same set of edges, and likewise for the calls. -/
theorem analyze_order_independent (U : UnicodeTables) (o1 o2 : RangeOrder)
    (classes : GoMap (Option DecompiledClass)) (hkeys : (classes.map Prod.fst).Nodup)
    (hparents : ((recordedParents U classes).map Prod.fst).Nodup)
    (hifaces : ((recordedInterfaces U classes).map Prod.fst).Nodup) :
    ∃ r1 r2, AnalyzeDependencies U o1 (some classes) = Except.ok r1 ∧
      AnalyzeDependencies U o2 (some classes) = Except.ok r2 ∧
      r1.ClassDependencies.Perm r2.ClassDependencies ∧
      r1.ClassDependencies.length = r2.ClassDependencies.length ∧
      (∀ d, d ∈ r1.ClassDependencies ↔ d ∈ r2.ClassDependencies) ∧
      r1.MethodCalls.Perm r2.MethodCalls := by
  have hp : (buildClassDependencies o1
      (analyzeClasses U o1 (o1.order classes) {})).ClassDependencies.Perm
      (buildClassDependencies o2 (analyzeClasses U o2 (o2.order classes) {})).ClassDependencies :=
    (classDependencies_perm U o1 classes hkeys hparents hifaces).trans
      (classDependencies_perm U o2 classes hkeys hparents hifaces).symm
  exact ⟨_, _, rfl, rfl, hp, hp.length_eq, fun d => hp.mem_iff,
    (methodCalls_perm U o1 classes).trans (methodCalls_perm U o2 classes).symm⟩

/-- Witness of C12 (as amended) at two units that declare classes of different names, for
the stored order and the reverse order. -/
theorem analyze_order_independent_witness :
    ∃ r1 r2, AnalyzeDependencies asciiTables storedOrder (some distinctNameUnits) =
        Except.ok r1 ∧
      AnalyzeDependencies asciiTables reversedOrder (some distinctNameUnits) = Except.ok r2 ∧
      r1.ClassDependencies.Perm r2.ClassDependencies ∧
      r1.ClassDependencies.length = r2.ClassDependencies.length ∧
      (∀ d, d ∈ r1.ClassDependencies ↔ d ∈ r2.ClassDependencies) ∧
      r1.MethodCalls.Perm r2.MethodCalls :=
  analyze_order_independent asciiTables storedOrder reversedOrder distinctNameUnits
    (by decide) (by decide) (by decide)

/-- C26: `ValidateDecompiledClass` returns no error exactly when the class is not `nil`,
its class name and its source are not empty, and every method and every field has a name.
Otherwise it reports the first failing check, in the order `nil`, class name, source,
methods, fields; the message for a method or a field without a name carries the index of
the first such element.  The six cases of the test give the expected results. -/
theorem validate_reports_first_failure :
    (∀ cls : Option DecompiledClass, ValidateDecompiledClass cls = none ↔
      ∃ c, cls = some c ∧ c.ClassName ≠ "" ∧ c.SourceCode ≠ "" ∧
        (∀ m ∈ c.Methods, m.Name ≠ "") ∧ (∀ f ∈ c.Fields, f.Name ≠ "")) ∧
    ValidateDecompiledClass none = some "decompiled class cannot be nil" ∧
    (∀ c : DecompiledClass, c.ClassName = "" →
      ValidateDecompiledClass (some c) = some "class name cannot be empty") ∧
    (∀ c : DecompiledClass, c.ClassName ≠ "" → c.SourceCode = "" →
      ValidateDecompiledClass (some c) = some "source code cannot be empty") ∧
    (∀ (c : DecompiledClass) (before after : List DecompiledMethod) (m : DecompiledMethod),
      c.ClassName ≠ "" → c.SourceCode ≠ "" → c.Methods = before ++ m :: after →
      (∀ x ∈ before, x.Name ≠ "") → m.Name = "" →
      ValidateDecompiledClass (some c) =
        some ("method name at index " ++ fmtIndex before.length ++ " cannot be empty")) ∧
    (∀ (c : DecompiledClass) (before after : List DecompiledField) (f : DecompiledField),
      c.ClassName ≠ "" → c.SourceCode ≠ "" → (∀ m ∈ c.Methods, m.Name ≠ "") →
      c.Fields = before ++ f :: after → (∀ x ∈ before, x.Name ≠ "") → f.Name = "" →
      ValidateDecompiledClass (some c) =
        some ("field name at index " ++ fmtIndex before.length ++ " cannot be empty")) ∧
    ValidateDecompiledClass (some { ClassName := "", SourceCode := "public class Test \x7b\x7d" }) =
      some "class name cannot be empty" ∧
    ValidateDecompiledClass (some { ClassName := "TestClass", SourceCode := "" }) =
      some "source code cannot be empty" ∧
    ValidateDecompiledClass (some
        { ClassName := "TestClass", SourceCode := "public class TestClass \x7b\x7d",
          Methods := [{ Name := "", ReturnType := "void" }] }) =
      some "method name at index 0 cannot be empty" ∧
    ValidateDecompiledClass (some
        { ClassName := "TestClass", SourceCode := "public class TestClass \x7b\x7d",
          Fields := [{ Name := "", Type_ := "String" }] }) =
      some "field name at index 0 cannot be empty" ∧
    ValidateDecompiledClass (some
        { ClassName := "TestClass", SourceCode := "public class TestClass \x7b\x7d",
          Methods := [{ Name := "testMethod", ReturnType := "void" }],
          Fields := [{ Name := "testField", Type_ := "String" }] }) = none := by
  refine ⟨?_, rfl, ?_, ?_, ?_, ?_, by decide, by decide, by decide, by decide, by decide⟩
  · intro cls
    cases cls with
    | none => simp [ValidateDecompiledClass]
    | some c =>
      simp only [ValidateDecompiledClass, Option.some.injEq, exists_eq_left']
      by_cases h1 : c.ClassName = ""
      · simp [h1]
      · by_cases h2 : c.SourceCode = ""
        · simp [h1, h2]
        · simp only [h1, h2, if_false, ne_eq, not_false_eq_true, true_and]
          cases hm : validateMethods 0 c.Methods with
          | none =>
            simp only
            rw [validateFields_none]
            have := (validateMethods_none c.Methods 0).mp hm
            exact ⟨fun hf => ⟨this, hf⟩, fun h => h.2⟩
          | some e =>
            simp only [reduceCtorEq, false_iff, not_and]
            intro hall
            have := (validateMethods_none c.Methods 0).mpr hall
            rw [hm] at this
            cases this
  · intro c h
    simp [ValidateDecompiledClass, h]
  · intro c h1 h2
    simp [ValidateDecompiledClass, h1, h2]
  · intro c before after m h1 h2 hm hb hn
    simp only [ValidateDecompiledClass, if_neg h1, if_neg h2, hm]
    rw [validateMethods_first before 0 m after hb hn, Nat.zero_add]
  · intro c before after f h1 h2 hms hf hb hn
    simp only [ValidateDecompiledClass, if_neg h1, if_neg h2, hf]
    rw [(validateMethods_none c.Methods 0).mpr hms]
    simp only
    rw [validateFields_first before 0 f after hb hn, Nat.zero_add]

/-- Witness of C26: a class whose second method and first field have no name. -/
theorem validate_reports_first_failure_witness :
    ValidateDecompiledClass (some
        { ClassName := "A", SourceCode := "class A \x7b\x7d",
          Methods := [{ Name := "f" }, { Name := "" }, { Name := "" }],
          Fields := [{ Name := "" }] }) =
      some ("method name at index " ++ fmtIndex 1 ++ " cannot be empty") :=
  validate_reports_first_failure.2.2.2.2.1
    { ClassName := "A", SourceCode := "class A \x7b\x7d",
      Methods := [{ Name := "f" }, { Name := "" }, { Name := "" }],
      Fields := [{ Name := "" }] }
    [{ Name := "f" }] [{ Name := "" }] { Name := "" }
    (by decide) (by decide) rfl (by decide) rfl

/-- C27: `ParseJavaInheritance` fails exactly when `ParseClassDeclarations` fails.
Otherwise a name is a key of the inheritance map exactly when some declaration of that
name has a parent, and its value is the parent of the last such declaration in the order
of the source; likewise for the interface map and the declarations with interfaces.  No
key occurs twice and no value is empty. -/
theorem inheritance_maps_of_declarations (U : UnicodeTables) (source : String) :
    ((∃ e, ParseJavaInheritance U source = Except.error e) ↔
      ∃ e, (ParseClassDeclarations (NewJavaASTParser U source)).1 = Except.error e) ∧
    (∀ ds : List ClassDeclaration,
      (ParseClassDeclarations (NewJavaASTParser U source)).1 = Except.ok ds →
      ∃ tree impls, ParseJavaInheritance U source = Except.ok (tree, impls) ∧
        (∀ n : String, n ∈ tree.map Prod.fst ↔ ∃ d ∈ ds, d.Name = n ∧ d.ParentClass ≠ "") ∧
        (∀ n : String, tree.get? n =
          ((ds.filter (fun d => decide (d.ParentClass ≠ "") && decide (d.Name = n))).getLast?).map
            (fun d => d.ParentClass)) ∧
        (∀ n : String, n ∈ impls.map Prod.fst ↔ ∃ d ∈ ds, d.Name = n ∧ d.Interfaces ≠ []) ∧
        (∀ n : String, impls.get? n =
          ((ds.filter (fun d => decide (d.Interfaces ≠ []) && decide (d.Name = n))).getLast?).map
            (fun d => d.Interfaces)) ∧
        (tree.map Prod.fst).Nodup ∧ (impls.map Prod.fst).Nodup ∧
        (∀ e ∈ tree, e.2 ≠ "") ∧ (∀ e ∈ impls, e.2 ≠ [])) := by
  constructor
  · constructor
    · rintro ⟨e, he⟩
      cases hp : (ParseClassDeclarations (NewJavaASTParser U source)).1 with
      | error e2 => exact ⟨e2, rfl⟩
      | ok ds =>
        rw [ParseJavaInheritance_of_ok U source ds hp] at he
        cases he
    · rintro ⟨e, he⟩
      exact ⟨_, ParseJavaInheritance_of_error U source e he⟩
  · intro ds hds
    refine ⟨_, _, ParseJavaInheritance_of_ok U source ds hds, ?_, ?_, ?_, ?_, ?_, ?_, ?_, ?_⟩
    · intro n
      rw [keys_foldl_set_filter_map]
      simp
    · intro n
      exact get?_foldl_set_filter_map ds _ (fun d => d.Name) (fun d => d.ParentClass) n
    · intro n
      rw [keys_foldl_set_filter_map]
      simp
    · intro n
      exact get?_foldl_set_filter_map ds _ (fun d => d.Name) (fun d => d.Interfaces) n
    · exact foldl_set_nodup _ [] List.nodup_nil
    · exact foldl_set_nodup _ [] List.nodup_nil
    · intro e he
      rcases mem_foldl_set _ _ e he with h | h
      · cases h
      · simp only [List.mem_map, List.mem_filter, decide_eq_true_eq] at h
        obtain ⟨d, ⟨_, hd⟩, rfl⟩ := h
        exact hd
    · intro e he
      rcases mem_foldl_set _ _ e he with h | h
      · cases h
      · simp only [List.mem_map, List.mem_filter, decide_eq_true_eq] at h
        obtain ⟨d, ⟨_, hd⟩, rfl⟩ := h
        exact hd

/-- Witness of C27: a source that declares `A` twice, with different parents, and `B`
without parent; the later parent of `A` is the value. -/
theorem inheritance_maps_of_declarations_witness :
    ∃ tree impls,
      ParseJavaInheritance asciiTables
        "class A extends B \x7b\x7d class A extends C implements I \x7b\x7d class B \x7b\x7d" =
        Except.ok (tree, impls) ∧
      tree.get? "A" = some "C" ∧ tree.get? "B" = none ∧ impls.get? "A" = some ["I"] ∧
      (tree.map Prod.fst).Nodup := by
  obtain ⟨tree, impls, h, _, h2, _, h4, h5, _⟩ :=
    (inheritance_maps_of_declarations asciiTables
      "class A extends B \x7b\x7d class A extends C implements I \x7b\x7d class B \x7b\x7d").2
      [{ Name := "A", ParentClass := "B" },
       { Name := "A", ParentClass := "C", Interfaces := ["I"] },
       { Name := "B" }] (by decide)
  exact ⟨tree, impls, h, (h2 "A").trans (by decide), (h2 "B").trans (by decide),
    (h4 "A").trans (by decide), h5⟩

/-- C28: for every input and every order of iteration, the edges of the result are grouped
by kind: first the `uses_field` edges, then the `extends` edges, then the `implements`
edges, then the `imports` edges; the kind of every edge is one of these four, and never
`method_call`. -/
theorem edges_grouped_by_kind (U : UnicodeTables) (o : RangeOrder)
    (classes : GoMap (Option DecompiledClass)) :
    ∃ r, AnalyzeDependencies U o (some classes) = Except.ok r ∧
      (∃ fieldEdges extendsEdges implementsEdges importsEdges : List ClassDependency,
        r.ClassDependencies = fieldEdges ++ extendsEdges ++ implementsEdges ++ importsEdges ∧
        (∀ d ∈ fieldEdges, d.DepType = "uses_field") ∧
        (∀ d ∈ extendsEdges, d.DepType = "extends") ∧
        (∀ d ∈ implementsEdges, d.DepType = "implements") ∧
        (∀ d ∈ importsEdges, d.DepType = "imports")) ∧
      (∀ d ∈ r.ClassDependencies, d.DepType = "uses_field" ∨ d.DepType = "extends" ∨
        d.DepType = "implements" ∨ d.DepType = "imports") ∧
      (∀ d ∈ r.ClassDependencies, d.DepType ≠ "method_call") := by
  have h1 : ∀ d ∈ (analyzeClasses U o (o.order classes) {}).ClassDependencies,
      d.DepType = "uses_field" := by
    intro d hd
    rw [analyzeClasses_deps] at hd
    simp only [List.mem_append, List.mem_flatMap] at hd
    rcases hd with hd | ⟨e, _, he⟩
    · cases hd
    · exact entryFieldEdges_depType e d he
  have h2 : ∀ d ∈ (o.order (analyzeClasses U o (o.order classes) {}).InheritanceTree).map
      (fun e => ({ FromClass := e.1, ToClass := e.2, DepType := "extends" } : ClassDependency)),
      d.DepType = "extends" := by
    intro d hd
    simp only [List.mem_map] at hd
    obtain ⟨e, _, rfl⟩ := hd
    rfl
  have h3 : ∀ d ∈ (o.order (analyzeClasses U o (o.order classes) {}).InterfaceImpls).flatMap
      (fun e => e.2.map (fun iface =>
        ({ FromClass := e.1, ToClass := iface, DepType := "implements" } : ClassDependency))),
      d.DepType = "implements" := by
    intro d hd
    simp only [List.mem_flatMap, List.mem_map] at hd
    obtain ⟨e, _, i, _, rfl⟩ := hd
    rfl
  have h4 : ∀ d ∈ (o.order (analyzeClasses U o (o.order classes) {}).ImportStatements).flatMap
      (fun e => e.2.flatMap (fun importPath => importDependency e.1 importPath)),
      d.DepType = "imports" := by
    intro d hd
    simp only [List.mem_flatMap] at hd
    obtain ⟨e, _, i, _, hi⟩ := hd
    exact importDependency_depType e.1 i d hi
  have hall : ∀ d ∈ (buildClassDependencies o
      (analyzeClasses U o (o.order classes) {})).ClassDependencies,
      d.DepType = "uses_field" ∨ d.DepType = "extends" ∨
        d.DepType = "implements" ∨ d.DepType = "imports" := by
    intro d hd
    rw [buildClassDependencies_deps] at hd
    simp only [List.mem_append] at hd
    rcases hd with ((hd | hd) | hd) | hd
    · exact Or.inl (h1 d hd)
    · exact Or.inr (Or.inl (h2 d hd))
    · exact Or.inr (Or.inr (Or.inl (h3 d hd)))
    · exact Or.inr (Or.inr (Or.inr (h4 d hd)))
  refine ⟨_, rfl, ⟨_, _, _, _, buildClassDependencies_deps o _, h1, h2, h3, h4⟩, hall, ?_⟩
  intro d hd hm
  rcases hall d hd with h | h | h | h <;> (rw [hm] at h; revert h; decide)

/-- C29: for a single unit stored under the key `K`, with class name `C`, whose source
declares one class `N` with a parent, the `uses_field` edges start at `C`, the `extends`
and `implements` edges start at `N`, the name read in the source, and the `imports` edges
start at `K`; so edges of the three sources start at the same class only when `K`, `C`
and `N` are the same. -/
theorem edge_sources_named_differently (U : UnicodeTables) (o : RangeOrder)
    (K N P : String) (classInfo : DecompiledClass) (impls : GoMap (List String))
    (hparse : ParseJavaInheritance U classInfo.SourceCode = Except.ok ([(N, P)], impls))
    (himpls : ∀ e ∈ impls, e.1 = N) :
    ∃ r, AnalyzeDependencies U o (some [(K, some classInfo)]) = Except.ok r ∧
      (∀ d ∈ r.ClassDependencies, d.DepType = "uses_field" →
        d.FromClass = classInfo.ClassName) ∧
      (∀ d ∈ r.ClassDependencies, d.DepType = "extends" ∨ d.DepType = "implements" →
        d.FromClass = N) ∧
      (∀ d ∈ r.ClassDependencies, d.DepType = "imports" → d.FromClass = K) ∧
      ({ FromClass := N, ToClass := P, DepType := "extends" } : ClassDependency) ∈
        r.ClassDependencies ∧
      (∀ d1 ∈ r.ClassDependencies, ∀ d2 ∈ r.ClassDependencies, ∀ d3 ∈ r.ClassDependencies,
        d1.DepType = "uses_field" → d2.DepType = "extends" → d3.DepType = "imports" →
        d1.FromClass = d2.FromClass → d2.FromClass = d3.FromClass →
        K = classInfo.ClassName ∧ classInfo.ClassName = N) := by
  have htree : (analyzeClass U o {} (K, some classInfo)).InheritanceTree = [(N, P)] := by
    rw [analyzeClass_inheritanceTree, hparse]
    simp only [o.order_singleton]
    rfl
  have himp : ∀ e ∈ (analyzeClass U o {} (K, some classInfo)).InterfaceImpls, e.1 = N := by
    intro e he
    rw [analyzeClass_interfaceImpls, hparse] at he
    rcases mem_foldl_set _ _ e he with h | h
    · cases h
    · exact himpls e ((o.mem_order _ _).mp h)
  have himports : (analyzeClass U o {} (K, some classInfo)).ImportStatements =
      [(K, extractImports classInfo.SourceCode)] := by
    rw [analyzeClass_importStatements]
    rfl
  have hcases : ∀ d ∈ (buildClassDependencies o
      (analyzeClass U o {} (K, some classInfo))).ClassDependencies,
      (d.DepType = "uses_field" ∧ d.FromClass = classInfo.ClassName) ∨
      ((d.DepType = "extends" ∨ d.DepType = "implements") ∧ d.FromClass = N) ∨
      (d.DepType = "imports" ∧ d.FromClass = K) := by
    intro d hd
    rw [mem_build_iff, htree, himports] at hd
    rcases hd with hd | ⟨e, he, rfl⟩ | ⟨e, he, i, hi, rfl⟩ | ⟨e, he, i, hi, hd⟩
    · rw [analyzeClass_deps] at hd
      simp only [List.mem_append, List.mem_flatMap] at hd
      rcases hd with hd | ⟨f, _, hf⟩
      · cases hd
      · exact Or.inl ⟨fieldDependency_depType classInfo f d hf,
          fieldDependency_fromClass classInfo f d hf⟩
    · simp only [List.mem_singleton] at he
      rw [he]
      exact Or.inr (Or.inl ⟨Or.inl rfl, rfl⟩)
    · exact Or.inr (Or.inl ⟨Or.inr rfl, himp e he⟩)
    · simp only [List.mem_singleton] at he
      rw [he] at hd
      exact Or.inr (Or.inr ⟨importDependency_depType _ _ d hd,
        importDependency_fromClass _ _ d hd⟩)
  have hfield : ∀ d ∈ (buildClassDependencies o
      (analyzeClass U o {} (K, some classInfo))).ClassDependencies,
      d.DepType = "uses_field" → d.FromClass = classInfo.ClassName := by
    intro d hd hk
    rcases hcases d hd with h | h | h
    · exact h.2
    · rcases h.1 with h1 | h1 <;> (rw [hk] at h1; exact absurd h1 (by decide))
    · have h1 := h.1
      rw [hk] at h1; exact absurd h1 (by decide)
  have hinh : ∀ d ∈ (buildClassDependencies o
      (analyzeClass U o {} (K, some classInfo))).ClassDependencies,
      d.DepType = "extends" ∨ d.DepType = "implements" → d.FromClass = N := by
    intro d hd hk
    rcases hcases d hd with h | h | h
    · have h1 := h.1
      rcases hk with hk | hk <;> (rw [hk] at h1; exact absurd h1 (by decide))
    · exact h.2
    · have h1 := h.1
      rcases hk with hk | hk <;> (rw [hk] at h1; exact absurd h1 (by decide))
  have himpo : ∀ d ∈ (buildClassDependencies o
      (analyzeClass U o {} (K, some classInfo))).ClassDependencies,
      d.DepType = "imports" → d.FromClass = K := by
    intro d hd hk
    rcases hcases d hd with h | h | h
    · have h1 := h.1
      rw [hk] at h1; exact absurd h1 (by decide)
    · rcases h.1 with h1 | h1 <;> (rw [hk] at h1; exact absurd h1 (by decide))
    · exact h.2
  refine ⟨buildClassDependencies o (analyzeClass U o {} (K, some classInfo)), ?_,
    hfield, hinh, himpo, ?_, ?_⟩
  · simp [AnalyzeDependencies, analyzeClasses, o.order_singleton]
  · apply mem_build_extends
    rw [htree]
    exact List.mem_singleton.mpr rfl
  · intro d1 h1 d2 h2 d3 h3 k1 k2 k3 e12 e23
    have a1 := hfield d1 h1 k1
    have a2 := hinh d2 h2 (Or.inl k2)
    have a3 := himpo d3 h3 k3
    constructor
    · rw [← a3, ← e23, ← e12, a1]
    · rw [← a1, e12, a2]

/-- Witness of C29: a unit stored under `unit1`, with class name `Recorded`, whose source
declares `Declared`; its four edges start at three different names. -/
theorem edge_sources_named_differently_witness :
    ∃ r, AnalyzeDependencies asciiTables storedOrder (some [("unit1", some threeNamesUnit)]) =
        Except.ok r ∧
      r.ClassDependencies =
        [{ FromClass := "Recorded", ToClass := "List", DepType := "uses_field" },
         { FromClass := "Declared", ToClass := "Base", DepType := "extends" },
         { FromClass := "Declared", ToClass := "Runnable", DepType := "implements" },
         { FromClass := "unit1", ToClass := "List", DepType := "imports" }] ∧
      (∀ d ∈ r.ClassDependencies, d.DepType = "uses_field" → d.FromClass = "Recorded") ∧
      (∀ d ∈ r.ClassDependencies, d.DepType = "extends" ∨ d.DepType = "implements" →
        d.FromClass = "Declared") ∧
      (∀ d ∈ r.ClassDependencies, d.DepType = "imports" → d.FromClass = "unit1") := by
  obtain ⟨r, hr, h1, h2, h3, _, _⟩ :=
    edge_sources_named_differently asciiTables storedOrder "unit1" "Declared" "Base"
      threeNamesUnit [("Declared", ["Runnable"])] (by decide) (by decide)
  refine ⟨r, hr, ?_, h1, h2, h3⟩
  have hr2 : AnalyzeDependencies asciiTables storedOrder (some [("unit1", some threeNamesUnit)]) =
      Except.ok (buildClassDependencies storedOrder
        (analyzeClasses asciiTables storedOrder [("unit1", some threeNamesUnit)] {})) := rfl
  rw [hr2] at hr
  injection hr with hr3
  rw [← hr3]
  decide

/-- C30: `ParseClassDeclarations` terminates on every source.  Every iteration of the scan
loop leaves fewer tokens than it found: after a declaration parsed at a `class` or
`interface` keyword, after a parse attempt at a modifier, failed or not, and after the skip
of any other token.  So the result does not depend on the fuel once it exceeds the number
of tokens, the loops never run out of it, and a scan that returns without error stands at
the end of the input; for a source, no token is left. -/
theorem scan_loop_terminates :
    (∀ p : JavaASTParser, atClassKeyword p = true →
      (skipToNextDeclaration (parseClassDeclaration p).2).length < p.length) ∧
    (∀ p : JavaASTParser, currentTok p = JavaToken.TOKEN_KEYWORD →
      isModifierText (currentText p) = true →
      (nextToken (parseClassDeclaration p).2).length < p.length ∧
      (skipToNextDeclaration (parseClassDeclaration p).2).length < p.length) ∧
    (∀ p : JavaASTParser, currentTok p ≠ JavaToken.TOKEN_EOF →
      (nextToken p).length < p.length) ∧
    (∀ p : JavaASTParser, (parseTypeParameters p).length ≤ p.length) ∧
    (∀ (fuel : Nat) (declarations : List ClassDeclaration) (p : JavaASTParser),
      p.length < fuel →
      ParseClassDeclarationsLoop fuel declarations p =
        ParseClassDeclarationsLoop (p.length + 1) declarations p) ∧
    (∀ p : JavaASTParser,
      (ParseClassDeclarations p).1 ≠ Except.error "ParseClassDeclarations: out of fuel") ∧
    (∀ p : JavaASTParser,
      (parseInterfaceList p).1 ≠ Except.error "parseInterfaceList: out of fuel") ∧
    (∀ (p : JavaASTParser) (ds : List ClassDeclaration),
      (ParseClassDeclarations p).1 = Except.ok ds →
      currentTok (ParseClassDeclarations p).2 = JavaToken.TOKEN_EOF) ∧
    (∀ (U : UnicodeTables) (source : String) (ds : List ClassDeclaration),
      (ParseClassDeclarations (NewJavaASTParser U source)).1 = Except.ok ds →
      (ParseClassDeclarations (NewJavaASTParser U source)).2 = []) ∧
    (∀ U : UnicodeTables,
      ParseClassDeclarations (NewJavaASTParser U "public class A<T> extends <") =
        (Except.ok [], [])) ∧
    (∀ U : UnicodeTables,
      ParseClassDeclarations (NewJavaASTParser U "static class A<B extends") =
        (Except.ok [{ Name := "A", Modifiers := ["static"] }], [])) := by
  refine ⟨?_, ?_, ?_, parseTypeParameters_length, ?_, ?_, ?_, ?_, ?_, ?_, ?_⟩
  · intro p h
    have h1 := parseClassDeclaration_length_lt p (Or.inl h)
    have h2 := skipToNextDeclaration_length (parseClassDeclaration p).2
    omega
  · intro p hk hm
    have h1 := parseClassDeclaration_length_lt p (Or.inr ⟨hk, hm⟩)
    have h2 := skipToNextDeclaration_length (parseClassDeclaration p).2
    have h3 : (nextToken (parseClassDeclaration p).2).length ≤
        (parseClassDeclaration p).2.length := by simp [nextToken]
    exact ⟨by omega, by omega⟩
  · intro p h
    cases p with
    | nil => exact absurd rfl h
    | cons t r => simp [nextToken]
  · intro fuel declarations p h
    exact ParseClassDeclarationsLoop_fuel fuel (p.length + 1) declarations p h
      (Nat.lt_succ_self _)
  · intro p h
    rcases ParseClassDeclarationsLoop_error_head _ [] p _ (Nat.lt_succ_self _) h with h1 | h1
    · exact absurd h1 (by decide)
    · exact absurd h1 (by decide)
  · intro p h
    have h1 := parseInterfaceList_error_head p (parseInterfaceList p).2 _
      (Prod.ext h rfl)
    exact absurd h1 (by decide)
  · intro p ds h
    exact ParseClassDeclarationsLoop_ok_eof _ [] ds p h
  · intro U source ds h
    have h1 := ParseClassDeclarationsLoop_ok_eof _ [] ds (NewJavaASTParser U source) h
    have hsuf : ∀ t ∈ (ParseClassDeclarations (NewJavaASTParser U source)).2,
        t.tok ≠ JavaToken.TOKEN_EOF := by
      intro t ht
      exact NewJavaASTParser_no_eof U source t
        ((ParseClassDeclarations_state_suffix (NewJavaASTParser U source)).subset ht)
    cases hs : (ParseClassDeclarations (NewJavaASTParser U source)).2 with
    | nil => rfl
    | cons t r =>
      rw [hs] at hsuf
      have h2 : currentTok (ParseClassDeclarations (NewJavaASTParser U source)).2 = t.tok := by
        rw [hs]; rfl
      exact absurd (h2.symm.trans h1) (hsuf t (List.mem_cons_self _ _))
  · intro U
    rw [NewJavaASTParser_ascii U _ (by decide)]
    decide
  · intro U
    rw [NewJavaASTParser_ascii U _ (by decide)]
    decide

/-- Witness of C30 at the tokens of `public class A<T> extends <`: the failed attempt at
`public` leaves one token, which the loop then skips. -/
theorem scan_loop_terminates_witness :
    (nextToken (parseClassDeclaration (NewJavaASTParser asciiTables
        "public class A<T> extends <")).2).length <
      (NewJavaASTParser asciiTables "public class A<T> extends <").length ∧
    (skipToNextDeclaration (parseClassDeclaration (NewJavaASTParser asciiTables
        "public class A<T> extends <")).2).length <
      (NewJavaASTParser asciiTables "public class A<T> extends <").length :=
  scan_loop_terminates.2.1 (NewJavaASTParser asciiTables "public class A<T> extends <")
    (by decide) (by decide)

/-- C21: nested declarations are found by the same scan and reported in the order of the
source: for identifiers A, B, C that are no keywords, the source
`class A { class B extends C {} }` parses without error to exactly two declarations,
first `A` without parent, then `B` with parent `C`. -/
theorem nested_declarations_in_source_order (U : UnicodeTables) (A B C : String)
    (hA : isIdentifierLexeme U A = true) (hB : isIdentifierLexeme U B = true)
    (hC : isIdentifierLexeme U C = true)
    (kA : JavaKeywords A = false) (kB : JavaKeywords B = false)
    (kC : JavaKeywords C = false) :
    ParseClassDeclarations (NewJavaASTParser U
      ("class " ++ A ++ " \x7b class " ++ B ++ " extends " ++ C ++ " \x7b\x7d \x7d")) =
      (Except.ok [{ Name := A }, { Name := B, ParentClass := C }], []) := by
  unfold NewJavaASTParser
  rw [nested_tokens U A B C hA hB hC kA kB kC]
  rfl

/-- Witness of C21 at the source `class A { class B extends C {} }`. -/
theorem nested_declarations_in_source_order_witness :
    ParseClassDeclarations (NewJavaASTParser asciiTables
      "class A \x7b class B extends C \x7b\x7d \x7d") =
      (Except.ok [{ Name := "A" }, { Name := "B", ParentClass := "C" }], []) :=
  nested_declarations_in_source_order asciiTables "A" "B" "C" (by decide) (by decide)
    (by decide) (by decide) (by decide) (by decide)

/-- C22: for every identifier lexeme `w`, read after white space and before a character
that cannot continue it, `NextToken` returns the kind `TOKEN_KEYWORD` exactly when `w` is
one of the 50 entries of the table `JavaKeywords`, and the kind `TOKEN_IDENTIFIER`
otherwise; the text of the token is `w` itself. -/
theorem next_token_classifies_lexeme (U : UnicodeTables) (w : String) (ws rest : List Char)
    (hw : isIdentifierLexeme U w = true) (hws : ∀ c ∈ ws, isGoWhitespace c = true)
    (hrest : ∀ d ∈ rest.head?, isIdentRune U d 1 = false) :
    (NextToken U (ws ++ (w.toList ++ rest))).2 = rest ∧
    (NextToken U (ws ++ (w.toList ++ rest))).1.text = w ∧
    ((NextToken U (ws ++ (w.toList ++ rest))).1.tok = JavaToken.TOKEN_KEYWORD ↔
      w ∈ JavaKeywordsList) ∧
    ((NextToken U (ws ++ (w.toList ++ rest))).1.tok = JavaToken.TOKEN_IDENTIFIER ↔
      w ∉ JavaKeywordsList) ∧
    JavaKeywordsList.length = 50 ∧ JavaKeywordsList.Nodup := by
  obtain ⟨a, t, rfl, ha, ht⟩ := isIdentifierLexeme_iff U w hw
  have h := NextToken_word U ws a t rest hws ha ht hrest
  have hl : (String.mk (a :: t)).toList ++ rest = a :: (t ++ rest) := rfl
  rw [hl, h]
  refine ⟨rfl, rfl, ?_, ?_, by decide, by decide⟩
  · rw [← JavaKeywords_iff]
    cases JavaKeywords (String.mk (a :: t)) <;> simp
  · rw [← JavaKeywords_iff]
    cases JavaKeywords (String.mk (a :: t)) <;> simp

/-- Witness of C22 at the keyword `class`, read after a blank and a tab. -/
theorem next_token_classifies_lexeme_witness :
    (NextToken asciiTables (" \t".toList ++ ("class".toList ++ " A".toList))).1.text = "class" ∧
    ((NextToken asciiTables (" \t".toList ++ ("class".toList ++ " A".toList))).1.tok =
      JavaToken.TOKEN_KEYWORD ↔ "class" ∈ JavaKeywordsList) :=
  ⟨(next_token_classifies_lexeme asciiTables "class" " \t".toList " A".toList
      (by decide) (by decide) (by decide)).2.1,
   (next_token_classifies_lexeme asciiTables "class" " \t".toList " A".toList
      (by decide) (by decide) (by decide)).2.2.1⟩

/-- C23 (counterexample): in the source `a`, blank, tab, newline, blank, `b` the two
identifiers are separated by a run of white space, and the tokens that `NextToken` returns
are the two identifiers only: no token of the kind `TOKEN_WHITESPACE` stands between
them. -/
theorem whitespace_run_yields_no_token :
    tokenStream asciiTables (NewJavaLexer "a \t\n b") =
      [⟨JavaToken.TOKEN_IDENTIFIER, "a"⟩, ⟨JavaToken.TOKEN_IDENTIFIER, "b"⟩] := by
  decide

/-- C23 (as amended): blanks, tabs, newlines and returns before a token are skipped by the
scanner and yield no token: `NextToken`, and the whole sequence of tokens, are the same
with and without them.  A token of the kind `TOKEN_WHITESPACE` is always a single
character, a Unicode space other than those four; a form feed between two identifiers is
such a token, and two form feeds are two tokens. -/
theorem whitespace_tokens_only_for_other_spaces :
    (∀ (U : UnicodeTables) (ws rest : List Char), (∀ c ∈ ws, isGoWhitespace c = true) →
      NextToken U (ws ++ rest) = NextToken U rest ∧
      tokenStream U (ws ++ rest) = tokenStream U rest) ∧
    (∀ (U : UnicodeTables) (l : JavaLexer),
      (NextToken U l).1.tok = JavaToken.TOKEN_WHITESPACE →
      ∃ c : Char, (NextToken U l).1.text = String.mk [c] ∧ unicodeIsSpace c = true ∧
        isGoWhitespace c = false) ∧
    tokenStream asciiTables (NewJavaLexer "a\x0c\x0cb") =
      [⟨JavaToken.TOKEN_IDENTIFIER, "a"⟩, ⟨JavaToken.TOKEN_WHITESPACE, "\x0c"⟩,
       ⟨JavaToken.TOKEN_WHITESPACE, "\x0c"⟩, ⟨JavaToken.TOKEN_IDENTIFIER, "b"⟩] ∧
    NewJavaASTParser asciiTables "a\x0c\x0cb" =
      [⟨JavaToken.TOKEN_IDENTIFIER, "a"⟩, ⟨JavaToken.TOKEN_IDENTIFIER, "b"⟩] := by
  refine ⟨?_, NextToken_whitespace, by decide, by decide⟩
  intro U ws rest hws
  exact ⟨NextToken_skip_whitespace U ws rest hws, tokenStream_skip_whitespace U ws rest hws⟩

/-- Witness of C23 (as amended): the run of white space before `b` is skipped. -/
theorem whitespace_tokens_only_for_other_spaces_witness :
    NextToken asciiTables (" \t\n ".toList ++ "b".toList) = NextToken asciiTables "b".toList ∧
    tokenStream asciiTables (" \t\n ".toList ++ "b".toList) =
      tokenStream asciiTables "b".toList :=
  whitespace_tokens_only_for_other_spaces.1 asciiTables " \t\n ".toList "b".toList (by decide)

/-- C24 (failing input): for `public abstract class Foo {}` the function
`extractClassModifiers` returns `abstract` only: the group of the pattern is repeated, and
holds its last repetition.  With one modifier, or none, all modifiers are returned; with
three, the last one. -/
theorem class_modifiers_last_only :
    extractClassModifiers "public abstract class Foo \x7b\x7d" = ["abstract"] ∧
    (FindStringSubmatch classRegex "public abstract class Foo \x7b\x7d").map
        (fun m => (m.1, submatch m.2 1)) = some ("public abstract class ", "abstract ") ∧
    extractClassModifiers "public static final class Foo \x7b\x7d" = ["final"] ∧
    extractClassModifiers "public class Foo \x7b\x7d" = ["public"] ∧
    extractClassModifiers "class Foo \x7b\x7d" = [] := by
  decide

/-- C25 (failing input): for `public static void main(String[] args) {` the function
`extractMethods` yields one record, with name `main`, return type `void`, the one
parameter `String[] args`, and the modifier `static` only; the method is then missing
from the public methods.  With one modifier, or none, the record is as expected. -/
theorem method_modifiers_last_only :
    extractMethods "public static void main(String[] args) \x7b" =
      [{ Name := "main", ReturnType := "void", Parameters := ["String[] args"],
         Modifiers := ["static"] }] ∧
    GetAllPublicMethods
      [{ ClassName := "App",
         Methods := extractMethods "public static void main(String[] args) \x7b" }] = [] ∧
    extractMethods "public int add(int a, int b) \x7b" =
      [{ Name := "add", ReturnType := "int", Parameters := ["int a", "int b"],
         Modifiers := ["public"] }] ∧
    extractMethods "public Foo() \x7b" =
      [{ Name := "Foo", ReturnType := "void", Parameters := [], Modifiers := ["public"] }] ∧
    extractMethods "void run() throws IOException \x7b" =
      [{ Name := "run", ReturnType := "void", Parameters := [], Modifiers := [] }] := by
  decide

end JavaCore
